import Mathlib

/-!
A verification development for `ucbor`, the MicroPython CBOR module.

The module has two entry points, `cbor_loads` (decode) and `cbor_dumps`
(encode), both in `src/ucbor.c`.  They are recursive walks over a MicroPython
object tree on one side and over a TinyCBOR cursor / encoder on the other.

The embedding is shallow: C functions become Lean functions, a raised
MicroPython exception becomes `Except.error`, pointers to mutable structures
(`CborValue *it`, `CborEncoder *enc`, the parent list or dict) become explicit
state that is passed in and returned.  Loops that C runs without a bound take a
`fuel` argument; running out of fuel is the distinguished failure
`MpException.fuel`, which no C path produces.
-/

namespace UCbor

/-! ## Bytes -/

/-- One octet (`uint8_t`). -/
abbrev Byte := Fin 256

/-- Truncation of a number to one octet, `(uint8_t) n`. -/
def toByte (n : Nat) : Byte := ⟨n % 256, Nat.mod_lt _ (by decide)⟩

/-- The `k` low-order octets of `n`, most significant first (`put16`, `put32`, `put64`
for `k = 2, 4, 8`). -/
def beBytes : Nat → Nat → List Byte
  | 0, _ => []
  | k + 1, n => toByte (n / 256 ^ k) :: beBytes k n

/-- The number denoted by octets read most significant first (`get16`, `get32`, `get64`). -/
def beValue (bs : List Byte) : Nat :=
  bs.foldl (fun acc b => acc * 256 + b.val) 0

/-- Reinterpretation of an integer as `int64_t` (two's complement, modulo `2 ^ 64`). -/
def wrap64 (n : Int) : Int :=
  (n + 2 ^ 63) % 2 ^ 64 - 2 ^ 63

/-! ## Exceptions and build configuration -/

/-- What `mp_raise_*` raises.  `fuel` is not a MicroPython exception: it marks a model
run that was given too little fuel. `assertion` is a failed `assert(false)`. -/
inductive MpException where
  | ValueError (msg : String)
  | NotImplementedError (msg : String)
  | assertion
  | fuel
deriving DecidableEq

/-- The setting `MICROPY_FLOAT_IMPL` of the build, with the one C conversion that the
decoder needs in that build: in a double-precision build `mp_obj_new_float_from_f` widens
(`f2d`, on bit patterns), in a single-precision build `mp_obj_new_float_from_d` narrows
(`d2f`, on bit patterns). -/
inductive FloatImpl where
  | double (f2d : Nat → Nat)
  | single (d2f : Nat → Nat)

/-- Build-time settings and primitive-layer policies that `ucbor.c` depends on but does
not define.

* `floatImpl` is `MICROPY_FLOAT_IMPL` (line 259);
* `strUnicode` is `MICROPY_PY_BUILTINS_STR_UNICODE`: when set, `mp_obj_len` of a `str`
  counts characters, otherwise octets;
* `utf8_ok` is the UTF-8 check the primitive layer applies to a decoded text string. -/
structure Config where
  floatImpl : FloatImpl
  strUnicode : Bool
  utf8_ok : List Byte → Bool

/-- The truth value of `MICROPY_FLOAT_IMPL == MICROPY_FLOAT_IMPL_DOUBLE`. -/
def Config.floatImplDouble (cfg : Config) : Bool :=
  match cfg.floatImpl with
  | .double _ => true
  | .single _ => false

/-! ## The value tree (`mp_obj_t`) -/

/-- Modelled from the spec: the host value tree (`mp_obj_t`, whose runtime is not among the
sources).  One constructor per type tag that `ucbor.c` inspects or constructs: `None`,
`bool`, `int`, `float` (payload: the bit pattern of the runtime float), `str` and
`bytes` (payload: the octets), `list`, `tuple`, `dict` (pairs in stored order), and
`other` for an object of any further type. -/
inductive MpObj where
  | none
  | bool (b : Bool)
  | int (n : Int)
  | float (bits : Nat)
  | str (data : List Byte)
  | bytes (data : List Byte)
  | list (items : List MpObj)
  | tuple (items : List MpObj)
  | dict (pairs : List (MpObj × MpObj))
  | other (name : String)

mutual
/-- Structural equality of value trees, as a boolean test. -/
def MpObj.beq : MpObj → MpObj → Bool
  | .none, .none => true
  | .bool a, .bool b => a == b
  | .int a, .int b => a == b
  | .float a, .float b => a == b
  | .str a, .str b => a == b
  | .bytes a, .bytes b => a == b
  | .list a, .list b => MpObj.beqList a b
  | .tuple a, .tuple b => MpObj.beqList a b
  | .dict a, .dict b => MpObj.beqPairs a b
  | .other a, .other b => a == b
  | _, _ => false
/-- Structural equality of lists of value trees. -/
def MpObj.beqList : List MpObj → List MpObj → Bool
  | [], [] => true
  | x :: xs, y :: ys => MpObj.beq x y && MpObj.beqList xs ys
  | _, _ => false
/-- Structural equality of lists of key-value pairs. -/
def MpObj.beqPairs : List (MpObj × MpObj) → List (MpObj × MpObj) → Bool
  | [], [] => true
  | (k, v) :: xs, (k2, v2) :: ys => MpObj.beq k k2 && MpObj.beq v v2 && MpObj.beqPairs xs ys
  | _, _ => false
end

/-- Modelled from the spec: `mp_obj_list_append` of the host runtime: the element goes
last. -/
def mp_obj_list_append (items : List MpObj) (x : MpObj) : List MpObj :=
  items ++ [x]

/-- Modelled from the spec: `mp_obj_dict_store` of the host runtime: a key that is already
present keeps its place and gets the new value (last write wins), a new key goes
last. -/
def mp_obj_dict_store : List (MpObj × MpObj) → MpObj → MpObj → List (MpObj × MpObj)
  | [], k, v => [(k, v)]
  | (k0, v0) :: rest, k, v =>
    if MpObj.beq k0 k then (k0, v) :: rest else (k0, v0) :: mp_obj_dict_store rest k v

/-- The continuation-octet test `UTF8_IS_CONT` of the host runtime. -/
def utf8_is_cont (b : Byte) : Bool := b.val / 64 == 2

/-- Modelled from the spec: `mp_obj_len` of a `str` in the host runtime: the number of
characters (octets that are not UTF-8 continuation octets) in a Unicode build, the number
of octets otherwise. -/
def mp_obj_len_str (cfg : Config) (data : List Byte) : Nat :=
  if cfg.strUnicode then (data.filter (fun b => !utf8_is_cont b)).length else data.length

/-- Modelled from the spec: `mp_obj_get_int` of the host runtime, read as `int64_t`. -/
def mp_obj_get_int (n : Int) : Int := wrap64 n

/-! ## TinyCBOR error codes -/

/-- The enumerators of `CborError` that `cborerrorstrings.c` names (`cbor.h` is not among
the sources). -/
inductive CborError where
  | CborNoError
  | CborUnknownError
  | CborErrorUnknownLength
  | CborErrorAdvancePastEOF
  | CborErrorIO
  | CborErrorGarbageAtEnd
  | CborErrorUnexpectedEOF
  | CborErrorUnexpectedBreak
  | CborErrorUnknownType
  | CborErrorIllegalType
  | CborErrorIllegalNumber
  | CborErrorIllegalSimpleType
  | CborErrorNoMoreStringChunks
  | CborErrorUnknownSimpleType
  | CborErrorUnknownTag
  | CborErrorInappropriateTagForType
  | CborErrorDuplicateObjectKeys
  | CborErrorInvalidUtf8TextString
  | CborErrorExcludedType
  | CborErrorExcludedValue
  | CborErrorImproperValue
  | CborErrorOverlongEncoding
  | CborErrorMapKeyNotString
  | CborErrorMapNotSorted
  | CborErrorMapKeysNotUnique
  | CborErrorTooManyItems
  | CborErrorTooFewItems
  | CborErrorDataTooLarge
  | CborErrorNestingTooDeep
  | CborErrorUnsupportedType
  | CborErrorUnimplementedValidation
  | CborErrorJsonObjectKeyIsAggregate
  | CborErrorJsonObjectKeyNotString
  | CborErrorJsonNotImplemented
  | CborErrorOutOfMemory
  | CborErrorInternalError
deriving DecidableEq

open CborError

/-! ## TinyCBOR error strings (`cborerrorstrings.c`) -/

/-- The function `cbor_error_string` of `cborerrorstrings.c` (lines 80-152): a chain of
comparisons of the error code with enumerators of `CborError`, ending in an `else` that
calls the function again on `CborUnknownError`.  The argument is the code as the C `int`
it is.  The numeric values of the enumerators are declared in `cbor.h`, which is not among
the sources; `code` gives them. -/
def cbor_error_string (code : CborError → Int) (error : Int) : String :=
  if error = code CborNoError then ""
  else if error = code CborUnknownError then "unknown error"
  else if error = code CborErrorOutOfMemory then "out of memory/need more memory"
  else if error = code CborErrorUnknownLength then
    "unknown length (attempted to get the length of a map/array/string of indeterminate length"
  else if error = code CborErrorAdvancePastEOF then "attempted to advance past EOF"
  else if error = code CborErrorIO then "I/O error"
  else if error = code CborErrorGarbageAtEnd then "garbage after the end of the content"
  else if error = code CborErrorUnexpectedEOF then "unexpected end of data"
  else if error = code CborErrorUnexpectedBreak then "unexpected 'break' byte"
  else if error = code CborErrorUnknownType then "illegal byte (encodes future extension type)"
  else if error = code CborErrorIllegalType then "mismatched string type in chunked string"
  else if error = code CborErrorIllegalNumber then
    "illegal initial byte (encodes unspecified additional information)"
  else if error = code CborErrorIllegalSimpleType then
    "illegal encoding of simple type smaller than 32"
  else if error = code CborErrorNoMoreStringChunks then "no more byte or text strings available"
  else if error = code CborErrorUnknownSimpleType then "unknown simple type"
  else if error = code CborErrorUnknownTag then "unknown tag"
  else if error = code CborErrorInappropriateTagForType then "inappropriate tag for type"
  else if error = code CborErrorDuplicateObjectKeys then "duplicate keys in object"
  else if error = code CborErrorInvalidUtf8TextString then "invalid UTF-8 content in string"
  else if error = code CborErrorExcludedType then "excluded type found"
  else if error = code CborErrorImproperValue then "excluded value found"
  else if error = code CborErrorOverlongEncoding then "value encoded in non-canonical form"
  else if error = code CborErrorMapKeyNotString ∨ error = code CborErrorJsonObjectKeyNotString then
    "key in map is not a string"
  else if error = code CborErrorMapNotSorted then "map is not sorted"
  else if error = code CborErrorMapKeysNotUnique then "map keys are not unique"
  else if error = code CborErrorTooManyItems then "too many items added to encoder"
  else if error = code CborErrorDataTooLarge then "internal error: data too large"
  else if error = code CborErrorNestingTooDeep then
    "internal error: too many nested containers found in recursive function"
  else if error = code CborErrorUnsupportedType then "unsupported type"
  else if error = code CborErrorUnimplementedValidation then
    "validation not implemented for the current parser state"
  else if error = code CborErrorJsonObjectKeyIsAggregate then
    "conversion to JSON failed: key in object is an array or map"
  else if error = code CborErrorJsonNotImplemented then
    "conversion to JSON failed: open_memstream unavailable"
  else if error = code CborErrorInternalError then "internal error"
  else cbor_error_string code (code CborUnknownError)
termination_by (if error = code CborNoError ∨ error = code CborUnknownError then 0 else 1)
decreasing_by
  simp_all

/-- Modelled from the spec: the numeric values of the enumerators of `CborError`, declared
in `cbor.h` of TinyCBOR (not among the sources): consecutive within a group, the groups
starting at 0, 256, 512, 768, 1024 and 1280, and `INT_MIN` and `INT_MAX` of a 32-bit `int`
for the last two. -/
def cbor_h_code : CborError → Int
  | CborNoError => 0
  | CborUnknownError => 1
  | CborErrorUnknownLength => 2
  | CborErrorAdvancePastEOF => 3
  | CborErrorIO => 4
  | CborErrorGarbageAtEnd => 256
  | CborErrorUnexpectedEOF => 257
  | CborErrorUnexpectedBreak => 258
  | CborErrorUnknownType => 259
  | CborErrorIllegalType => 260
  | CborErrorIllegalNumber => 261
  | CborErrorIllegalSimpleType => 262
  | CborErrorNoMoreStringChunks => 263
  | CborErrorUnknownSimpleType => 512
  | CborErrorUnknownTag => 513
  | CborErrorInappropriateTagForType => 514
  | CborErrorDuplicateObjectKeys => 515
  | CborErrorInvalidUtf8TextString => 516
  | CborErrorExcludedType => 517
  | CborErrorExcludedValue => 518
  | CborErrorImproperValue => 519
  | CborErrorOverlongEncoding => 520
  | CborErrorMapKeyNotString => 521
  | CborErrorMapNotSorted => 522
  | CborErrorMapKeysNotUnique => 523
  | CborErrorTooManyItems => 768
  | CborErrorTooFewItems => 769
  | CborErrorDataTooLarge => 1024
  | CborErrorNestingTooDeep => 1025
  | CborErrorUnsupportedType => 1026
  | CborErrorUnimplementedValidation => 1027
  | CborErrorJsonObjectKeyIsAggregate => 1280
  | CborErrorJsonObjectKeyNotString => 1281
  | CborErrorJsonNotImplemented => 1282
  | CborErrorOutOfMemory => -2147483648
  | CborErrorInternalError => 2147483647

/-- The chain of `cbor_error_string` once more, with a bound on the depth of the calls:
`depth + 1` admits the call itself and `depth` nested self-calls; the self-call of the
final `else` is made with the depth that is left, and `none` is a call beyond the
bound. -/
def cbor_error_string_bounded (code : CborError → Int) : Nat → Int → Option String
  | 0, _ => none
  | depth + 1, error =>
    if error = code CborNoError then some ""
    else if error = code CborUnknownError then some "unknown error"
    else if error = code CborErrorOutOfMemory then some "out of memory/need more memory"
    else if error = code CborErrorUnknownLength then
      some "unknown length (attempted to get the length of a map/array/string of indeterminate length"
    else if error = code CborErrorAdvancePastEOF then some "attempted to advance past EOF"
    else if error = code CborErrorIO then some "I/O error"
    else if error = code CborErrorGarbageAtEnd then some "garbage after the end of the content"
    else if error = code CborErrorUnexpectedEOF then some "unexpected end of data"
    else if error = code CborErrorUnexpectedBreak then some "unexpected 'break' byte"
    else if error = code CborErrorUnknownType then some "illegal byte (encodes future extension type)"
    else if error = code CborErrorIllegalType then some "mismatched string type in chunked string"
    else if error = code CborErrorIllegalNumber then
      some "illegal initial byte (encodes unspecified additional information)"
    else if error = code CborErrorIllegalSimpleType then
      some "illegal encoding of simple type smaller than 32"
    else if error = code CborErrorNoMoreStringChunks then some "no more byte or text strings available"
    else if error = code CborErrorUnknownSimpleType then some "unknown simple type"
    else if error = code CborErrorUnknownTag then some "unknown tag"
    else if error = code CborErrorInappropriateTagForType then some "inappropriate tag for type"
    else if error = code CborErrorDuplicateObjectKeys then some "duplicate keys in object"
    else if error = code CborErrorInvalidUtf8TextString then some "invalid UTF-8 content in string"
    else if error = code CborErrorExcludedType then some "excluded type found"
    else if error = code CborErrorImproperValue then some "excluded value found"
    else if error = code CborErrorOverlongEncoding then some "value encoded in non-canonical form"
    else if error = code CborErrorMapKeyNotString ∨ error = code CborErrorJsonObjectKeyNotString then
      some "key in map is not a string"
    else if error = code CborErrorMapNotSorted then some "map is not sorted"
    else if error = code CborErrorMapKeysNotUnique then some "map keys are not unique"
    else if error = code CborErrorTooManyItems then some "too many items added to encoder"
    else if error = code CborErrorDataTooLarge then some "internal error: data too large"
    else if error = code CborErrorNestingTooDeep then
      some "internal error: too many nested containers found in recursive function"
    else if error = code CborErrorUnsupportedType then some "unsupported type"
    else if error = code CborErrorUnimplementedValidation then
      some "validation not implemented for the current parser state"
    else if error = code CborErrorJsonObjectKeyIsAggregate then
      some "conversion to JSON failed: key in object is an array or map"
    else if error = code CborErrorJsonNotImplemented then
      some "conversion to JSON failed: open_memstream unavailable"
    else if error = code CborErrorInternalError then some "internal error"
    else cbor_error_string_bounded code depth (code CborUnknownError)

/-- The enumerators that the chain of `cbor_error_string` compares the code with, in the
order of the chain. -/
def handled_errors : List CborError :=
  [CborNoError, CborUnknownError, CborErrorOutOfMemory, CborErrorUnknownLength,
    CborErrorAdvancePastEOF, CborErrorIO, CborErrorGarbageAtEnd, CborErrorUnexpectedEOF,
    CborErrorUnexpectedBreak, CborErrorUnknownType, CborErrorIllegalType,
    CborErrorIllegalNumber, CborErrorIllegalSimpleType, CborErrorNoMoreStringChunks,
    CborErrorUnknownSimpleType, CborErrorUnknownTag, CborErrorInappropriateTagForType,
    CborErrorDuplicateObjectKeys, CborErrorInvalidUtf8TextString, CborErrorExcludedType,
    CborErrorImproperValue, CborErrorOverlongEncoding, CborErrorMapKeyNotString,
    CborErrorJsonObjectKeyNotString, CborErrorMapNotSorted, CborErrorMapKeysNotUnique,
    CborErrorTooManyItems, CborErrorDataTooLarge, CborErrorNestingTooDeep,
    CborErrorUnsupportedType, CborErrorUnimplementedValidation,
    CborErrorJsonObjectKeyIsAggregate, CborErrorJsonNotImplemented, CborErrorInternalError]

/-! ## The encoder sink (TinyCBOR `CborEncoder`) -/

/-- Modelled from the spec: the encoder sink, TinyCBOR's `CborEncoder` (its source is not
among the sources).  A bounded byte buffer that, once its capacity is exceeded, stops
storing and only accumulates the deficit.

* `written`: the octets stored so far, from the start of the buffer to `data.ptr`;
* `size`: the capacity handed to `cbor_encoder_init`;
* `end_null`: `end == NULL`, the sink has overflowed and is in counting mode;
* `bytes_needed`: the deficit accumulated since the overflow;
* `remaining`: one more than the number of items still expected in a container of
  declared length;
* `unknown_length`: the container was opened with indefinite length. -/
structure CborEncoder where
  written : List Byte
  size : Nat
  end_null : Bool
  bytes_needed : Nat
  remaining : Nat
  unknown_length : Bool
deriving DecidableEq

/-- `SIZE_MAX` of the 64-bit target. -/
def SIZE_MAX : Nat := 2 ^ 64 - 1

/-- `CborIndefiniteLength`, that is `SIZE_MAX`. -/
def CborIndefiniteLength : Nat := SIZE_MAX

/-- Modelled from the spec: `cbor_encoder_init`: an empty sink of capacity `size`. -/
def cbor_encoder_init (size : Nat) : CborEncoder :=
  { written := [], size := size, end_null := false, bytes_needed := 0, remaining := 2,
    unknown_length := false }

/-- Modelled from the spec: would writing `len` more octets exceed the capacity. -/
def would_overflow (e : CborEncoder) (len : Nat) : Bool :=
  if e.end_null then decide (0 < e.bytes_needed + len)
  else decide (e.size - e.written.length < len)

/-- Modelled from the spec: the single place where the sink stores octets.  Within capacity
the octets are stored; at the first overflow the sink switches to counting mode with the
deficit of this write; afterwards every write adds its whole length to the deficit.  In
both overflow cases `CborErrorOutOfMemory` is reported. -/
def append_to_buffer (e : CborEncoder) (data : List Byte) : CborError × CborEncoder :=
  if would_overflow e data.length then
    if e.end_null then
      (CborErrorOutOfMemory, { e with bytes_needed := e.bytes_needed + data.length })
    else
      (CborErrorOutOfMemory,
        { e with end_null := true,
                 bytes_needed := data.length - (e.size - e.written.length) })
  else
    (CborNoError, { e with written := e.written ++ data })

/-- The item header for major type `shiftedMajorType` (already shifted left by five) and
argument `ui`, in the shortest of the five forms. -/
def header_bytes (ui : Nat) (shiftedMajorType : Nat) : List Byte :=
  if ui < 24 then [toByte (shiftedMajorType + ui)]
  else if ui ≤ 0xff then toByte (shiftedMajorType + 24) :: beBytes 1 ui
  else if ui ≤ 0xffff then toByte (shiftedMajorType + 25) :: beBytes 2 ui
  else if ui ≤ 0xffffffff then toByte (shiftedMajorType + 26) :: beBytes 4 ui
  else toByte (shiftedMajorType + 27) :: beBytes 8 ui

/-- Modelled from the spec: `encode_number_no_update`: write one header. -/
def encode_number_no_update (e : CborEncoder) (ui : Nat) (shiftedMajorType : Nat) :
    CborError × CborEncoder :=
  append_to_buffer e (header_bytes ui shiftedMajorType)

/-- Modelled from the spec: one item of the enclosing container has been written. -/
def saturated_decrement (e : CborEncoder) : CborEncoder :=
  { e with remaining := e.remaining - 1 }

/-- Modelled from the spec: `encode_number`: count the item, then write its header. -/
def encode_number (e : CborEncoder) (ui : Nat) (shiftedMajorType : Nat) :
    CborError × CborEncoder :=
  encode_number_no_update (saturated_decrement e) ui shiftedMajorType

/-- Modelled from the spec: `cbor_encode_int`: major type 0 with argument `value` for a
non-negative value, major type 1 with argument `-1 - value` for a negative one. -/
def cbor_encode_int (e : CborEncoder) (value : Int) : CborError × CborEncoder :=
  if value < 0 then encode_number e ((-1 - value).toNat % 2 ^ 64) 0x20
  else encode_number e (value.toNat % 2 ^ 64) 0x00

/-- Modelled from the spec: `cbor_encode_null`: the simple value 22. -/
def cbor_encode_null (e : CborEncoder) : CborError × CborEncoder :=
  encode_number e 22 0xe0

/-- Modelled from the spec: `cbor_encode_float`: initial octet `0xfa`, then the four octets
of the single-precision bit pattern. -/
def cbor_encode_float (e : CborEncoder) (bits : Nat) : CborError × CborEncoder :=
  append_to_buffer (saturated_decrement e) (toByte 0xfa :: beBytes 4 bits)

/-- Modelled from the spec: `cbor_encode_double`: initial octet `0xfb`, then the eight octets
of the double-precision bit pattern. -/
def cbor_encode_double (e : CborEncoder) (bits : Nat) : CborError × CborEncoder :=
  append_to_buffer (saturated_decrement e) (toByte 0xfb :: beBytes 8 bits)

/-- Modelled from the spec: `encode_string`: the header with the declared length, then
`length` octets of the payload.  An overflow while writing the header does not stop the
payload from being counted. -/
def encode_string (e : CborEncoder) (length : Nat) (shiftedMajorType : Nat)
    (string : List Byte) : CborError × CborEncoder :=
  match encode_number e length shiftedMajorType with
  | (err, e1) =>
    if err ≠ CborNoError ∧ err ≠ CborErrorOutOfMemory then (err, e1)
    else append_to_buffer e1 (string.take length)

/-- Modelled from the spec: `cbor_encode_text_string` (major type 3). -/
def cbor_encode_text_string (e : CborEncoder) (string : List Byte) (length : Nat) :
    CborError × CborEncoder :=
  encode_string e length 0x60 string

/-- Modelled from the spec: `cbor_encode_byte_string` (major type 2). -/
def cbor_encode_byte_string (e : CborEncoder) (string : List Byte) (length : Nat) :
    CborError × CborEncoder :=
  encode_string e length 0x40 string

/-- Modelled from the spec: `create_container`: count the container as one item of its
parent, give the child sink the parent's buffer and an item budget of `length`
(twice that for a map), and write the container header into the child. -/
def create_container (e : CborEncoder) (length : Nat) (shiftedMajorType : Nat)
    (isMap : Bool) : CborError × CborEncoder × CborEncoder :=
  let e1 := saturated_decrement e
  let c : CborEncoder :=
    { written := e.written, size := e.size, end_null := e.end_null,
      bytes_needed := e.bytes_needed, remaining := length + 1, unknown_length := false }
  if length = CborIndefiniteLength then
    match append_to_buffer { c with unknown_length := true }
        [toByte (shiftedMajorType + 31)] with
    | (err, c1) => (err, e1, c1)
  else
    let c0 := if isMap then { c with remaining := c.remaining + length } else c
    match encode_number_no_update c0 length shiftedMajorType with
    | (err, c1) => (err, e1, c1)

/-- Modelled from the spec: `cbor_encoder_create_array` (major type 4).  Returns the error,
the parent sink and the child sink. -/
def cbor_encoder_create_array (e : CborEncoder) (length : Nat) :
    CborError × CborEncoder × CborEncoder :=
  create_container e length 0x80 false

/-- Modelled from the spec: `cbor_encoder_create_map` (major type 5). -/
def cbor_encoder_create_map (e : CborEncoder) (length : Nat) :
    CborError × CborEncoder × CborEncoder :=
  if length ≠ CborIndefiniteLength ∧ length > SIZE_MAX / 2 then
    (CborErrorDataTooLarge, e, e)
  else create_container e length 0xa0 true

/-- Modelled from the spec: `cbor_encoder_close_container`: the parent takes over the
child's buffer position (or deficit); a definite-length container must have received
exactly the declared number of items; an overflow anywhere inside is reported as
`CborErrorOutOfMemory`. -/
def cbor_encoder_close_container (e : CborEncoder) (c : CborEncoder) :
    CborError × CborEncoder :=
  let e1 : CborEncoder :=
    { e with written := c.written, bytes_needed := c.bytes_needed, end_null := c.end_null }
  if c.unknown_length then append_to_buffer e1 [toByte 0xff]
  else if c.remaining ≠ 1 then
    (if c.remaining = 0 then CborErrorTooManyItems else CborErrorTooFewItems, e1)
  else if e1.end_null then (CborErrorOutOfMemory, e1)
  else (CborNoError, e1)

/-- Modelled from the spec: `cbor_encoder_get_buffer_size`: the exact occupied size. -/
def cbor_encoder_get_buffer_size (e : CborEncoder) : Nat := e.written.length

/-- Modelled from the spec: `cbor_encoder_get_extra_bytes_needed`: the reported deficit. -/
def cbor_encoder_get_extra_bytes_needed (e : CborEncoder) : Nat :=
  if e.end_null then e.bytes_needed else 0

/-! ## The encoder walk (`mp_obj_to_cbor_text_recursive`, `cbor_dumps`) -/

/-- Lines 313-338 of `mp_obj_to_cbor_text_recursive` when `parent_enc != NULL`: after its
single pass a nested call returns on `CborNoError` and on `CborErrorOutOfMemory` alike,
and raises on every other error. -/
def child_exit (err : CborError) : Except MpException Unit :=
  if err = CborNoError then .ok ()
  else if err = CborErrorOutOfMemory then .ok ()
  else .error (.ValueError "CBOR encoding failed")

mutual
/-- Lines 254-311 of `mp_obj_to_cbor_text_recursive`: one pass of the dispatch on the
type of `x_obj`, writing into `enc`.  Returns the value of `err` at line 313 and the sink
afterwards; a raised exception is `Except.error`. -/
def encode_pass (cfg : Config) : MpObj → CborEncoder → Except MpException (CborError × CborEncoder)
  | .none, enc => .ok (cbor_encode_null enc)
  | .int n, enc => .ok (cbor_encode_int enc (mp_obj_get_int n))
  | .float bits, enc =>
    if cfg.floatImplDouble then .ok (cbor_encode_double enc bits)
    else .ok (cbor_encode_float enc bits)
  | .str data, enc =>
    let len := mp_obj_len_str cfg data
    .ok (cbor_encode_text_string enc data len)
  | .bytes data, enc => .ok (cbor_encode_byte_string enc data data.length)
  | .list items, enc =>
    let list_len := items.length
    match cbor_encoder_create_array enc list_len with
    | (err, enc1, list_enc) =>
      if err ≠ CborNoError ∧ err ≠ CborErrorOutOfMemory then
        .error (.ValueError "Failed to encode array")
      else
        match encode_items cfg items list_enc with
        | .error ex => .error ex
        | .ok list_enc1 => .ok (cbor_encoder_close_container enc1 list_enc1)
  | .tuple items, enc =>
    let list_len := items.length
    match cbor_encoder_create_array enc list_len with
    | (err, enc1, list_enc) =>
      if err ≠ CborNoError ∧ err ≠ CborErrorOutOfMemory then
        .error (.ValueError "Failed to encode array")
      else
        match encode_items cfg items list_enc with
        | .error ex => .error ex
        | .ok list_enc1 => .ok (cbor_encoder_close_container enc1 list_enc1)
  | .dict pairs, enc =>
    let dict_len := pairs.length
    match cbor_encoder_create_map enc dict_len with
    | (err, enc1, dict_enc) =>
      if err ≠ CborNoError ∧ err ≠ CborErrorOutOfMemory then
        .error (.ValueError "Failed to encode array")
      else
        match encode_pairs cfg pairs dict_enc with
        | .error ex => .error ex
        | .ok dict_enc1 => .ok (cbor_encoder_close_container enc1 dict_enc1)
  | .bool _, _ => .error (.ValueError "Found object which cannot be encoded")
  | .other _, _ => .error (.ValueError "Found object which cannot be encoded")
/-- The loop of lines 281-284: each element in index order is encoded by a nested call
(`parent_enc = &list_enc`), whose return value is ignored. -/
def encode_items (cfg : Config) : List MpObj → CborEncoder → Except MpException CborEncoder
  | [], enc => .ok enc
  | x :: rest, enc =>
    match encode_pass cfg x enc with
    | .error ex => .error ex
    | .ok (err, enc1) =>
      match child_exit err with
      | .error ex => .error ex
      | .ok _ => encode_items cfg rest enc1
/-- The loop of lines 300-307: for each pair in stored order a nested call encodes the
key and then a nested call encodes the value (`parent_enc = &dict_enc`). -/
def encode_pairs (cfg : Config) :
    List (MpObj × MpObj) → CborEncoder → Except MpException CborEncoder
  | [], enc => .ok enc
  | (k, v) :: rest, enc =>
    match encode_pass cfg k enc with
    | .error ex => .error ex
    | .ok (err, enc1) =>
      match child_exit err with
      | .error ex => .error ex
      | .ok _ =>
        match encode_pass cfg v enc1 with
        | .error ex => .error ex
        | .ok (err2, enc2) =>
          match child_exit err2 with
          | .error ex => .error ex
          | .ok _ => encode_pairs cfg rest enc2
end

/-- What a top-level call of `mp_obj_to_cbor_text_recursive` hands back: the buffer
contents up to `*encoded_len`, `*encoded_len` itself, the buffer bound of the final
attempt, and (bookkeeping of the model only) the number of passes of the `while (1)`
loop. -/
structure TopResult where
  buf : List Byte
  encoded_len : Nat
  bufsize : Nat
  attempts : Nat
deriving DecidableEq

/-- The `while (1)` loop of `mp_obj_to_cbor_text_recursive` for `parent_enc == NULL`
(lines 248-331) followed by lines 333-335.  `bufsize` is the current bound, `attempts`
counts the passes already made. -/
def top_loop (cfg : Config) (x_obj : MpObj) : Nat → Nat → Nat → Except MpException TopResult
  | 0, _, _ => .error .fuel
  | fuel + 1, bufsize, attempts =>
    let enc := cbor_encoder_init bufsize
    match encode_pass cfg x_obj enc with
    | .error ex => .error ex
    | .ok (err, enc1) =>
      if err = CborNoError then
        .ok { buf := enc1.written, encoded_len := cbor_encoder_get_buffer_size enc1,
              bufsize := bufsize, attempts := attempts + 1 }
      else if err = CborErrorOutOfMemory then
        top_loop cfg x_obj fuel (bufsize + cbor_encoder_get_extra_bytes_needed enc1)
          (attempts + 1)
      else .error (.ValueError "CBOR encoding failed")

/-- The function `mp_obj_to_cbor_text_recursive` called with `parent_enc == NULL`:
`bufsize` starts at 64. -/
def mp_obj_to_cbor_text_recursive (cfg : Config) (fuel : Nat) (x_obj : MpObj) :
    Except MpException TopResult :=
  top_loop cfg x_obj fuel 64 0

/-- The function `mp_obj_to_cbor_text_recursive` called with `parent_enc != NULL`: one pass
into the parent's sink; the returned pointer is always `NULL`, so only the sink is
returned. -/
def mp_obj_to_cbor_text_recursive_child (cfg : Config) (x_obj : MpObj)
    (parent_enc : CborEncoder) : Except MpException CborEncoder :=
  match encode_pass cfg x_obj parent_enc with
  | .error ex => .error ex
  | .ok (err, enc1) =>
    match child_exit err with
    | .error ex => .error ex
    | .ok _ => .ok enc1

/-- The entry point `cbor_dumps`: the first `len` octets of the returned buffer.  A top-level
call that returns hands back the buffer it allocated, so the `buf == NULL` test of line 345
does not fire. -/
def cbor_dumps (cfg : Config) (fuel : Nat) (x_obj : MpObj) : Except MpException (List Byte) :=
  match mp_obj_to_cbor_text_recursive cfg fuel x_obj with
  | .error ex => .error ex
  | .ok r => .ok (r.buf.take r.encoded_len)

/-! ## The decoder cursor (TinyCBOR `CborValue`) -/

/-- The enumerators of `CborType`. -/
inductive CborType where
  | CborIntegerType
  | CborByteStringType
  | CborTextStringType
  | CborArrayType
  | CborMapType
  | CborTagType
  | CborSimpleType
  | CborBooleanType
  | CborNullType
  | CborUndefinedType
  | CborHalfFloatType
  | CborFloatType
  | CborDoubleType
  | CborInvalidType
deriving DecidableEq

open CborType

/-- `UINT32_MAX`, the value of `remaining` inside an indefinite-length container. -/
def UINT32_MAX : Nat := 2 ^ 32 - 1

/-- Modelled from the spec: the decoder cursor, TinyCBOR's `CborValue` (its parser is not
among the sources): a position into the input plus a view of the current item.

* `ptr`: the input from the cursor position to the end of the buffer;
* `remaining`: the number of items left in the current scope (`UINT32_MAX` in an
  indefinite-length container, 0 at the end of the scope);
* `type`: the type of the current item, `CborInvalidType` at the end of the scope. -/
structure CborValue where
  ptr : List Byte
  remaining : Nat
  type : CborType
deriving DecidableEq

/-- The type that goes with a major type (the three high bits of the initial octet). -/
def major_type (m : Nat) : CborType :=
  if m = 0 then CborIntegerType
  else if m = 1 then CborIntegerType
  else if m = 2 then CborByteStringType
  else if m = 3 then CborTextStringType
  else if m = 4 then CborArrayType
  else if m = 5 then CborMapType
  else if m = 6 then CborTagType
  else CborSimpleType

/-- The type of an item of major type 7, by its additional information. -/
def simple_type (descriptor : Nat) : CborType :=
  if descriptor = 20 then CborBooleanType
  else if descriptor = 21 then CborBooleanType
  else if descriptor = 22 then CborNullType
  else if descriptor = 23 then CborUndefinedType
  else if descriptor = 25 then CborHalfFloatType
  else if descriptor = 26 then CborFloatType
  else if descriptor = 27 then CborDoubleType
  else CborSimpleType

/-- Modelled from the spec: `preparse_value`: look at the header under the cursor and set the
current item's type.  Fails on the end of the input, on a header whose argument octets are
missing, on the reserved additional information 28 to 30, on an indefinite-length marker
where none is allowed, and on a two-octet simple value below 32. -/
def preparse_value (it : CborValue) : Except CborError CborValue :=
  match it.ptr with
  | [] => .error CborErrorUnexpectedEOF
  | b :: rest =>
    let major := b.val / 32
    let descriptor := b.val % 32
    if descriptor > 27 then
      if descriptor ≠ 31 then
        .error (if major = 7 then CborErrorUnknownType else CborErrorIllegalNumber)
      else if major = 2 ∨ major = 3 ∨ major = 4 ∨ major = 5 then
        .ok { it with type := major_type major }
      else .error (if major = 7 then CborErrorUnexpectedBreak else CborErrorIllegalNumber)
    else
      let bytesNeeded := if descriptor < 24 then 0 else 2 ^ (descriptor - 24)
      if bytesNeeded > rest.length then .error CborErrorUnexpectedEOF
      else if major = 7 then
        if descriptor = 24 ∧ (rest.headD 0).val < 32 then .error CborErrorIllegalSimpleType
        else .ok { it with type := simple_type descriptor }
      else .ok { it with type := major_type major }

/-- Modelled from the spec: `preparse_next_value_nodecrement`: inside an indefinite-length
container a break octet ends the scope; otherwise the next header is looked at. -/
def preparse_next_value_nodecrement (it : CborValue) : Except CborError CborValue :=
  match it.ptr with
  | b :: rest =>
    if it.remaining = UINT32_MAX ∧ b.val = 0xff then
      .ok { ptr := rest, remaining := 0, type := CborInvalidType }
    else preparse_value it
  | [] => preparse_value it

/-- Modelled from the spec: `preparse_next_value`: one item of a definite-length scope has
been consumed; when none is left the cursor is at the end of the scope. -/
def preparse_next_value (it : CborValue) : Except CborError CborValue :=
  if it.remaining ≠ UINT32_MAX then
    if it.type ≠ CborTagType then
      let r := (it.remaining + 2 ^ 32 - 1) % 2 ^ 32
      if r = 0 then .ok { it with remaining := r, type := CborInvalidType }
      else preparse_next_value_nodecrement { it with remaining := r }
    else preparse_next_value_nodecrement it
  else preparse_next_value_nodecrement it

/-- Modelled from the spec: `cbor_parser_init`: a cursor at the start of the buffer whose
scope holds exactly one item, the root. -/
def cbor_parser_init (buffer : List Byte) : Except CborError CborValue :=
  preparse_value { ptr := buffer, remaining := 1, type := CborInvalidType }

/-- Modelled from the spec: `cbor_value_at_end`. -/
def cbor_value_at_end (it : CborValue) : Bool := it.remaining == 0

/-- Modelled from the spec: `cbor_value_get_type`. -/
def cbor_value_get_type (it : CborValue) : CborType := it.type

/-- Modelled from the spec: `_cbor_value_extract_number`: the argument of the header at the
front of `ptr` and the input after that header. -/
def extract_number (ptr : List Byte) : Except CborError (Nat × List Byte) :=
  match ptr with
  | [] => .error CborErrorUnexpectedEOF
  | b :: rest =>
    let additional_information := b.val % 32
    if additional_information < 24 then .ok (additional_information, rest)
    else if additional_information > 27 then .error CborErrorIllegalNumber
    else
      let bytesNeeded := 2 ^ (additional_information - 24)
      if bytesNeeded > rest.length then .error CborErrorUnexpectedEOF
      else .ok (beValue (rest.take bytesNeeded), rest.drop bytesNeeded)

/-- Modelled from the spec: `cbor_value_advance_fixed`: move past one fixed-size item. -/
def cbor_value_advance_fixed (it : CborValue) : Except CborError CborValue :=
  if it.remaining = 0 then .error CborErrorAdvancePastEOF
  else
    match extract_number it.ptr with
    | .error e => .error e
    | .ok (_, p) => preparse_next_value { it with ptr := p }

/-- Modelled from the spec: `cbor_value_get_int64`: the argument read as `int64_t`; for major
type 1 the result is `-value - 1` in `int64_t` arithmetic.  No range check. -/
def cbor_value_get_int64 (it : CborValue) : Int :=
  match extract_number it.ptr with
  | .error _ => 0
  | .ok (v, _) =>
    let r := wrap64 (v : Int)
    if (it.ptr.headD 0).val / 32 = 1 then wrap64 (-r - 1) else r

/-- Modelled from the spec: `cbor_value_get_boolean`: true for the simple value 21. -/
def cbor_value_get_boolean (it : CborValue) : Bool :=
  (it.ptr.headD 0).val % 32 == 21

/-- Modelled from the spec: `cbor_value_get_float`: the four octets after the initial one. -/
def cbor_value_get_float (it : CborValue) : Nat :=
  beValue ((it.ptr.drop 1).take 4)

/-- Modelled from the spec: `cbor_value_get_double`: the eight octets after the initial
one. -/
def cbor_value_get_double (it : CborValue) : Nat :=
  beValue ((it.ptr.drop 1).take 8)

/-- Modelled from the spec: the chunk loop of `iterate_string_chunks` for a string of
indefinite length: definite-length chunks of the string's own major type up to a break
octet.  Returns the reassembled payload and the input after the break.  The first
argument bounds the number of chunks; every chunk takes at least one octet, so the
length of the input is enough. -/
def string_chunks (major : Nat) : Nat → List Byte → Except CborError (List Byte × List Byte)
  | 0, _ => .error CborErrorUnexpectedEOF
  | _ + 1, [] => .error CborErrorUnexpectedEOF
  | n + 1, b :: rest =>
    if b.val = 0xff then .ok ([], rest)
    else if b.val / 32 ≠ major then .error CborErrorIllegalType
    else
      match extract_number (b :: rest) with
      | .error e => .error e
      | .ok (chunkLen, p) =>
        if chunkLen > p.length then .error CborErrorUnexpectedEOF
        else
          match string_chunks major n (p.drop chunkLen) with
          | .error e => .error e
          | .ok (data, p1) => .ok (p.take chunkLen ++ data, p1)

/-- Modelled from the spec: `_cbor_value_dup_string` with `next == it`: copy out the payload
of the string under the cursor, reassembling it if chunked, and advance the cursor past
the whole string. -/
def dup_string (it : CborValue) : Except CborError (List Byte × CborValue) :=
  match it.ptr with
  | [] => .error CborErrorUnexpectedEOF
  | b :: rest =>
    if b.val % 32 = 31 then
      match string_chunks (b.val / 32) rest.length rest with
      | .error e => .error e
      | .ok (data, p) =>
        match preparse_next_value { it with ptr := p } with
        | .error e => .error e
        | .ok it1 => .ok (data, it1)
    else
      match extract_number (b :: rest) with
      | .error e => .error e
      | .ok (total, p) =>
        if total > p.length then .error CborErrorUnexpectedEOF
        else
          match preparse_next_value { it with ptr := p.drop total } with
          | .error e => .error e
          | .ok it1 => .ok (p.take total, it1)

/-- Modelled from the spec: `cbor_value_dup_byte_string`. -/
def cbor_value_dup_byte_string (it : CborValue) : Except CborError (List Byte × CborValue) :=
  dup_string it

/-- Modelled from the spec: `cbor_value_dup_text_string`; the primitive layer checks the
payload for UTF-8 validity. -/
def cbor_value_dup_text_string (cfg : Config) (it : CborValue) :
    Except CborError (List Byte × CborValue) :=
  match dup_string it with
  | .error e => .error e
  | .ok (data, it1) =>
    if cfg.utf8_ok data then .ok (data, it1) else .error CborErrorInvalidUtf8TextString

/-- Modelled from the spec: `cbor_value_enter_container`: a sub-cursor scoped to the items of
the container under the cursor.  A definite length gives the item budget (twice the
length for a map); lengths beyond TinyCBOR's 32-bit budget are refused. -/
def cbor_value_enter_container (it : CborValue) : Except CborError CborValue :=
  match it.ptr with
  | [] => .error CborErrorUnexpectedEOF
  | b :: rest =>
    if b.val % 32 = 31 then
      preparse_next_value_nodecrement { it with ptr := rest, remaining := UINT32_MAX }
    else
      match extract_number (b :: rest) with
      | .error e => .error e
      | .ok (len, p) =>
        if len ≥ UINT32_MAX then .error CborErrorDataTooLarge
        else if it.type = CborMapType ∧ len > UINT32_MAX / 2 then .error CborErrorDataTooLarge
        else
          let r := if it.type = CborMapType then len * 2 else len
          if len = 0 then .ok { ptr := p, remaining := r, type := CborInvalidType }
          else preparse_next_value_nodecrement { ptr := p, remaining := r, type := it.type }

/-- Modelled from the spec: `cbor_value_leave_container`: the outer cursor resumes after the
container. -/
def cbor_value_leave_container (it : CborValue) (recursed : CborValue) :
    Except CborError CborValue :=
  preparse_next_value { it with ptr := recursed.ptr }

/-- Modelled from the spec: `mp_obj_new_float_from_d` of the host runtime: a float of the
runtime's width from a double-precision bit pattern. -/
def mp_obj_new_float_from_d (cfg : Config) (bits : Nat) : MpObj :=
  match cfg.floatImpl with
  | .double _ => .float bits
  | .single d2f => .float (d2f bits)

/-- Modelled from the spec: `mp_obj_new_float_from_f` of the host runtime: a float of the
runtime's width from a single-precision bit pattern. -/
def mp_obj_new_float_from_f (cfg : Config) (bits : Nat) : MpObj :=
  match cfg.floatImpl with
  | .double f2d => .float (f2d bits)
  | .single _ => .float bits

/-! ## The decoder walk (`cbor_it_to_mp_obj_recursive`, `cbor_loads`) -/

/-- Lines 104-148 of `cbor_it_to_mp_obj_recursive`: the branches of the dispatch that do not
recurse.  Returns `next_element` and the cursor (moved only by the two string
branches). -/
def decode_scalar (cfg : Config) (it : CborValue) : Except MpException (MpObj × CborValue) :=
  match cbor_value_get_type it with
  | CborIntegerType => .ok (.int (cbor_value_get_int64 it), it)
  | CborByteStringType =>
    match cbor_value_dup_byte_string it with
    | .error _ => .error (.ValueError "parse bytestring failed")
    | .ok (buf, it1) => .ok (.bytes buf, it1)
  | CborTextStringType =>
    match cbor_value_dup_text_string cfg it with
    | .error _ => .error (.ValueError "parse string failed")
    | .ok (buf, it1) => .ok (.str buf, it1)
  | CborTagType => .error (.ValueError "unknown tag present")
  | CborSimpleType => .error (.ValueError "unknown simple value present")
  | CborNullType => .ok (.none, it)
  | CborUndefinedType => .error (.ValueError "undefined type encountered")
  | CborBooleanType => .ok (.bool (cbor_value_get_boolean it), it)
  | CborDoubleType => .ok (mp_obj_new_float_from_d cfg (cbor_value_get_double it), it)
  | CborFloatType => .ok (mp_obj_new_float_from_f cfg (cbor_value_get_float it), it)
  | CborHalfFloatType => .error (.NotImplementedError "half float type not supported")
  | CborInvalidType => .error (.ValueError "invalid type encountered")
  | CborArrayType => .error .assertion
  | CborMapType => .error .assertion

/-- Lines 194-201: every type except array, map, text string and byte string is advanced
past here. -/
def advance_unless_variable (type : CborType) (it : CborValue) :
    Except MpException CborValue :=
  if type ≠ CborArrayType ∧ type ≠ CborMapType ∧ type ≠ CborTextStringType ∧
      type ≠ CborByteStringType then
    match cbor_value_advance_fixed it with
    | .error _ => .error (.ValueError "parse error")
    | .ok it1 => .ok it1
  else .ok it

/-- The `while` loop of `cbor_it_to_mp_obj_recursive` (lines 98-207), entered with the
cursor `it`, the accumulation target `parent_obj` and the two locals `dict_value_next`
and `dict_key`.  One unit of fuel is spent per test of the loop condition; the nested
call for a container gets the fuel that is left.  Returns the returned object and the
cursor. -/
def decode_loop (cfg : Config) :
    Nat → CborValue → MpObj → Bool → MpObj → Except MpException (MpObj × CborValue)
  | 0, _, _, _, _ => .error .fuel
  | fuel + 1, it, parent_obj, dict_value_next, dict_key =>
    if cbor_value_at_end it then
      if dict_value_next then .error (.ValueError "key with no value in map")
      else .ok (parent_obj, it)
    else
      let type := cbor_value_get_type it
      let item : Except MpException (MpObj × CborValue) :=
        if type = CborArrayType ∨ type = CborMapType then
          match cbor_value_enter_container it with
          | .error _ => .error (.ValueError "parse error")
          | .ok recursed =>
            let fresh := if type = CborArrayType then MpObj.list [] else MpObj.dict []
            match decode_loop cfg fuel recursed fresh false .none with
            | .error ex => .error ex
            | .ok (filled, recursed1) =>
              match cbor_value_leave_container it recursed1 with
              | .error _ => .error (.ValueError "parse error")
              | .ok it1 => .ok (filled, it1)
        else decode_scalar cfg it
      match item with
      | .error ex => .error ex
      | .ok (next_element, it1) =>
        match parent_obj with
        | .none => .ok (next_element, it1)
        | .list items =>
          match advance_unless_variable type it1 with
          | .error ex => .error ex
          | .ok it2 =>
            decode_loop cfg fuel it2 (.list (mp_obj_list_append items next_element))
              dict_value_next dict_key
        | .dict pairs =>
          match advance_unless_variable type it1 with
          | .error ex => .error ex
          | .ok it2 =>
            if dict_value_next then
              decode_loop cfg fuel it2 (.dict (mp_obj_dict_store pairs dict_key next_element))
                false .none
            else decode_loop cfg fuel it2 (.dict pairs) true next_element
        | _ => .error .assertion

/-- The function `cbor_it_to_mp_obj_recursive`: the loop entered with
`dict_value_next = false` and `dict_key = mp_const_none`. -/
def cbor_it_to_mp_obj_recursive (cfg : Config) (fuel : Nat) (it : CborValue)
    (parent_obj : MpObj) : Except MpException (MpObj × CborValue) :=
  decode_loop cfg fuel it parent_obj false .none

/-- The entry point `cbor_loads` on the octets of its argument. -/
def cbor_loads (cfg : Config) (fuel : Nat) (buf : List Byte) : Except MpException MpObj :=
  match cbor_parser_init buf with
  | .error _ => .error (.ValueError "tinycbor init failed")
  | .ok it =>
    match cbor_it_to_mp_obj_recursive cfg fuel it .none with
    | .error ex => .error ex
    | .ok (result, _) => .ok result

/-- Lines 100-169 of `cbor_it_to_mp_obj_recursive`: the whole dispatch of one pass of the
loop, the container branch included.  `fuel` is what the nested call gets.  Returns
`next_element` and the cursor as it is before lines 194-201. -/
def decode_item (cfg : Config) (fuel : Nat) (it : CborValue) :
    Except MpException (MpObj × CborValue) :=
  let type := cbor_value_get_type it
  if type = CborArrayType ∨ type = CborMapType then
    match cbor_value_enter_container it with
    | .error _ => .error (.ValueError "parse error")
    | .ok recursed =>
      let fresh := if type = CborArrayType then MpObj.list [] else MpObj.dict []
      match decode_loop cfg fuel recursed fresh false .none with
      | .error ex => .error ex
      | .ok (filled, recursed1) =>
        match cbor_value_leave_container it recursed1 with
        | .error _ => .error (.ValueError "parse error")
        | .ok it1 => .ok (filled, it1)
  else decode_scalar cfg it

/-! ## Reference definitions used in the statements -/

/-- The octets that `cbor_encode_int` writes for `value`. -/
def int_bytes (value : Int) : List Byte :=
  if value < 0 then header_bytes ((-1 - value).toNat % 2 ^ 64) 0x20
  else header_bytes (value.toNat % 2 ^ 64) 0x00

mutual
/-- The walk of `encode_pass` into a sink that has no capacity limit: the same dispatch,
the same headers and payloads, simply concatenated.  For a value that the walk rejects
(`bool`, `other`) the result is empty. -/
def unbounded_pass (cfg : Config) : MpObj → List Byte
  | .none => header_bytes 22 0xe0
  | .int n => int_bytes (mp_obj_get_int n)
  | .float bits =>
    if cfg.floatImplDouble then toByte 0xfb :: beBytes 8 bits
    else toByte 0xfa :: beBytes 4 bits
  | .str data =>
    header_bytes (mp_obj_len_str cfg data) 0x60 ++ data.take (mp_obj_len_str cfg data)
  | .bytes data => header_bytes data.length 0x40 ++ data
  | .list items => header_bytes items.length 0x80 ++ unbounded_items cfg items
  | .tuple items => header_bytes items.length 0x80 ++ unbounded_items cfg items
  | .dict pairs => header_bytes pairs.length 0xa0 ++ unbounded_pairs cfg pairs
  | .bool _ => []
  | .other _ => []
/-- The elements of a list or tuple in index order, in the unbounded sink. -/
def unbounded_items (cfg : Config) : List MpObj → List Byte
  | [] => []
  | x :: rest => unbounded_pass cfg x ++ unbounded_items cfg rest
/-- The pairs of a dict in stored order, key before value, in the unbounded sink. -/
def unbounded_pairs (cfg : Config) : List (MpObj × MpObj) → List Byte
  | [] => []
  | (k, v) :: rest => unbounded_pass cfg k ++ (unbounded_pass cfg v ++ unbounded_pairs cfg rest)
end

mutual
/-- The value trees that the encoder walk accepts: every node is `None`, an `int`, a
`float`, a `str`, a `bytes`, a `list`, a `tuple` or a `dict`, and every container has a
length that TinyCBOR writes as a definite length. -/
def Encodable : MpObj → Prop
  | .none => True
  | .int _ => True
  | .float _ => True
  | .str _ => True
  | .bytes _ => True
  | .list items => items.length < CborIndefiniteLength ∧ EncodableItems items
  | .tuple items => items.length < CborIndefiniteLength ∧ EncodableItems items
  | .dict pairs => pairs.length ≤ SIZE_MAX / 2 ∧ EncodablePairs pairs
  | .bool _ => False
  | .other _ => False
/-- Every element is encodable. -/
def EncodableItems : List MpObj → Prop
  | [] => True
  | x :: rest => Encodable x ∧ EncodableItems rest
/-- Every key and every value is encodable. -/
def EncodablePairs : List (MpObj × MpObj) → Prop
  | [] => True
  | (k, v) :: rest => Encodable k ∧ Encodable v ∧ EncodablePairs rest
end

mutual
/-- The value trees of the data model as the runtime holds them: `None`, 64-bit signed
integers, floats of the runtime's width, byte strings, text strings whose `mp_obj_len` is
their octet count and which pass the primitive layer's UTF-8 check, lists, and dicts with
pairwise distinct keys; container lengths within TinyCBOR's 32-bit item budget. -/
def Plain (cfg : Config) : MpObj → Prop
  | .none => True
  | .int n => -2 ^ 63 ≤ n ∧ n < 2 ^ 63
  | .float bits => bits < (if cfg.floatImplDouble then 2 ^ 64 else 2 ^ 32)
  | .str data =>
    mp_obj_len_str cfg data = data.length ∧ data.length < 2 ^ 64 ∧ cfg.utf8_ok data = true
  | .bytes data => data.length < 2 ^ 64
  | .list items => items.length < UINT32_MAX ∧ PlainItems cfg items
  | .dict pairs =>
    pairs.length ≤ UINT32_MAX / 2 ∧ PlainPairs cfg pairs ∧ (pairs.map Prod.fst).Nodup
  | .tuple _ => False
  | .bool _ => False
  | .other _ => False
/-- Every element is plain. -/
def PlainItems (cfg : Config) : List MpObj → Prop
  | [] => True
  | x :: rest => Plain cfg x ∧ PlainItems cfg rest
/-- Every key and every value is plain. -/
def PlainPairs (cfg : Config) : List (MpObj × MpObj) → Prop
  | [] => True
  | (k, v) :: rest => Plain cfg k ∧ Plain cfg v ∧ PlainPairs cfg rest
end

/-! ## A concrete build -/

/-- The C conversion `float → double` on bit patterns (exact; a NaN comes out quiet). -/
def f32_to_f64 (b : Nat) : Nat :=
  let s := b / 2 ^ 31 % 2
  let e := b / 2 ^ 23 % 256
  let m := b % 2 ^ 23
  if e = 255 then
    s * 2 ^ 63 + 2047 * 2 ^ 52 + (if m = 0 then 0 else (m % 2 ^ 22 + 2 ^ 22) * 2 ^ 29)
  else if e = 0 then
    if m = 0 then s * 2 ^ 63
    else
      let p := Nat.log2 m
      s * 2 ^ 63 + (p + 874) * 2 ^ 52 + (m - 2 ^ p) * 2 ^ (52 - p)
  else s * 2 ^ 63 + (e + 896) * 2 ^ 52 + m * 2 ^ 29

/-- Is the octet a UTF-8 continuation octet in the range `lo .. hi`. -/
def in_range (b : Byte) (lo hi : Nat) : Bool := decide (lo ≤ b.val) && decide (b.val ≤ hi)

/-- Well-formed UTF-8 (RFC 3629): no overlong forms, no surrogates, nothing above
U+10FFFF. -/
def utf8_valid : List Byte → Bool
  | [] => true
  | b0 :: rest =>
    if b0.val < 0x80 then utf8_valid rest
    else
      match rest with
      | [] => false
      | b1 :: rest1 =>
        if in_range b0 0xc2 0xdf then in_range b1 0x80 0xbf && utf8_valid rest1
        else
          match rest1 with
          | [] => false
          | b2 :: rest2 =>
            if in_range b0 0xe0 0xef then
              in_range b1 (if b0.val = 0xe0 then 0xa0 else 0x80)
                  (if b0.val = 0xed then 0x9f else 0xbf) &&
                in_range b2 0x80 0xbf && utf8_valid rest2
            else
              match rest2 with
              | [] => false
              | b3 :: rest3 =>
                if in_range b0 0xf0 0xf4 then
                  in_range b1 (if b0.val = 0xf0 then 0x90 else 0x80)
                      (if b0.val = 0xf4 then 0x8f else 0xbf) &&
                    in_range b2 0x80 0xbf && in_range b3 0x80 0xbf && utf8_valid rest3
                else false

/-- The usual build on a 64-bit host: double-precision floats, Unicode strings, and a
primitive layer that checks text strings for well-formed UTF-8. -/
def hostBuild : Config :=
  { floatImpl := .double f32_to_f64, strUnicode := true, utf8_ok := utf8_valid }

/-! ## Auxiliary definitions for the proofs -/

/-- The number of octets that have been sent to a sink so far, stored or only counted. -/
def CborEncoder.demand (e : CborEncoder) : Nat :=
  if e.end_null then e.size + e.bytes_needed else e.written.length

/-- The consistency condition of a sink: the stored octets fit the capacity, and a sink in
counting mode has a positive deficit. -/
def CborEncoder.Inv (e : CborEncoder) : Prop :=
  if e.end_null then 1 ≤ e.bytes_needed else e.written.length ≤ e.size

/-- The sink `e1` is the sink `e` after `bytes` have been sent to it. -/
structure Sunk (e : CborEncoder) (bytes : List Byte) (e1 : CborEncoder) : Prop where
  size_eq : e1.size = e.size
  inv : e1.Inv
  demand_eq : e1.demand = e.demand + bytes.length
  written_eq : e1.end_null = false → e1.written = e.written ++ bytes

/-- The error code that goes with the state of a sink. -/
def oom_of (e : CborEncoder) : CborError :=
  if e.end_null then CborErrorOutOfMemory else CborNoError

/-- Two sinks that share the buffer state (they may differ in the item budget). -/
def SameBuf (e0 e : CborEncoder) : Prop :=
  e0.written = e.written ∧ e0.size = e.size ∧ e0.end_null = e.end_null ∧
    e0.bytes_needed = e.bytes_needed

/-- What a successful pass over one item looks like: the sink has taken `bytes`, the item
budget of the enclosing container went down by one, and the error code is
`CborErrorOutOfMemory` exactly when the sink is in counting mode. -/
def PassOk (e : CborEncoder) (bytes : List Byte)
    (r : Except MpException (CborError × CborEncoder)) : Prop :=
  ∃ e1, r = .ok (oom_of e1, e1) ∧ Sunk e bytes e1 ∧ e1.remaining = e.remaining - 1 ∧
    e1.unknown_length = e.unknown_length

/-- The additional information and the number of argument octets of the header that
`header_bytes` writes for the argument `ui`. -/
def header_form (ui : Nat) : Nat × Nat :=
  if ui < 24 then (ui, 0)
  else if ui ≤ 0xff then (24, 1)
  else if ui ≤ 0xffff then (25, 2)
  else if ui ≤ 0xffffffff then (26, 4)
  else (27, 8)

/-- The type that the cursor shows for the encoding of a plain value. -/
def head_type (cfg : Config) : MpObj → CborType
  | .none => CborNullType
  | .int _ => CborIntegerType
  | .float _ => if cfg.floatImplDouble then CborDoubleType else CborFloatType
  | .str _ => CborTextStringType
  | .bytes _ => CborByteStringType
  | .list _ => CborArrayType
  | .tuple _ => CborArrayType
  | .dict _ => CborMapType
  | .bool _ => CborInvalidType
  | .other _ => CborInvalidType

/-- The cursor of a definite-length scope that still holds the encodings of `xs`, followed
by `rest`. -/
def item_cursor (cfg : Config) (xs : List MpObj) (rest : List Byte) : CborValue :=
  { ptr := unbounded_items cfg xs ++ rest, remaining := xs.length,
    type := match xs with
      | [] => CborInvalidType
      | x :: _ => head_type cfg x }

/-- The items of a map body: key, value, key, value, and so on. -/
def flat : List (MpObj × MpObj) → List MpObj
  | [] => []
  | (k, v) :: rest => k :: v :: flat rest

/-- The outcome of one pass of the loop over the encoding of `v`: the dispatch yields `v`, and
lines 194-201 leave the cursor at `it2`. -/
def ItemOk (cfg : Config) (fuel : Nat) (v : MpObj) (rest : List Byte) (r : Nat)
    (it2 : CborValue) : Prop :=
  ∃ it1,
    decode_item cfg fuel
        { ptr := unbounded_pass cfg v ++ rest, remaining := r, type := head_type cfg v } =
      .ok (v, it1) ∧
    advance_unless_variable (head_type cfg v) it1 = .ok it2

/-- The cursor `it` over an input that has `t` appended at its end. -/
def CborValue.app (it : CborValue) (t : List Byte) : CborValue :=
  { it with ptr := it.ptr ++ t }

/-- A cursor as the primitive layer leaves it: at the end of its scope, or with its type set
from the header under it. -/
def Cur (it : CborValue) : Prop :=
  it.remaining = 0 ∨ preparse_value it = .ok it

/-- A point of the walk: the head of the `while` loop in some call of
`cbor_it_to_mp_obj_recursive`, with the fuel that is left, the cursor, the accumulation
target and the two locals of the map state machine. -/
structure WalkState where
  fuel : Nat
  it : CborValue
  parent_obj : MpObj
  dict_value_next : Bool
  dict_key : MpObj

/-- The rest of the call from a point of the walk. -/
def WalkState.run (cfg : Config) (s : WalkState) : Except MpException (MpObj × CborValue) :=
  decode_loop cfg s.fuel s.it s.parent_obj s.dict_value_next s.dict_key

/-- The point at which `cbor_loads` enters the walk: the root call, no parent. -/
def rootState (fuel : Nat) (it : CborValue) : WalkState :=
  { fuel := fuel, it := it, parent_obj := .none, dict_value_next := false, dict_key := .none }

/-- Lines 174-189: what accumulating `next_element` does to a list or dict parent and to
the map state machine.  `none` for any other parent. -/
def accumulate (parent_obj : MpObj) (dict_value_next : Bool) (dict_key next_element : MpObj) :
    Option (MpObj × Bool × MpObj) :=
  match parent_obj with
  | .list items => some (.list (mp_obj_list_append items next_element), dict_value_next, dict_key)
  | .dict pairs =>
    if dict_value_next then
      some (.dict (mp_obj_dict_store pairs dict_key next_element), false, .none)
    else some (.dict pairs, true, next_element)
  | _ => none

/-- One move of the walk from a loop head to the next loop head that it reaches: either the
item under the cursor is decoded, accumulated and advanced past (`next`, same call), or the
item is a container and the nested call is entered (`enter`). -/
inductive Step (cfg : Config) : WalkState → WalkState → Prop where
  | next (f : Nat) (it it1 it2 : CborValue) (parent_obj key x parent1 key1 : MpObj)
      (dvn dvn1 : Bool) :
      it.remaining ≠ 0 → decode_item cfg f it = .ok (x, it1) →
      advance_unless_variable it.type it1 = .ok it2 →
      accumulate parent_obj dvn key x = some (parent1, dvn1, key1) →
      Step cfg ⟨f + 1, it, parent_obj, dvn, key⟩ ⟨f, it2, parent1, dvn1, key1⟩
  | enter (f : Nat) (it recursed : CborValue) (parent_obj key : MpObj) (dvn : Bool) :
      it.remaining ≠ 0 → (it.type = CborArrayType ∨ it.type = CborMapType) →
      cbor_value_enter_container it = .ok recursed →
      Step cfg ⟨f + 1, it, parent_obj, dvn, key⟩
        ⟨f, recursed, if it.type = CborArrayType then MpObj.list [] else MpObj.dict [],
          false, .none⟩

/-- The loop head `s1` is reached by the walk that starts at `s`. -/
def Reaches (cfg : Config) (s s1 : WalkState) : Prop :=
  Relation.ReflTransGen (Step cfg) s s1

/-- The walk, staying in one call, decodes the items `xs` one after the other between the
loop heads `s` and `s1`. -/
inductive ScopeRun (cfg : Config) : WalkState → List MpObj → WalkState → Prop where
  | nil (s : WalkState) : ScopeRun cfg s [] s
  | snoc (s : WalkState) (xs : List MpObj) (f : Nat) (it it1 it2 : CborValue)
      (parent_obj key x parent1 key1 : MpObj) (dvn dvn1 : Bool) :
      ScopeRun cfg s xs ⟨f + 1, it, parent_obj, dvn, key⟩ →
      it.remaining ≠ 0 → decode_item cfg f it = .ok (x, it1) →
      advance_unless_variable it.type it1 = .ok it2 →
      accumulate parent_obj dvn key x = some (parent1, dvn1, key1) →
      ScopeRun cfg s (xs ++ [x]) ⟨f, it2, parent1, dvn1, key1⟩

/-- The message of the `ValueError` that the dispatch raises for a type it refuses. -/
def illegal_message : CborType → Option String
  | CborTagType => some "unknown tag present"
  | CborSimpleType => some "unknown simple value present"
  | CborUndefinedType => some "undefined type encountered"
  | CborInvalidType => some "invalid type encountered"
  | _ => none

/-- The tree `{"a": 1, "b": [None, 2.5, b"\x00\xff", -7]}`: a dict of two pairs whose second
value is a list of mixed scalars. -/
def sampleTree : MpObj :=
  .dict [(.str [0x61], .int 1),
         (.str [0x62], .list [.none, .float 0x4004000000000000, .bytes [0x00, 0xff], .int (-7)])]

mutual
/-- The value trees all of whose containers have a length that the sink takes as a definite
length: below `SIZE_MAX` for a list or tuple, at most `SIZE_MAX / 2` for a dict.  No
condition on the types of the nodes. -/
def Sized : MpObj → Prop
  | .none => True
  | .bool _ => True
  | .int _ => True
  | .float _ => True
  | .str _ => True
  | .bytes _ => True
  | .list items => items.length < CborIndefiniteLength ∧ SizedItems items
  | .tuple items => items.length < CborIndefiniteLength ∧ SizedItems items
  | .dict pairs => pairs.length ≤ SIZE_MAX / 2 ∧ SizedPairs pairs
  | .other _ => True
/-- Every element is sized. -/
def SizedItems : List MpObj → Prop
  | [] => True
  | x :: rest => Sized x ∧ SizedItems rest
/-- Every key and every value is sized. -/
def SizedPairs : List (MpObj × MpObj) → Prop
  | [] => True
  | (k, v) :: rest => Sized k ∧ Sized v ∧ SizedPairs rest
end

mutual
/-- The value trees that hold, at the root or at any depth inside lists, tuples and dicts, a
node of a type that is none of `NoneType`, `bool`, `int`, `float`, `str`, `bytes`, `list`,
`tuple`, `dict`. -/
def ContainsOther : MpObj → Prop
  | .none => False
  | .bool _ => False
  | .int _ => False
  | .float _ => False
  | .str _ => False
  | .bytes _ => False
  | .list items => ContainsOtherItems items
  | .tuple items => ContainsOtherItems items
  | .dict pairs => ContainsOtherPairs pairs
  | .other _ => True
/-- Some element holds such a node. -/
def ContainsOtherItems : List MpObj → Prop
  | [] => False
  | x :: rest => ContainsOther x ∨ ContainsOtherItems rest
/-- Some key or some value holds such a node. -/
def ContainsOtherPairs : List (MpObj × MpObj) → Prop
  | [] => False
  | (k, v) :: rest => ContainsOther k ∨ ContainsOther v ∨ ContainsOtherPairs rest
end

/-- The tree `[1, {"a": <object>}, 2]`: an object of a further type two levels down, with a
sibling before and a sibling after its container. -/
def otherTree : MpObj :=
  .list [.int 1, .dict [(.str [0x61], .other "set")], .int 2]

/-- Lines 178-186 as a function of the three things they change: the pairs stored so far,
the flag `dict_value_next` and the pending key.  An item that arrives while a key is
expected becomes the pending key; an item that arrives while a value is expected is stored
under the pending key. -/
def map_machine (st : List (MpObj × MpObj) × Bool × MpObj) (x : MpObj) :
    List (MpObj × MpObj) × Bool × MpObj :=
  if st.2.1 then (mp_obj_dict_store st.1 st.2.2 x, false, .none) else (st.1, true, x)

/-- The integer that the binary format assigns to the integer item at the front of `ptr`:
the argument `v` of its header for major type 0, and `-1 - v` for major type 1. -/
def item_int_value (ptr : List Byte) : Option Int :=
  match extract_number ptr with
  | .error _ => none
  | .ok (v, _) => some (if (ptr.headD 0).val / 32 = 1 then -1 - (v : Int) else (v : Int))

/-! # Theorems -/

/-- The loop of `cbor_it_to_mp_obj_recursive` in terms of `decode_item`: one pass tests
the loop condition, runs the dispatch, accumulates into the parent, advances, and goes
round again. -/
theorem decode_loop_succ (cfg : Config) (fuel : Nat) (it : CborValue) (parent_obj : MpObj)
    (dict_value_next : Bool) (dict_key : MpObj) :
    decode_loop cfg (fuel + 1) it parent_obj dict_value_next dict_key =
      if cbor_value_at_end it then
        if dict_value_next then .error (.ValueError "key with no value in map")
        else .ok (parent_obj, it)
      else
        match decode_item cfg fuel it with
        | .error ex => .error ex
        | .ok (next_element, it1) =>
          match parent_obj with
          | .none => .ok (next_element, it1)
          | .list items =>
            match advance_unless_variable (cbor_value_get_type it) it1 with
            | .error ex => .error ex
            | .ok it2 =>
              decode_loop cfg fuel it2 (.list (mp_obj_list_append items next_element))
                dict_value_next dict_key
          | .dict pairs =>
            match advance_unless_variable (cbor_value_get_type it) it1 with
            | .error ex => .error ex
            | .ok it2 =>
              if dict_value_next then
                decode_loop cfg fuel it2
                  (.dict (mp_obj_dict_store pairs dict_key next_element)) false .none
              else decode_loop cfg fuel it2 (.dict pairs) true next_element
          | _ => .error .assertion := by
  rfl

/-! ## The sink: what a write does -/

theorem Sunk.refl_nil (e : CborEncoder) (h : e.Inv) : Sunk e [] e :=
  ⟨rfl, h, by simp, by simp⟩

theorem Sunk.end_null_mono {e e1 : CborEncoder} {bytes : List Byte} (he : e.Inv)
    (h : Sunk e bytes e1) (hn : e1.end_null = false) : e.end_null = false := by
  by_contra hc
  have hc1 : e.end_null = true := by simpa using hc
  have h1 := h.inv
  have h2 := h.demand_eq
  have h3 := h.size_eq
  have h4 : 1 ≤ e.bytes_needed := by simpa [CborEncoder.Inv, hc1] using he
  simp only [CborEncoder.Inv, CborEncoder.demand, hn, hc1, if_true] at h1 h2
  simp at h1 h2
  omega

theorem Sunk.trans {e e1 e2 : CborEncoder} {a b : List Byte}
    (h1 : Sunk e a e1) (h2 : Sunk e1 b e2) : Sunk e (a ++ b) e2 := by
  refine ⟨h2.size_eq.trans h1.size_eq, h2.inv, ?_, ?_⟩
  · rw [h2.demand_eq, h1.demand_eq, List.length_append]; omega
  · intro hn
    have hn1 := Sunk.end_null_mono h1.inv h2 hn
    rw [h2.written_eq hn, h1.written_eq hn1, List.append_assoc]

theorem append_to_buffer_spec (e : CborEncoder) (data : List Byte) (he : e.Inv) :
    ∃ e1, append_to_buffer e data = (oom_of e1, e1) ∧ Sunk e data e1 ∧
      e1.remaining = e.remaining ∧ e1.unknown_length = e.unknown_length := by
  unfold append_to_buffer would_overflow
  cases hen : e.end_null
  · simp only [CborEncoder.Inv, hen] at he
    simp at he
    by_cases hov : e.size - e.written.length < data.length
    · simp only [hov, decide_True, if_true, Bool.false_eq_true, if_false]
      refine ⟨{ e with end_null := true,
                       bytes_needed := data.length - (e.size - e.written.length) },
        ?_, ⟨rfl, ?_, ?_, ?_⟩, rfl, rfl⟩
      · simp [oom_of]
      · simp [CborEncoder.Inv]; omega
      · simp [CborEncoder.demand, hen]; omega
      · simp
    · simp only [hov, decide_False, if_false, Bool.false_eq_true]
      refine ⟨{ e with written := e.written ++ data }, ?_, ⟨rfl, ?_, ?_, ?_⟩, rfl, rfl⟩
      · simp [oom_of, hen]
      · simp [CborEncoder.Inv, hen]; omega
      · simp [CborEncoder.demand, hen]
      · simp
  · simp only [CborEncoder.Inv, hen] at he
    simp at he
    have hpos : 0 < e.bytes_needed + data.length := by omega
    simp only [hpos, decide_True, if_true]
    refine ⟨{ e with bytes_needed := e.bytes_needed + data.length }, ?_,
      ⟨rfl, ?_, ?_, ?_⟩, rfl, rfl⟩
    · simp [oom_of, hen]
    · simp [CborEncoder.Inv, hen]; omega
    · simp [CborEncoder.demand, hen]; omega
    · simp [hen]

theorem SameBuf.inv {e0 e : CborEncoder} (h : SameBuf e0 e) (he : e.Inv) : e0.Inv := by
  obtain ⟨h1, h2, h3, h4⟩ := h
  simpa [CborEncoder.Inv, h1, h2, h3, h4] using he

theorem SameBuf.demand {e0 e : CborEncoder} (h : SameBuf e0 e) : e0.demand = e.demand := by
  obtain ⟨h1, h2, h3, h4⟩ := h
  simp [CborEncoder.demand, h1, h2, h3, h4]

theorem Sunk.congr_left {e0 e e1 : CborEncoder} {b : List Byte} (hs : Sunk e0 b e1)
    (h : SameBuf e0 e) : Sunk e b e1 :=
  ⟨hs.size_eq.trans h.2.1, hs.inv, by rw [hs.demand_eq, h.demand],
    fun hn => by rw [hs.written_eq hn, h.1]⟩

theorem Sunk.congr_right {e e1 e2 : CborEncoder} {b : List Byte} (hs : Sunk e b e1)
    (h : SameBuf e2 e1) : Sunk e b e2 :=
  ⟨h.2.1.trans hs.size_eq, h.inv hs.inv, by rw [h.demand, hs.demand_eq],
    fun hn => by rw [h.1, hs.written_eq (h.2.2.1 ▸ hn)]⟩

theorem oom_of_ne (e : CborEncoder) :
    ¬ (oom_of e ≠ CborNoError ∧ oom_of e ≠ CborErrorOutOfMemory) := by
  unfold oom_of
  split <;> simp

theorem child_exit_oom_of (e : CborEncoder) : child_exit (oom_of e) = .ok () := by
  unfold child_exit oom_of
  split <;> simp

theorem saturated_decrement_sameBuf (e : CborEncoder) : SameBuf (saturated_decrement e) e :=
  ⟨rfl, rfl, rfl, rfl⟩

theorem counted_append_spec (e : CborEncoder) (data : List Byte) (he : e.Inv) :
    PassOk e data (.ok (append_to_buffer (saturated_decrement e) data)) := by
  obtain ⟨e1, h1, h2, h3, h4⟩ :=
    append_to_buffer_spec (saturated_decrement e) data ((saturated_decrement_sameBuf e).inv he)
  exact ⟨e1, by rw [h1], h2.congr_left (saturated_decrement_sameBuf e), h3, h4⟩

theorem encode_number_spec (e : CborEncoder) (ui m : Nat) (he : e.Inv) :
    PassOk e (header_bytes ui m) (.ok (encode_number e ui m)) :=
  counted_append_spec e _ he

theorem cbor_encode_int_spec (e : CborEncoder) (value : Int) (he : e.Inv) :
    PassOk e (int_bytes value) (.ok (cbor_encode_int e value)) := by
  unfold cbor_encode_int int_bytes
  split
  · exact encode_number_spec e _ _ he
  · exact encode_number_spec e _ _ he

theorem encode_string_spec (e : CborEncoder) (length m : Nat) (string : List Byte)
    (he : e.Inv) :
    PassOk e (header_bytes length m ++ string.take length)
      (.ok (encode_string e length m string)) := by
  obtain ⟨e1, h1, h2, h3, h4⟩ := encode_number_spec e length m he
  obtain ⟨e2, k1, k2, k3, k4⟩ := append_to_buffer_spec e1 (string.take length) h2.inv
  refine ⟨e2, ?_, h2.trans k2, by rw [k3, h3], by rw [k4, h4]⟩
  unfold encode_string
  simp only [Except.ok.injEq] at h1
  rw [h1]
  simp only [oom_of_ne, if_false, k1]

theorem create_container_spec (e : CborEncoder) (length m : Nat) (isMap : Bool)
    (hlen : length ≠ CborIndefiniteLength) (he : e.Inv) :
    ∃ c, create_container e length m isMap = (oom_of c, saturated_decrement e, c) ∧
      Sunk e (header_bytes length m) c ∧
      c.remaining = (if isMap then length + 1 + length else length + 1) ∧
      c.unknown_length = false := by
  unfold create_container
  simp only [hlen, if_false]
  cases isMap
  · have hc : CborEncoder.Inv
        { written := e.written, size := e.size, end_null := e.end_null,
          bytes_needed := e.bytes_needed, remaining := length + 1, unknown_length := false } :=
      SameBuf.inv (show SameBuf _ e from ⟨rfl, rfl, rfl, rfl⟩) he
    obtain ⟨c1, h1, h2, h3, h4⟩ := append_to_buffer_spec _ (header_bytes length m) hc
    refine ⟨c1, ?_, h2.congr_left ⟨rfl, rfl, rfl, rfl⟩, by simpa using h3, by simpa using h4⟩
    simp only [Bool.false_eq_true, if_false, encode_number_no_update, h1]
  · have hc : CborEncoder.Inv
        { written := e.written, size := e.size, end_null := e.end_null,
          bytes_needed := e.bytes_needed, remaining := length + 1 + length,
          unknown_length := false } :=
      SameBuf.inv (show SameBuf _ e from ⟨rfl, rfl, rfl, rfl⟩) he
    obtain ⟨c1, h1, h2, h3, h4⟩ := append_to_buffer_spec _ (header_bytes length m) hc
    refine ⟨c1, ?_, h2.congr_left ⟨rfl, rfl, rfl, rfl⟩, by simpa using h3, by simpa using h4⟩
    simp only [if_true, encode_number_no_update, h1]

theorem close_container_spec (e c : CborEncoder) (hr : c.remaining = 1)
    (hu : c.unknown_length = false) (hs : c.size = e.size) :
    ∃ e1, cbor_encoder_close_container e c = (oom_of e1, e1) ∧ SameBuf e1 c ∧
      e1.remaining = e.remaining ∧ e1.unknown_length = e.unknown_length ∧ e1.size = e.size := by
  unfold cbor_encoder_close_container
  simp only [hu, hr, Bool.false_eq_true, if_false, ne_eq, not_true_eq_false]
  refine ⟨{ e with written := c.written, bytes_needed := c.bytes_needed,
                   end_null := c.end_null }, ?_, ⟨rfl, ?_, rfl, rfl⟩, rfl, rfl, rfl⟩
  · unfold oom_of
    split <;> rfl
  · exact hs.symm

mutual
/-- One pass of the dispatch over an encodable value sends exactly the octets of the
unbounded walk to the sink, whatever the state of the sink. -/
theorem encode_pass_spec (cfg : Config) :
    ∀ (v : MpObj) (e : CborEncoder), Encodable v → e.Inv →
      PassOk e (unbounded_pass cfg v) (encode_pass cfg v e)
  | .none, e, _, he => by
    simpa [encode_pass, unbounded_pass, cbor_encode_null] using encode_number_spec e 22 0xe0 he
  | .int n, e, _, he => by
    simpa [encode_pass, unbounded_pass] using cbor_encode_int_spec e (mp_obj_get_int n) he
  | .float bits, e, _, he => by
    unfold encode_pass unbounded_pass
    split
    · exact counted_append_spec e _ he
    · exact counted_append_spec e _ he
  | .str data, e, _, he => by
    simpa [encode_pass, unbounded_pass, cbor_encode_text_string] using
      encode_string_spec e (mp_obj_len_str cfg data) 0x60 data he
  | .bytes data, e, _, he => by
    simpa [encode_pass, unbounded_pass, cbor_encode_byte_string] using
      encode_string_spec e data.length 0x40 data he
  | .list items, e, hv, he => by
    simp only [Encodable] at hv
    obtain ⟨c, h1, h2, h3, h4⟩ :=
      create_container_spec e items.length 0x80 false (Nat.ne_of_lt hv.1) he
    obtain ⟨c1, k1, k2, k3, k4⟩ := encode_items_spec cfg items c hv.2 h2.inv
    have hr : c1.remaining = 1 := by rw [k3, h3]; simp
    obtain ⟨e1, m1, m2, m3, m4, _⟩ :=
      close_container_spec (saturated_decrement e) c1 hr (by rw [k4, h4])
        (by rw [k2.size_eq, h2.size_eq]; rfl)
    refine ⟨e1, ?_, (h2.trans k2).congr_right m2, by rw [m3]; rfl, by rw [m4]; rfl⟩
    simp only [encode_pass, cbor_encoder_create_array, h1, oom_of_ne, if_false, k1, m1]
  | .tuple items, e, hv, he => by
    simp only [Encodable] at hv
    obtain ⟨c, h1, h2, h3, h4⟩ :=
      create_container_spec e items.length 0x80 false (Nat.ne_of_lt hv.1) he
    obtain ⟨c1, k1, k2, k3, k4⟩ := encode_items_spec cfg items c hv.2 h2.inv
    have hr : c1.remaining = 1 := by rw [k3, h3]; simp
    obtain ⟨e1, m1, m2, m3, m4, _⟩ :=
      close_container_spec (saturated_decrement e) c1 hr (by rw [k4, h4])
        (by rw [k2.size_eq, h2.size_eq]; rfl)
    refine ⟨e1, ?_, (h2.trans k2).congr_right m2, by rw [m3]; rfl, by rw [m4]; rfl⟩
    simp only [encode_pass, cbor_encoder_create_array, h1, oom_of_ne, if_false, k1, m1]
  | .dict pairs, e, hv, he => by
    simp only [Encodable] at hv
    have hlen : pairs.length ≠ CborIndefiniteLength := by
      have := hv.1
      simp only [CborIndefiniteLength, SIZE_MAX] at this ⊢
      omega
    obtain ⟨c, h1, h2, h3, h4⟩ := create_container_spec e pairs.length 0xa0 true hlen he
    obtain ⟨c1, k1, k2, k3, k4⟩ := encode_pairs_spec cfg pairs c hv.2 h2.inv
    have hr : c1.remaining = 1 := by rw [k3, h3]; simp; omega
    obtain ⟨e1, m1, m2, m3, m4, _⟩ :=
      close_container_spec (saturated_decrement e) c1 hr (by rw [k4, h4])
        (by rw [k2.size_eq, h2.size_eq]; rfl)
    refine ⟨e1, ?_, (h2.trans k2).congr_right m2, by rw [m3]; rfl, by rw [m4]; rfl⟩
    have hnot : ¬ (pairs.length ≠ CborIndefiniteLength ∧ pairs.length > SIZE_MAX / 2) := by
      have := hv.1
      omega
    simp only [encode_pass, cbor_encoder_create_map, hnot, if_false, h1, oom_of_ne, k1, m1]
  | .bool _, _, hv, _ => by simp [Encodable] at hv
  | .other _, _, hv, _ => by simp [Encodable] at hv
/-- The element loop sends the elements' octets in index order. -/
theorem encode_items_spec (cfg : Config) :
    ∀ (items : List MpObj) (c : CborEncoder), EncodableItems items → c.Inv →
      ∃ c1, encode_items cfg items c = .ok c1 ∧ Sunk c (unbounded_items cfg items) c1 ∧
        c1.remaining = c.remaining - items.length ∧ c1.unknown_length = c.unknown_length
  | [], c, _, hc => ⟨c, by simp [encode_items], by simpa [unbounded_items] using Sunk.refl_nil c hc,
      by simp, rfl⟩
  | x :: rest, c, hv, hc => by
    simp only [EncodableItems] at hv
    obtain ⟨c1, h1, h2, h3, h4⟩ := encode_pass_spec cfg x c hv.1 hc
    obtain ⟨c2, k1, k2, k3, k4⟩ := encode_items_spec cfg rest c1 hv.2 h2.inv
    refine ⟨c2, ?_, ?_, ?_, by rw [k4, h4]⟩
    · simp only [encode_items, h1, child_exit_oom_of, k1]
    · simpa [unbounded_items] using h2.trans k2
    · rw [k3, h3, List.length_cons]; omega
/-- The pair loop sends key and value of every pair in stored order. -/
theorem encode_pairs_spec (cfg : Config) :
    ∀ (pairs : List (MpObj × MpObj)) (c : CborEncoder), EncodablePairs pairs → c.Inv →
      ∃ c1, encode_pairs cfg pairs c = .ok c1 ∧ Sunk c (unbounded_pairs cfg pairs) c1 ∧
        c1.remaining = c.remaining - 2 * pairs.length ∧
        c1.unknown_length = c.unknown_length
  | [], c, _, hc => ⟨c, by simp [encode_pairs],
      by simpa [unbounded_pairs] using Sunk.refl_nil c hc, by simp, rfl⟩
  | (k, v) :: rest, c, hv, hc => by
    simp only [EncodablePairs] at hv
    obtain ⟨c1, h1, h2, h3, h4⟩ := encode_pass_spec cfg k c hv.1 hc
    obtain ⟨c2, j1, j2, j3, j4⟩ := encode_pass_spec cfg v c1 hv.2.1 h2.inv
    obtain ⟨c3, k1, k2, k3, k4⟩ := encode_pairs_spec cfg rest c2 hv.2.2 j2.inv
    refine ⟨c3, ?_, ?_, ?_, by rw [k4, j4, h4]⟩
    · simp only [encode_pairs, h1, child_exit_oom_of, j1, k1]
    · simpa [unbounded_pairs] using h2.trans (j2.trans k2)
    · rw [k3, j3, h3, List.length_cons]; omega
end

theorem cbor_encoder_init_inv (size : Nat) : (cbor_encoder_init size).Inv := by
  simp [CborEncoder.Inv, cbor_encoder_init]

/-- A pass of the top-level call into a fresh sink of capacity `bufsize`. -/
theorem first_pass_spec (cfg : Config) (v : MpObj) (hv : Encodable v) (bufsize : Nat) :
    ∃ e1, encode_pass cfg v (cbor_encoder_init bufsize) = .ok (oom_of e1, e1) ∧
      e1.Inv ∧ e1.size = bufsize ∧ e1.demand = (unbounded_pass cfg v).length ∧
      (e1.end_null = false → e1.written = unbounded_pass cfg v) := by
  obtain ⟨e1, h1, h2, _, _⟩ :=
    encode_pass_spec cfg v (cbor_encoder_init bufsize) hv (cbor_encoder_init_inv bufsize)
  refine ⟨e1, h1, h2.inv, h2.size_eq, ?_, ?_⟩
  · rw [h2.demand_eq]; simp [CborEncoder.demand, cbor_encoder_init]
  · intro hn
    rw [h2.written_eq hn]; simp [cbor_encoder_init]

/-- A pass into a sink that is large enough ends the loop. -/
theorem top_loop_fits (cfg : Config) (v : MpObj) (hv : Encodable v) (fuel bufsize attempts : Nat)
    (hfit : (unbounded_pass cfg v).length ≤ bufsize) :
    top_loop cfg v (fuel + 1) bufsize attempts =
      .ok { buf := unbounded_pass cfg v, encoded_len := (unbounded_pass cfg v).length,
            bufsize := bufsize, attempts := attempts + 1 } := by
  obtain ⟨e1, h1, h2, h3, h4, h5⟩ := first_pass_spec cfg v hv bufsize
  have hn : e1.end_null = false := by
    by_contra hc
    have hc1 : e1.end_null = true := by simpa using hc
    simp only [CborEncoder.Inv, CborEncoder.demand, hc1, if_true] at h2 h4
    omega
  have hw := h5 hn
  simp [top_loop, h1, oom_of, hn, cbor_encoder_get_buffer_size, hw]

/-- A pass into a sink that is too small reports the exact deficit. -/
theorem top_loop_grows (cfg : Config) (v : MpObj) (hv : Encodable v) (fuel bufsize attempts : Nat)
    (hbig : bufsize < (unbounded_pass cfg v).length) :
    top_loop cfg v (fuel + 1) bufsize attempts =
      top_loop cfg v fuel (unbounded_pass cfg v).length (attempts + 1) := by
  obtain ⟨e1, h1, h2, h3, h4, h5⟩ := first_pass_spec cfg v hv bufsize
  have hn : e1.end_null = true := by
    by_contra hc
    have hc1 : e1.end_null = false := by simpa using hc
    simp only [CborEncoder.Inv, CborEncoder.demand, hc1, Bool.false_eq_true, if_false] at h2 h4
    omega
  simp only [CborEncoder.demand, hn, if_true] at h4
  have hsz : bufsize + e1.bytes_needed = (unbounded_pass cfg v).length := by omega
  simp [top_loop, h1, oom_of, hn, cbor_encoder_get_extra_bytes_needed, hsz]

/-- The whole sizing loop: at most two passes, and the result is the unbounded walk. -/
theorem top_loop_spec (cfg : Config) (v : MpObj) (hv : Encodable v) (fuel bufsize attempts : Nat)
    (hfuel : 2 ≤ fuel) :
    top_loop cfg v fuel bufsize attempts =
      .ok { buf := unbounded_pass cfg v, encoded_len := (unbounded_pass cfg v).length,
            bufsize := max bufsize (unbounded_pass cfg v).length,
            attempts := attempts + (if (unbounded_pass cfg v).length ≤ bufsize then 1 else 2) } := by
  obtain ⟨f, rfl⟩ : ∃ f, fuel = f + 2 := ⟨fuel - 2, by omega⟩
  by_cases hfit : (unbounded_pass cfg v).length ≤ bufsize
  · rw [top_loop_fits cfg v hv (f + 1) bufsize attempts hfit]
    simp [hfit]
  · rw [top_loop_grows cfg v hv (f + 1) bufsize attempts (by omega),
      top_loop_fits cfg v hv f _ (attempts + 1) (le_refl _)]
    simp [hfit]
    omega

theorem encodableItems_replicate (n : Nat) (x : MpObj) (hx : Encodable x) :
    EncodableItems (List.replicate n x) := by
  induction n with
  | zero => simp [EncodableItems]
  | succ k ih => simp [List.replicate_succ, EncodableItems, hx, ih]

/-- C3: the encoder has no branch for `bool`: a `bool` at the root, in a list or as a dict
value is not written as a boolean item; the walk raises
`ValueError("Found object which cannot be encoded")`. -/
theorem bool_is_rejected_by_encoder (cfg : Config) (fuel : Nat) (b : Bool) :
    cbor_dumps cfg (fuel + 1) (.bool b) =
        .error (.ValueError "Found object which cannot be encoded") ∧
      cbor_dumps cfg (fuel + 1) (.list [.bool b]) =
        .error (.ValueError "Found object which cannot be encoded") ∧
      cbor_dumps cfg (fuel + 1) (.dict [(.int 1, .bool b)]) =
        .error (.ValueError "Found object which cannot be encoded") := by
  exact ⟨rfl, rfl, rfl⟩

theorem toByte_val (n : Nat) : (toByte n).val = n % 256 := rfl

theorem beBytes_length (k n : Nat) : (beBytes k n).length = k := by
  induction k with
  | zero => rfl
  | succ k ih => simp [beBytes, ih]

theorem foldl_beBytes (k n acc : Nat) :
    (beBytes k n).foldl (fun a (b : Byte) => a * 256 + b.val) acc = acc * 256 ^ k + n % 256 ^ k := by
  induction k generalizing acc with
  | zero => simp [beBytes, Nat.mod_one]
  | succ k ih =>
    simp only [beBytes, List.foldl_cons, ih, toByte_val]
    rw [Nat.mod_pow_succ]
    ring

theorem beValue_beBytes (k n : Nat) : beValue (beBytes k n) = n % 256 ^ k := by
  simp [beValue, foldl_beBytes]

theorem wrap64_id (n : Int) (h1 : -2 ^ 63 ≤ n) (h2 : n < 2 ^ 63) : wrap64 n = n := by
  unfold wrap64
  norm_num at h1 h2 ⊢
  omega

theorem header_bytes_eq (ui m : Nat) :
    header_bytes ui m = toByte (m + (header_form ui).1) :: beBytes (header_form ui).2 ui := by
  unfold header_bytes header_form
  split_ifs <;> simp [beBytes]

theorem header_form_spec (ui : Nat) (h : ui < 2 ^ 64) :
    (header_form ui).1 ≤ 27 ∧
      ((header_form ui).1 < 24 → (header_form ui).2 = 0 ∧ (header_form ui).1 = ui) ∧
      (24 ≤ (header_form ui).1 →
        (header_form ui).2 = 2 ^ ((header_form ui).1 - 24) ∧ ui < 256 ^ (header_form ui).2) := by
  unfold header_form
  split_ifs <;> simp <;> omega

theorem header_bytes_length_pos (ui m : Nat) : 1 ≤ (header_bytes ui m).length := by
  rw [header_bytes_eq]; simp

theorem head_byte_val (m ai : Nat) (hm : m % 32 = 0) (hm2 : m < 256) (hai : ai ≤ 27) :
    (toByte (m + ai)).val / 32 = m / 32 ∧ (toByte (m + ai)).val % 32 = ai := by
  simp only [toByte_val]
  omega

theorem extract_number_header (ui m : Nat) (rest : List Byte) (hui : ui < 2 ^ 64)
    (hm : m % 32 = 0) (hm2 : m < 256) :
    extract_number (header_bytes ui m ++ rest) = .ok (ui, rest) := by
  obtain ⟨h1, h2, h3⟩ := header_form_spec ui hui
  obtain ⟨_, hb⟩ := head_byte_val m _ hm hm2 h1
  rw [header_bytes_eq]
  simp only [extract_number, List.cons_append, hb]
  by_cases hlt : (header_form ui).1 < 24
  · obtain ⟨k0, k1⟩ := h2 hlt
    have hlt2 : ui < 24 := k1 ▸ hlt
    simp [k0, k1, beBytes, hlt2]
  · obtain ⟨k0, k1⟩ := h3 (by omega)
    have hgt : ¬ (header_form ui).1 > 27 := by omega
    have hlen : ¬ (2 ^ ((header_form ui).1 - 24) >
        (beBytes (header_form ui).2 ui ++ rest).length) := by
      simp [beBytes_length, k0]
    simp only [hlt, hgt, hlen, if_false]
    rw [← k0]
    have ht : (beBytes (header_form ui).2 ui ++ rest).take (header_form ui).2 =
        beBytes (header_form ui).2 ui := by
      rw [List.take_append_of_le_length (by simp [beBytes_length])]
      exact List.take_of_length_le (by simp [beBytes_length])
    have hd : (beBytes (header_form ui).2 ui ++ rest).drop (header_form ui).2 = rest := by
      rw [List.drop_append_of_le_length (by simp [beBytes_length])]
      simp [List.drop_of_length_le, beBytes_length]
    rw [ht, hd, beValue_beBytes, Nat.mod_eq_of_lt k1]

theorem preparse_value_header (ui m : Nat) (rest : List Byte) (r : Nat) (t : CborType)
    (hui : ui < 2 ^ 64) (hm : m % 32 = 0) (hm2 : m < 224) :
    preparse_value { ptr := header_bytes ui m ++ rest, remaining := r, type := t } =
      .ok { ptr := header_bytes ui m ++ rest, remaining := r, type := major_type (m / 32) } := by
  obtain ⟨h1, h2, h3⟩ := header_form_spec ui hui
  obtain ⟨ha, hb⟩ := head_byte_val m _ hm (by omega) h1
  rw [header_bytes_eq]
  simp only [preparse_value, List.cons_append, ha, hb]
  have hgt : ¬ (header_form ui).1 > 27 := by omega
  have h7 : ¬ m / 32 = 7 := by omega
  have hlen : ¬ ((if (header_form ui).1 < 24 then 0 else 2 ^ ((header_form ui).1 - 24)) >
      (beBytes (header_form ui).2 ui ++ rest).length) := by
    by_cases hlt : (header_form ui).1 < 24
    · simp [hlt]
    · obtain ⟨k0, _⟩ := h3 (by omega)
      simp [hlt, beBytes_length, k0]
  simp only [hgt, h7, hlen, if_false]

mutual
theorem MpObj.beq_sound : ∀ (a b : MpObj), MpObj.beq a b = true → a = b
  | .none, b, h => by cases b <;> simp [MpObj.beq] at h ⊢
  | .bool x, b, h => by cases b <;> simp [MpObj.beq] at h ⊢; exact h
  | .int x, b, h => by cases b <;> simp [MpObj.beq] at h ⊢; exact h
  | .float x, b, h => by cases b <;> simp [MpObj.beq] at h ⊢; exact h
  | .str x, b, h => by cases b <;> simp [MpObj.beq] at h ⊢; exact h
  | .bytes x, b, h => by cases b <;> simp [MpObj.beq] at h ⊢; exact h
  | .other x, b, h => by cases b <;> simp [MpObj.beq] at h ⊢; exact h
  | .list xs, b, h => by
    cases b <;> simp [MpObj.beq] at h ⊢
    exact MpObj.beqList_sound xs _ h
  | .tuple xs, b, h => by
    cases b <;> simp [MpObj.beq] at h ⊢
    exact MpObj.beqList_sound xs _ h
  | .dict ps, b, h => by
    cases b <;> simp [MpObj.beq] at h ⊢
    exact MpObj.beqPairs_sound ps _ h
theorem MpObj.beqList_sound : ∀ (xs ys : List MpObj), MpObj.beqList xs ys = true → xs = ys
  | [], ys, h => by cases ys <;> simp [MpObj.beqList] at h ⊢
  | x :: xs, ys, h => by
    cases ys with
    | nil => simp [MpObj.beqList] at h
    | cons y ys =>
      simp only [MpObj.beqList, Bool.and_eq_true] at h
      rw [MpObj.beq_sound x y h.1, MpObj.beqList_sound xs ys h.2]
theorem MpObj.beqPairs_sound :
    ∀ (ps qs : List (MpObj × MpObj)), MpObj.beqPairs ps qs = true → ps = qs
  | [], qs, h => by cases qs <;> simp [MpObj.beqPairs] at h ⊢
  | (k, v) :: ps, qs, h => by
    cases qs with
    | nil => simp [MpObj.beqPairs] at h
    | cons q qs =>
      obtain ⟨k2, v2⟩ := q
      simp only [MpObj.beqPairs, Bool.and_eq_true] at h
      rw [MpObj.beq_sound k k2 h.1.1, MpObj.beq_sound v v2 h.1.2, MpObj.beqPairs_sound ps qs h.2]
end

theorem mp_obj_dict_store_fresh (acc : List (MpObj × MpObj)) (k v : MpObj)
    (h : ∀ q ∈ acc, q.1 ≠ k) : mp_obj_dict_store acc k v = acc ++ [(k, v)] := by
  induction acc with
  | nil => rfl
  | cons q acc ih =>
    obtain ⟨k0, v0⟩ := q
    have hne : MpObj.beq k0 k = false := by
      cases hb : MpObj.beq k0 k
      · rfl
      · exact absurd (MpObj.beq_sound k0 k hb) (h (k0, v0) (List.mem_cons_self _ _))
    simp only [mp_obj_dict_store, hne, Bool.false_eq_true, if_false, List.cons_append]
    rw [ih (fun q hq => h q (List.mem_cons_of_mem _ hq))]

theorem unbounded_items_flat (cfg : Config) (ps : List (MpObj × MpObj)) :
    unbounded_items cfg (flat ps) = unbounded_pairs cfg ps := by
  induction ps with
  | nil => rfl
  | cons p ps ih =>
    obtain ⟨k, v⟩ := p
    simp [flat, unbounded_items, unbounded_pairs, ih]

theorem flat_length (ps : List (MpObj × MpObj)) : (flat ps).length = 2 * ps.length := by
  induction ps with
  | nil => rfl
  | cons p ps ih =>
    obtain ⟨k, v⟩ := p
    simp [flat, ih]; omega

theorem head_type_ne_tag (cfg : Config) (v : MpObj) : head_type cfg v ≠ CborTagType := by
  cases v <;> simp [head_type]
  split <;> simp

theorem int_bytes_eq (n : Int) :
    ∃ ui m, int_bytes n = header_bytes ui m ∧ ui < 2 ^ 64 ∧ m % 32 = 0 ∧ m < 64 := by
  unfold int_bytes
  split
  · exact ⟨_, 0x20, rfl, Nat.mod_lt _ (by norm_num), by norm_num, by norm_num⟩
  · exact ⟨_, 0x00, rfl, Nat.mod_lt _ (by norm_num), by norm_num, by norm_num⟩

theorem preparse_value_plain (cfg : Config) (v : MpObj) (hv : Plain cfg v) (rest : List Byte)
    (r : Nat) (t : CborType) :
    preparse_value { ptr := unbounded_pass cfg v ++ rest, remaining := r, type := t } =
      .ok { ptr := unbounded_pass cfg v ++ rest, remaining := r, type := head_type cfg v } := by
  cases v with
  | none => rfl
  | int n =>
    obtain ⟨ui, m, h1, h2, h3, h4⟩ := int_bytes_eq (mp_obj_get_int n)
    simp only [unbounded_pass, h1, head_type]
    rw [preparse_value_header ui m rest r t h2 h3 (by omega)]
    have : major_type (m / 32) = CborIntegerType := by
      have : m / 32 = 0 ∨ m / 32 = 1 := by omega
      rcases this with h | h <;> simp [h, major_type]
    rw [this]
  | float bits =>
    simp only [unbounded_pass, head_type]
    split
    · simp [preparse_value, toByte_val, beBytes_length, simple_type]
    · simp [preparse_value, toByte_val, beBytes_length, simple_type]
  | str data =>
    simp only [Plain] at hv
    simp only [unbounded_pass, head_type, List.append_assoc]
    rw [preparse_value_header _ 0x60 _ r t (by omega) (by norm_num) (by norm_num)]
    rfl
  | bytes data =>
    simp only [Plain] at hv
    simp only [unbounded_pass, head_type, List.append_assoc]
    rw [preparse_value_header _ 0x40 _ r t (by omega) (by norm_num) (by norm_num)]
    rfl
  | list items =>
    simp only [Plain, UINT32_MAX] at hv
    simp only [unbounded_pass, head_type, List.append_assoc]
    rw [preparse_value_header _ 0x80 _ r t (by omega) (by norm_num) (by norm_num)]
    rfl
  | dict pairs =>
    simp only [Plain, UINT32_MAX] at hv
    simp only [unbounded_pass, head_type, List.append_assoc]
    rw [preparse_value_header _ 0xa0 _ r t (by omega) (by norm_num) (by norm_num)]
    rfl
  | tuple _ => simp [Plain] at hv
  | bool _ => simp [Plain] at hv
  | other _ => simp [Plain] at hv

theorem preparse_next_value_definite (p : List Byte) (r : Nat) (t : CborType)
    (hr : r + 1 < UINT32_MAX) (ht : t ≠ CborTagType) :
    preparse_next_value { ptr := p, remaining := r + 1, type := t } =
      if r = 0 then .ok { ptr := p, remaining := 0, type := CborInvalidType }
      else preparse_value { ptr := p, remaining := r, type := t } := by
  simp only [UINT32_MAX] at hr
  have h1 : r + 1 ≠ UINT32_MAX := by simp only [UINT32_MAX]; omega
  have h2 : (r + 1 + 2 ^ 32 - 1) % 2 ^ 32 = r := by omega
  simp only [preparse_next_value, h1, ne_eq, not_false_eq_true, if_true, ht, h2]
  by_cases h0 : r = 0
  · simp [h0]
  · have h3 : ¬ (r = UINT32_MAX) := by simp only [UINT32_MAX]; omega
    simp only [h0, if_false, preparse_next_value_nodecrement, h3, false_and]
    cases p <;> rfl

theorem preparse_next_value_items (cfg : Config) (xs : List MpObj) (hxs : PlainItems cfg xs)
    (rest : List Byte) (t : CborType) (hlen : xs.length + 1 < UINT32_MAX)
    (ht : t ≠ CborTagType) :
    preparse_next_value
        { ptr := unbounded_items cfg xs ++ rest, remaining := xs.length + 1, type := t } =
      .ok (item_cursor cfg xs rest) := by
  rw [preparse_next_value_definite _ _ _ hlen ht]
  cases xs with
  | nil => simp [item_cursor, unbounded_items]
  | cons x xs =>
    simp only [PlainItems] at hxs
    simp only [List.length_cons, Nat.add_one_ne_zero, if_false, unbounded_items,
      List.append_assoc, item_cursor]
    rw [preparse_value_plain cfg x hxs.1]

theorem header_bytes_cons (ui m : Nat) (hui : ui < 2 ^ 64) (hm : m % 32 = 0) (hm2 : m < 256) :
    ∃ b args, header_bytes ui m = b :: args ∧ b.val / 32 = m / 32 ∧ b.val % 32 ≤ 27 := by
  obtain ⟨h1, _, _⟩ := header_form_spec ui hui
  obtain ⟨ha, hb⟩ := head_byte_val m _ hm hm2 h1
  exact ⟨_, _, header_bytes_eq ui m, ha, by omega⟩

theorem cbor_value_get_int64_plain (n : Int) (h1 : -2 ^ 63 ≤ n) (h2 : n < 2 ^ 63)
    (rest : List Byte) (r : Nat) (t : CborType) :
    cbor_value_get_int64 { ptr := int_bytes n ++ rest, remaining := r, type := t } = n := by
  norm_num at h1 h2
  by_cases hneg : n < 0
  · have hui : (-1 - n).toNat % 2 ^ 64 < 2 ^ 64 := Nat.mod_lt _ (by norm_num)
    obtain ⟨b, args, hb, hb1, _⟩ := header_bytes_cons _ 0x20 hui (by norm_num) (by norm_num)
    have hx := extract_number_header _ 0x20 rest hui (by norm_num) (by norm_num)
    simp only [int_bytes, hneg, if_true, cbor_value_get_int64, hx]
    simp only [hb, List.cons_append, List.headD_cons, hb1]
    norm_num [wrap64]
    omega
  · have hui : n.toNat % 2 ^ 64 < 2 ^ 64 := Nat.mod_lt _ (by norm_num)
    obtain ⟨b, args, hb, hb1, _⟩ := header_bytes_cons _ 0x00 hui (by norm_num) (by norm_num)
    have hx := extract_number_header _ 0x00 rest hui (by norm_num) (by norm_num)
    simp only [int_bytes, hneg, if_false, cbor_value_get_int64, hx]
    simp only [hb, List.cons_append, List.headD_cons, hb1]
    norm_num [wrap64]
    omega

theorem dup_string_header (n m : Nat) (payload rest : List Byte) (r : Nat) (t : CborType)
    (hn : n = payload.length) (hlt : n < 2 ^ 64) (hm : m % 32 = 0) (hm2 : m < 256) :
    dup_string { ptr := header_bytes n m ++ (payload ++ rest), remaining := r, type := t } =
      match preparse_next_value { ptr := rest, remaining := r, type := t } with
      | .error e => .error e
      | .ok it1 => .ok (payload, it1) := by
  obtain ⟨b, args, hb, _, hb2⟩ := header_bytes_cons n m hlt hm hm2
  have hx := extract_number_header n m (payload ++ rest) hlt hm hm2
  rw [hb] at hx
  have h31 : ¬ (b.val % 32 = 31) := by omega
  simp only [dup_string, hb, List.cons_append, h31, if_false]
  simp only [List.cons_append] at hx
  rw [hx]
  have hfit : ¬ (n > (payload ++ rest).length) := by simp [hn]
  simp only [hfit, if_false]
  have h1 : (payload ++ rest).take n = payload := by simp [hn]
  have h2 : (payload ++ rest).drop n = rest := by simp [hn]
  rw [h1, h2]

theorem cbor_value_enter_container_header (n m : Nat) (body : List Byte) (r : Nat)
    (t : CborType) (hn : n < UINT32_MAX) (hmap : t = CborMapType → n ≤ UINT32_MAX / 2)
    (hm : m % 32 = 0) (hm2 : m < 256) :
    cbor_value_enter_container { ptr := header_bytes n m ++ body, remaining := r, type := t } =
      if n = 0 then
        .ok { ptr := body, remaining := 0, type := CborInvalidType }
      else
        preparse_value
          { ptr := body, remaining := (if t = CborMapType then n * 2 else n), type := t } := by
  have hlt : n < 2 ^ 64 := by simp only [UINT32_MAX] at hn; omega
  obtain ⟨b, args, hb, _, hb2⟩ := header_bytes_cons n m hlt hm hm2
  have hx := extract_number_header n m body hlt hm hm2
  rw [hb] at hx
  have h31 : ¬ (b.val % 32 = 31) := by omega
  simp only [cbor_value_enter_container, hb, List.cons_append, h31, if_false]
  simp only [List.cons_append] at hx
  rw [hx]
  have h1 : ¬ (n ≥ UINT32_MAX) := by omega
  have h2 : ¬ (t = CborMapType ∧ n > UINT32_MAX / 2) := by
    rintro ⟨ht, hgt⟩
    have := hmap ht
    omega
  simp only [h1, h2, if_false]
  by_cases h0 : n = 0
  · simp [h0]
  · simp only [h0, if_false]
    have h3 : ¬ ((if t = CborMapType then n * 2 else n) = UINT32_MAX) := by
      split
      · rename_i ht
        have := hmap ht
        simp only [UINT32_MAX] at this ⊢
        omega
      · omega
    simp only [preparse_next_value_nodecrement, h3, false_and, if_false]
    cases body <;> rfl

theorem advance_fixed_of_extract (p rest : List Byte) (x r : Nat) (t : CborType) (it2 : CborValue)
    (hx : extract_number p = .ok (x, rest)) (hr : r ≠ 0)
    (hnext : preparse_next_value { ptr := rest, remaining := r, type := t } = .ok it2) :
    cbor_value_advance_fixed { ptr := p, remaining := r, type := t } = .ok it2 := by
  simp only [cbor_value_advance_fixed, hr, if_false, hx, hnext]

theorem extract_number_float (b : Nat) (k bits : Nat) (rest : List Byte)
    (hb : b = 0xfa ∧ k = 4 ∨ b = 0xfb ∧ k = 8) :
    extract_number (toByte b :: beBytes k bits ++ rest) =
      .ok (beValue (beBytes k bits), rest) := by
  rcases hb with ⟨rfl, rfl⟩ | ⟨rfl, rfl⟩
  · have h1 : ¬ (4 > (beBytes 4 bits ++ rest).length) := by simp [beBytes_length]
    have h2 : (beBytes 4 bits ++ rest).take 4 = beBytes 4 bits := by
      rw [List.take_append_of_le_length (by simp [beBytes_length])]
      exact List.take_of_length_le (by simp [beBytes_length])
    have h3 : (beBytes 4 bits ++ rest).drop 4 = rest := by
      rw [List.drop_append_of_le_length (by simp [beBytes_length])]
      simp [List.drop_of_length_le, beBytes_length]
    simp [extract_number, toByte_val, h2, h3, beBytes_length]
  · have h1 : ¬ (8 > (beBytes 8 bits ++ rest).length) := by simp [beBytes_length]
    have h2 : (beBytes 8 bits ++ rest).take 8 = beBytes 8 bits := by
      rw [List.take_append_of_le_length (by simp [beBytes_length])]
      exact List.take_of_length_le (by simp [beBytes_length])
    have h3 : (beBytes 8 bits ++ rest).drop 8 = rest := by
      rw [List.drop_append_of_le_length (by simp [beBytes_length])]
      simp [List.drop_of_length_le, beBytes_length]
    simp [extract_number, toByte_val, h2, h3, beBytes_length]

theorem decode_item_none (cfg : Config) (fuel r : Nat) (rest : List Byte) (it2 : CborValue)
    (hr : r ≠ 0)
    (hnext : preparse_next_value { ptr := rest, remaining := r, type := head_type cfg .none } =
      .ok it2) :
    ItemOk cfg fuel .none rest r it2 := by
  refine ⟨_, rfl, ?_⟩
  simp only [head_type] at hnext
  have hx : extract_number (unbounded_pass cfg .none ++ rest) = .ok (22, rest) := rfl
  simp [advance_unless_variable, head_type, advance_fixed_of_extract _ _ _ _ _ _ hx hr hnext]

theorem decode_item_int (cfg : Config) (n : Int) (fuel r : Nat) (rest : List Byte)
    (it2 : CborValue) (hv : Plain cfg (.int n)) (hr : r ≠ 0)
    (hnext : preparse_next_value { ptr := rest, remaining := r, type := head_type cfg (.int n) } =
      .ok it2) :
    ItemOk cfg fuel (.int n) rest r it2 := by
  simp only [Plain] at hv
  have hw : mp_obj_get_int n = n := wrap64_id n hv.1 hv.2
  refine ⟨{ ptr := unbounded_pass cfg (.int n) ++ rest, remaining := r,
            type := head_type cfg (.int n) }, ?_, ?_⟩
  · simp only [decode_item, cbor_value_get_type, head_type, decode_scalar, unbounded_pass, hw]
    simp [cbor_value_get_int64_plain n hv.1 hv.2]
  · obtain ⟨ui, m, h1, h2, h3, h4⟩ := int_bytes_eq (mp_obj_get_int n)
    have hx : extract_number (unbounded_pass cfg (.int n) ++ rest) = .ok (ui, rest) := by
      simp only [unbounded_pass, h1]
      exact extract_number_header ui m rest h2 h3 (by omega)
    simp only [head_type] at hnext
    simp [advance_unless_variable, head_type,
      advance_fixed_of_extract _ _ _ _ _ _ hx hr hnext]

theorem decode_item_float (cfg : Config) (bits : Nat) (fuel r : Nat) (rest : List Byte)
    (it2 : CborValue) (hv : Plain cfg (.float bits)) (hr : r ≠ 0)
    (hnext : preparse_next_value
      { ptr := rest, remaining := r, type := head_type cfg (.float bits) } = .ok it2) :
    ItemOk cfg fuel (.float bits) rest r it2 := by
  simp only [Plain] at hv
  refine ⟨{ ptr := unbounded_pass cfg (.float bits) ++ rest, remaining := r,
            type := head_type cfg (.float bits) }, ?_, ?_⟩
  · cases hf : cfg.floatImpl with
    | double f =>
      have hd : cfg.floatImplDouble = true := by simp [Config.floatImplDouble, hf]
      simp only [hd, if_true] at hv
      have hb : beValue (beBytes 8 bits) = bits := by
        rw [beValue_beBytes]; exact Nat.mod_eq_of_lt (by norm_num at hv ⊢; omega)
      have ht : (beBytes 8 bits ++ rest).take 8 = beBytes 8 bits := by
        rw [List.take_append_of_le_length (by simp [beBytes_length])]
        exact List.take_of_length_le (by simp [beBytes_length])
      simp [decode_item, cbor_value_get_type, head_type, decode_scalar, unbounded_pass, hd,
        mp_obj_new_float_from_d, hf, cbor_value_get_double, ht, hb]
    | single f =>
      have hd : cfg.floatImplDouble = false := by simp [Config.floatImplDouble, hf]
      simp only [hd, Bool.false_eq_true, if_false] at hv
      have hb : beValue (beBytes 4 bits) = bits := by
        rw [beValue_beBytes]; exact Nat.mod_eq_of_lt (by norm_num at hv ⊢; omega)
      have ht : (beBytes 4 bits ++ rest).take 4 = beBytes 4 bits := by
        rw [List.take_append_of_le_length (by simp [beBytes_length])]
        exact List.take_of_length_le (by simp [beBytes_length])
      simp [decode_item, cbor_value_get_type, head_type, decode_scalar, unbounded_pass, hd,
        mp_obj_new_float_from_f, hf, cbor_value_get_float, ht, hb]
  · cases hd : cfg.floatImplDouble
    · have hx := extract_number_float 0xfa 4 bits rest (Or.inl ⟨rfl, rfl⟩)
      simp only [head_type, hd, Bool.false_eq_true, if_false] at hnext
      have ha := advance_fixed_of_extract _ _ _ _ _ _ hx hr hnext
      simp only [List.cons_append] at ha
      simp [advance_unless_variable, head_type, unbounded_pass, hd, ha]
    · have hx := extract_number_float 0xfb 8 bits rest (Or.inr ⟨rfl, rfl⟩)
      simp only [head_type, hd, if_true] at hnext
      have ha := advance_fixed_of_extract _ _ _ _ _ _ hx hr hnext
      simp only [List.cons_append] at ha
      simp [advance_unless_variable, head_type, unbounded_pass, hd, ha]

theorem decode_item_str (cfg : Config) (data : List Byte) (fuel r : Nat) (rest : List Byte)
    (it2 : CborValue) (hv : Plain cfg (.str data))
    (hnext : preparse_next_value
      { ptr := rest, remaining := r, type := head_type cfg (.str data) } = .ok it2) :
    ItemOk cfg fuel (.str data) rest r it2 := by
  simp only [Plain] at hv
  obtain ⟨h1, h2, h3⟩ := hv
  refine ⟨it2, ?_, ?_⟩
  · simp only [head_type] at hnext
    have hd := dup_string_header data.length 0x60 data rest r CborTextStringType rfl h2
      (by norm_num) (by norm_num)
    rw [hnext] at hd
    simp only [decode_item, cbor_value_get_type, head_type, decode_scalar, unbounded_pass, h1,
      List.take_length, List.append_assoc, cbor_value_dup_text_string, hd, h3]
    simp
  · simp [advance_unless_variable, head_type]

theorem decode_item_bytes (cfg : Config) (data : List Byte) (fuel r : Nat) (rest : List Byte)
    (it2 : CborValue) (hv : Plain cfg (.bytes data))
    (hnext : preparse_next_value
      { ptr := rest, remaining := r, type := head_type cfg (.bytes data) } = .ok it2) :
    ItemOk cfg fuel (.bytes data) rest r it2 := by
  simp only [Plain] at hv
  refine ⟨it2, ?_, ?_⟩
  · simp only [head_type] at hnext
    have hd := dup_string_header data.length 0x40 data rest r CborByteStringType rfl hv
      (by norm_num) (by norm_num)
    rw [hnext] at hd
    simp only [decode_item, cbor_value_get_type, head_type, decode_scalar, unbounded_pass,
      List.append_assoc, cbor_value_dup_byte_string, hd]
    simp
  · simp [advance_unless_variable, head_type]

theorem unbounded_pass_length_pos (cfg : Config) (v : MpObj) (hv : Plain cfg v) :
    1 ≤ (unbounded_pass cfg v).length := by
  cases v with
  | none => simp [unbounded_pass, header_bytes]
  | int n =>
    obtain ⟨ui, m, h1, _⟩ := int_bytes_eq (mp_obj_get_int n)
    simp only [unbounded_pass, h1]
    exact header_bytes_length_pos ui m
  | float bits => simp only [unbounded_pass]; split <;> simp
  | str data =>
    have := header_bytes_length_pos (mp_obj_len_str cfg data) 0x60
    simp only [unbounded_pass, List.length_append]; omega
  | bytes data =>
    have := header_bytes_length_pos data.length 0x40
    simp only [unbounded_pass, List.length_append]; omega
  | list items =>
    have := header_bytes_length_pos items.length 0x80
    simp only [unbounded_pass, List.length_append]; omega
  | dict pairs =>
    have := header_bytes_length_pos pairs.length 0xa0
    simp only [unbounded_pass, List.length_append]; omega
  | tuple _ => simp [Plain] at hv
  | bool _ => simp [Plain] at hv
  | other _ => simp [Plain] at hv

theorem item_cursor_cons (cfg : Config) (x : MpObj) (xs : List MpObj) (rest : List Byte) :
    item_cursor cfg (x :: xs) rest =
      { ptr := unbounded_pass cfg x ++ (unbounded_items cfg xs ++ rest),
        remaining := xs.length + 1, type := head_type cfg x } := by
  simp [item_cursor, unbounded_items]

theorem plainItems_flat (cfg : Config) (ps : List (MpObj × MpObj)) (h : PlainPairs cfg ps) :
    PlainItems cfg (flat ps) := by
  induction ps with
  | nil => simp [flat, PlainItems]
  | cons p ps ih =>
    obtain ⟨k, v⟩ := p
    simp only [PlainPairs] at h
    simp only [flat, PlainItems]
    exact ⟨h.1, h.2.1, ih h.2.2⟩

theorem item_cursor_nil (cfg : Config) (rest : List Byte) :
    item_cursor cfg [] rest = { ptr := rest, remaining := 0, type := CborInvalidType } := by
  simp [item_cursor, unbounded_items]

theorem decode_loop_at_end (cfg : Config) (f : Nat) (it : CborValue) (parent_obj key : MpObj)
    (hend : it.remaining = 0) :
    decode_loop cfg (f + 1) it parent_obj false key = .ok (parent_obj, it) := by
  simp [decode_loop_succ, cbor_value_at_end, hend]

theorem decode_loop_dangling (cfg : Config) (f : Nat) (it : CborValue) (parent_obj key : MpObj)
    (hend : it.remaining = 0) :
    decode_loop cfg (f + 1) it parent_obj true key =
      .error (.ValueError "key with no value in map") := by
  simp [decode_loop_succ, cbor_value_at_end, hend]

theorem decode_loop_root_step (cfg : Config) (f : Nat) (it it1 : CborValue) (x key : MpObj)
    (dvn : Bool) (hend : it.remaining ≠ 0) (h1 : decode_item cfg f it = .ok (x, it1)) :
    decode_loop cfg (f + 1) it .none dvn key = .ok (x, it1) := by
  simp [decode_loop_succ, cbor_value_at_end, hend, h1]

theorem decode_loop_list_step (cfg : Config) (f : Nat) (it it1 it2 : CborValue) (x key : MpObj)
    (acc : List MpObj) (dvn : Bool) (hend : it.remaining ≠ 0)
    (h1 : decode_item cfg f it = .ok (x, it1))
    (h2 : advance_unless_variable it.type it1 = .ok it2) :
    decode_loop cfg (f + 1) it (.list acc) dvn key =
      decode_loop cfg f it2 (.list (acc ++ [x])) dvn key := by
  simp [decode_loop_succ, cbor_value_at_end, hend, h1, cbor_value_get_type, h2,
    mp_obj_list_append]

theorem decode_loop_dict_key_step (cfg : Config) (f : Nat) (it it1 it2 : CborValue)
    (x key : MpObj) (acc : List (MpObj × MpObj)) (hend : it.remaining ≠ 0)
    (h1 : decode_item cfg f it = .ok (x, it1))
    (h2 : advance_unless_variable it.type it1 = .ok it2) :
    decode_loop cfg (f + 1) it (.dict acc) false key = decode_loop cfg f it2 (.dict acc) true x := by
  simp [decode_loop_succ, cbor_value_at_end, hend, h1, cbor_value_get_type, h2]

theorem decode_loop_dict_value_step (cfg : Config) (f : Nat) (it it1 it2 : CborValue)
    (x key : MpObj) (acc : List (MpObj × MpObj)) (hend : it.remaining ≠ 0)
    (h1 : decode_item cfg f it = .ok (x, it1))
    (h2 : advance_unless_variable it.type it1 = .ok it2) :
    decode_loop cfg (f + 1) it (.dict acc) true key =
      decode_loop cfg f it2 (.dict (mp_obj_dict_store acc key x)) false .none := by
  simp [decode_loop_succ, cbor_value_at_end, hend, h1, cbor_value_get_type, h2]

theorem decode_loop_item_error (cfg : Config) (f : Nat) (it : CborValue) (parent_obj key : MpObj)
    (dvn : Bool) (ex : MpException) (hend : it.remaining ≠ 0)
    (h1 : decode_item cfg f it = .error ex) :
    decode_loop cfg (f + 1) it parent_obj dvn key = .error ex := by
  simp [decode_loop_succ, cbor_value_at_end, hend, h1]

mutual
theorem decode_item_plain (cfg : Config) :
    ∀ (v : MpObj) (fuel r : Nat) (rest : List Byte) (it2 : CborValue),
      Plain cfg v → r ≠ 0 →
      preparse_next_value { ptr := rest, remaining := r, type := head_type cfg v } = .ok it2 →
      (unbounded_pass cfg v).length ≤ fuel → ItemOk cfg fuel v rest r it2
  | .none, fuel, r, rest, it2, _, hr, hnext, _ => decode_item_none cfg fuel r rest it2 hr hnext
  | .int n, fuel, r, rest, it2, hv, hr, hnext, _ => decode_item_int cfg n fuel r rest it2 hv hr hnext
  | .float b, fuel, r, rest, it2, hv, hr, hnext, _ =>
    decode_item_float cfg b fuel r rest it2 hv hr hnext
  | .str d, fuel, r, rest, it2, hv, _, hnext, _ => decode_item_str cfg d fuel r rest it2 hv hnext
  | .bytes d, fuel, r, rest, it2, hv, _, hnext, _ =>
    decode_item_bytes cfg d fuel r rest it2 hv hnext
  | .tuple _, _, _, _, _, hv, _, _, _ => by simp [Plain] at hv
  | .bool _, _, _, _, _, hv, _, _, _ => by simp [Plain] at hv
  | .other _, _, _, _, _, hv, _, _, _ => by simp [Plain] at hv
  | .list xs, fuel, r, rest, it2, hv, hr, hnext, hfuel => by
    simp only [Plain] at hv
    obtain ⟨hlen, hxs⟩ := hv
    have henter : cbor_value_enter_container
        { ptr := unbounded_pass cfg (.list xs) ++ rest, remaining := r,
          type := head_type cfg (.list xs) } = .ok (item_cursor cfg xs rest) := by
      simp only [unbounded_pass, head_type, List.append_assoc]
      rw [cbor_value_enter_container_header xs.length 0x80 _ r CborArrayType hlen (by simp)
        (by norm_num) (by norm_num)]
      cases xs with
      | nil => simp [item_cursor, unbounded_items]
      | cons x xs =>
        simp only [PlainItems] at hxs
        simp only [List.length_cons, Nat.add_one_ne_zero, if_false, unbounded_items,
          List.append_assoc]
        rw [preparse_value_plain cfg x hxs.1, item_cursor_cons]
        simp
    have hloop := decode_loop_items cfg xs fuel [] rest hxs hlen (by
      have := header_bytes_length_pos xs.length 0x80
      simp only [unbounded_pass, List.length_append] at hfuel
      omega)
    refine ⟨it2, ?_, by simp [advance_unless_variable, head_type]⟩
    simp only [head_type] at hnext henter
    simp only [decode_item, cbor_value_get_type, head_type, henter]
    simp [cbor_value_leave_container, hloop, item_cursor_nil, hnext]
  | .dict ps, fuel, r, rest, it2, hv, hr, hnext, hfuel => by
    simp only [Plain] at hv
    obtain ⟨hlen, hps, hnd⟩ := hv
    have hlen2 : ps.length < UINT32_MAX := by simp only [UINT32_MAX] at hlen ⊢; omega
    have henter : cbor_value_enter_container
        { ptr := unbounded_pass cfg (.dict ps) ++ rest, remaining := r,
          type := head_type cfg (.dict ps) } = .ok (item_cursor cfg (flat ps) rest) := by
      simp only [unbounded_pass, head_type, List.append_assoc]
      rw [cbor_value_enter_container_header ps.length 0xa0 _ r CborMapType hlen2 (fun _ => hlen)
        (by norm_num) (by norm_num)]
      cases ps with
      | nil => simp [item_cursor, unbounded_items, unbounded_pairs, flat]
      | cons p ps =>
        obtain ⟨k, v⟩ := p
        simp only [PlainPairs] at hps
        simp only [List.length_cons, Nat.add_one_ne_zero, if_false, unbounded_pairs,
          List.append_assoc, flat]
        rw [preparse_value_plain cfg k hps.1, item_cursor_cons]
        simp [unbounded_items, unbounded_items_flat, flat_length]
        omega
    have hloop := decode_loop_pairs cfg ps fuel [] rest hps
      (by simp only [UINT32_MAX] at hlen ⊢; omega) (by simpa using hnd) (by
      have := header_bytes_length_pos ps.length 0xa0
      simp only [unbounded_pass, List.length_append] at hfuel
      omega)
    refine ⟨it2, ?_, by simp [advance_unless_variable, head_type]⟩
    simp only [head_type] at hnext henter
    simp only [decode_item, cbor_value_get_type, head_type, henter]
    simp [cbor_value_leave_container, hloop, item_cursor_nil, hnext]
theorem decode_loop_items (cfg : Config) :
    ∀ (xs : List MpObj) (fuel : Nat) (acc : List MpObj) (rest : List Byte),
      PlainItems cfg xs → xs.length < UINT32_MAX →
      (unbounded_items cfg xs).length + 1 ≤ fuel →
      decode_loop cfg fuel (item_cursor cfg xs rest) (.list acc) false .none =
        .ok (.list (acc ++ xs), item_cursor cfg [] rest)
  | [], fuel, acc, rest, _, _, hfuel => by
    obtain ⟨f, rfl⟩ : ∃ f, fuel = f + 1 := ⟨fuel - 1, by omega⟩
    simp [decode_loop_succ, cbor_value_at_end, item_cursor]
  | x :: xs, fuel, acc, rest, hxs, hlen, hfuel => by
    simp only [PlainItems] at hxs
    have hpos := unbounded_pass_length_pos cfg x hxs.1
    simp only [unbounded_items, List.length_append] at hfuel
    simp only [List.length_cons] at hlen
    obtain ⟨f, rfl⟩ : ∃ f, fuel = f + 1 := ⟨fuel - 1, by omega⟩
    have hnext := preparse_next_value_items cfg xs hxs.2 rest (head_type cfg x) hlen
      (head_type_ne_tag cfg x)
    obtain ⟨it1, h1, h2⟩ := decode_item_plain cfg x f (xs.length + 1) (unbounded_items cfg xs ++ rest)
      (item_cursor cfg xs rest) hxs.1 (by omega) hnext (by omega)
    have hloop := decode_loop_items cfg xs f (acc ++ [x]) rest hxs.2 (by omega) (by omega)
    rw [item_cursor_cons,
      decode_loop_list_step cfg f _ it1 (item_cursor cfg xs rest) x .none acc false (by simp) h1 h2,
      hloop]
    simp
theorem decode_loop_pairs (cfg : Config) :
    ∀ (ps : List (MpObj × MpObj)) (fuel : Nat) (acc : List (MpObj × MpObj)) (rest : List Byte),
      PlainPairs cfg ps → 2 * ps.length < UINT32_MAX →
      ((acc ++ ps).map Prod.fst).Nodup →
      (unbounded_pairs cfg ps).length + 1 ≤ fuel →
      decode_loop cfg fuel (item_cursor cfg (flat ps) rest) (.dict acc) false .none =
        .ok (.dict (acc ++ ps), item_cursor cfg [] rest)
  | [], fuel, acc, rest, _, _, _, hfuel => by
    obtain ⟨f, rfl⟩ : ∃ f, fuel = f + 1 := ⟨fuel - 1, by omega⟩
    simp [decode_loop_succ, cbor_value_at_end, item_cursor, flat]
  | (k, v) :: ps, fuel, acc, rest, hps, hlen, hnd, hfuel => by
    simp only [PlainPairs] at hps
    obtain ⟨hk, hv, hps2⟩ := hps
    have hposk := unbounded_pass_length_pos cfg k hk
    have hposv := unbounded_pass_length_pos cfg v hv
    simp only [unbounded_pairs, List.length_append] at hfuel
    simp only [List.length_cons] at hlen
    obtain ⟨f, rfl⟩ : ∃ f, fuel = f + 2 := ⟨fuel - 2, by omega⟩
    have hflat := plainItems_flat cfg ps hps2
    have hfl := flat_length ps
    have hnext1 := preparse_next_value_items cfg (v :: flat ps) ⟨hv, hflat⟩ rest (head_type cfg k)
      (by simp only [List.length_cons, hfl]; omega) (head_type_ne_tag cfg k)
    obtain ⟨it1, h1, h2⟩ := decode_item_plain cfg k (f + 1) ((v :: flat ps).length + 1)
      (unbounded_items cfg (v :: flat ps) ++ rest) (item_cursor cfg (v :: flat ps) rest) hk
      (by omega) hnext1 (by omega)
    have hnext2 := preparse_next_value_items cfg (flat ps) hflat rest (head_type cfg v)
      (by rw [hfl]; omega) (head_type_ne_tag cfg v)
    obtain ⟨it3, h3, h4⟩ := decode_item_plain cfg v f ((flat ps).length + 1)
      (unbounded_items cfg (flat ps) ++ rest) (item_cursor cfg (flat ps) rest) hv
      (by omega) hnext2 (by omega)
    have hfresh : ∀ q ∈ acc, q.1 ≠ k := by
      intro q hq heq
      rw [List.map_append, List.nodup_append] at hnd
      exact hnd.2.2 (List.mem_map_of_mem _ hq) (by simp [heq])
    have hstore := mp_obj_dict_store_fresh acc k v hfresh
    have hloop := decode_loop_pairs cfg ps f (acc ++ [(k, v)]) rest hps2 (by omega)
      (by simpa using hnd) (by rw [← unbounded_items_flat] at hfuel ⊢; omega)
    simp only [flat]
    rw [item_cursor_cons,
      decode_loop_dict_key_step cfg (f + 1) _ it1 (item_cursor cfg (v :: flat ps) rest) k .none acc
        (by simp) h1 h2,
      item_cursor_cons,
      decode_loop_dict_value_step cfg f _ it3 (item_cursor cfg (flat ps) rest) v k acc
        (by simp) h3 h4,
      hstore, hloop]
    simp
end

mutual
theorem plain_encodable (cfg : Config) : ∀ (v : MpObj), Plain cfg v → Encodable v
  | .none, _ => by simp [Encodable]
  | .int _, _ => by simp [Encodable]
  | .float _, _ => by simp [Encodable]
  | .str _, _ => by simp [Encodable]
  | .bytes _, _ => by simp [Encodable]
  | .list xs, h => by
    simp only [Plain, UINT32_MAX] at h
    simp only [Encodable, CborIndefiniteLength, SIZE_MAX]
    exact ⟨by omega, plainItems_encodable cfg xs h.2⟩
  | .dict ps, h => by
    simp only [Plain, UINT32_MAX] at h
    simp only [Encodable, SIZE_MAX]
    exact ⟨by omega, plainPairs_encodable cfg ps h.2.1⟩
  | .tuple _, h => by simp [Plain] at h
  | .bool _, h => by simp [Plain] at h
  | .other _, h => by simp [Plain] at h
theorem plainItems_encodable (cfg : Config) :
    ∀ (xs : List MpObj), PlainItems cfg xs → EncodableItems xs
  | [], _ => by simp [EncodableItems]
  | x :: xs, h => by
    simp only [PlainItems] at h
    exact ⟨plain_encodable cfg x h.1, plainItems_encodable cfg xs h.2⟩
theorem plainPairs_encodable (cfg : Config) :
    ∀ (ps : List (MpObj × MpObj)), PlainPairs cfg ps → EncodablePairs ps
  | [], _ => by simp [EncodablePairs]
  | (k, v) :: ps, h => by
    simp only [PlainPairs] at h
    exact ⟨plain_encodable cfg k h.1, plain_encodable cfg v h.2.1,
      plainPairs_encodable cfg ps h.2.2⟩
end

/-- The encoder's output for an encodable value, whatever the fuel above two. -/
theorem cbor_dumps_eq (cfg : Config) (v : MpObj) (hv : Encodable v) (fuel : Nat)
    (hfuel : 2 ≤ fuel) : cbor_dumps cfg fuel v = .ok (unbounded_pass cfg v) := by
  simp [cbor_dumps, mp_obj_to_cbor_text_recursive, top_loop_spec cfg v hv fuel 64 0 hfuel]

/-- Decoding the encoding of a plain value, followed by anything, yields the value. -/
theorem cbor_loads_unbounded (cfg : Config) (v : MpObj) (hv : Plain cfg v) (extra : List Byte)
    (fuel : Nat) (hfuel : (unbounded_pass cfg v).length < fuel) :
    cbor_loads cfg fuel (unbounded_pass cfg v ++ extra) = .ok v := by
  obtain ⟨f, rfl⟩ : ∃ f, fuel = f + 1 := ⟨fuel - 1, by omega⟩
  have hnext : preparse_next_value { ptr := extra, remaining := 0 + 1, type := head_type cfg v } =
      .ok { ptr := extra, remaining := 0, type := CborInvalidType } := by
    rw [preparse_next_value_definite _ _ _ (by simp [UINT32_MAX]) (head_type_ne_tag cfg v)]
    simp
  obtain ⟨it1, h1, _⟩ := decode_item_plain cfg v f (0 + 1) extra _ hv (by simp) hnext (by omega)
  simp only [cbor_loads, cbor_parser_init, preparse_value_plain cfg v hv,
    cbor_it_to_mp_obj_recursive]
  rw [decode_loop_root_step cfg f _ it1 v .none false (by simp) h1]

theorem extract_number_app (p p1 t : List Byte) (n : Nat)
    (h : extract_number p = .ok (n, p1)) : extract_number (p ++ t) = .ok (n, p1 ++ t) := by
  cases p with
  | nil => simp [extract_number] at h
  | cons b rest =>
    simp only [extract_number, List.cons_append] at h ⊢
    by_cases h1 : b.val % 32 < 24
    · simp only [h1, if_true, Except.ok.injEq, Prod.mk.injEq] at h ⊢
      exact ⟨h.1, by rw [h.2]⟩
    · by_cases h2 : b.val % 32 > 27
      · simp [h1, h2] at h
      · by_cases h3 : 2 ^ (b.val % 32 - 24) > rest.length
        · simp [h1, h2, h3] at h
        · have h4 : ¬ 2 ^ (b.val % 32 - 24) > (rest ++ t).length := by
            simp only [List.length_append]; omega
          simp only [h1, h2, h3, h4, if_false, Except.ok.injEq, Prod.mk.injEq] at h ⊢
          have hle : 2 ^ (b.val % 32 - 24) ≤ rest.length := by omega
          rw [List.take_append_of_le_length hle, List.drop_append_of_le_length hle, h.1, h.2]
          exact ⟨rfl, rfl⟩

theorem preparse_value_app (it it1 : CborValue) (t : List Byte)
    (h : preparse_value it = .ok it1) : preparse_value (it.app t) = .ok (it1.app t) := by
  obtain ⟨p, r, ty⟩ := it
  cases p with
  | nil => simp [preparse_value] at h
  | cons b rest =>
    simp only [preparse_value, CborValue.app, List.cons_append] at h ⊢
    by_cases h1 : b.val % 32 > 27
    · simp only [h1, if_true] at h ⊢
      by_cases h2 : b.val % 32 ≠ 31
      · simp [h2] at h
      · by_cases h3 : b.val / 32 = 2 ∨ b.val / 32 = 3 ∨ b.val / 32 = 4 ∨ b.val / 32 = 5
        · simp only [h2, h3, if_true, if_false, Except.ok.injEq] at h ⊢
          subst h; rfl
        · simp [h2, h3] at h
    · simp only [h1, if_false] at h ⊢
      by_cases h2 : (if b.val % 32 < 24 then 0 else 2 ^ (b.val % 32 - 24)) > rest.length
      · simp [h2] at h
      · have h3 : ¬ (if b.val % 32 < 24 then 0 else 2 ^ (b.val % 32 - 24)) >
            (rest ++ t).length := by
          simp only [List.length_append]; omega
        simp only [h2, h3, if_false] at h ⊢
        by_cases h4 : b.val / 32 = 7
        · simp only [h4, if_true] at h ⊢
          have hhead : b.val % 32 = 24 → (rest ++ t).headD 0 = rest.headD 0 := by
            intro h24
            cases rest with
            | nil => simp [h24] at h2
            | cons c rest => rfl
          by_cases h5 : b.val % 32 = 24 ∧ (rest.headD 0).val < 32
          · rw [if_pos h5] at h; simp at h
          · have h6 : ¬ (b.val % 32 = 24 ∧ ((rest ++ t).headD 0).val < 32) := by
              rintro ⟨ha, hb⟩
              rw [hhead ha] at hb
              exact h5 ⟨ha, hb⟩
            simp only [h5, h6, if_false, Except.ok.injEq] at h ⊢
            subst h; rfl
        · simp only [h4, if_false, Except.ok.injEq] at h ⊢
          subst h; rfl

theorem preparse_value_fields (it it1 : CborValue) (h : preparse_value it = .ok it1) :
    it1.ptr = it.ptr ∧ it1.remaining = it.remaining := by
  obtain ⟨p, r, ty⟩ := it
  cases p with
  | nil => simp [preparse_value] at h
  | cons b rest =>
    simp only [preparse_value] at h
    split_ifs at h <;> simp at h <;> subst h <;> exact ⟨rfl, rfl⟩

theorem preparse_value_congr (it it0 : CborValue) (hp : it.ptr = it0.ptr) :
    (preparse_value it).map (fun c => c.type) = (preparse_value it0).map (fun c => c.type) := by
  obtain ⟨p, r, ty⟩ := it
  obtain ⟨p0, r0, ty0⟩ := it0
  simp only at hp
  subst hp
  cases p with
  | nil => rfl
  | cons b rest =>
    simp only [preparse_value]
    split_ifs <;> rfl

theorem preparse_value_cur (it it1 : CborValue) (h : preparse_value it = .ok it1) : Cur it1 := by
  right
  obtain ⟨hp, hr⟩ := preparse_value_fields it it1 h
  have hc := preparse_value_congr it1 it hp
  rw [h] at hc
  cases h1 : preparse_value it1 with
  | error e => simp [h1, Except.map] at hc
  | ok it2 =>
    obtain ⟨hp2, hr2⟩ := preparse_value_fields it1 it2 h1
    simp only [h1, Except.map, Except.ok.injEq] at hc
    obtain ⟨p, r, ty⟩ := it1
    obtain ⟨p2, r2, ty2⟩ := it2
    simp_all

theorem cur_of_end (it : CborValue) (h : it.remaining = 0) : Cur it := Or.inl h

theorem preparse_next_value_nodecrement_app (it it1 : CborValue) (t : List Byte)
    (h : preparse_next_value_nodecrement it = .ok it1) :
    preparse_next_value_nodecrement (it.app t) = .ok (it1.app t) ∧ Cur it1 := by
  obtain ⟨p, r, ty⟩ := it
  cases p with
  | nil =>
    simp [preparse_next_value_nodecrement, preparse_value] at h
  | cons b rest =>
    simp only [preparse_next_value_nodecrement, CborValue.app, List.cons_append] at h ⊢
    by_cases h1 : r = UINT32_MAX ∧ b.val = 0xff
    · simp only [h1, and_self, if_true, Except.ok.injEq] at h ⊢
      subst h
      exact ⟨rfl, Or.inl rfl⟩
    · rw [if_neg h1] at h ⊢
      exact ⟨preparse_value_app _ _ t h, preparse_value_cur _ _ h⟩

theorem preparse_next_value_app (it it1 : CborValue) (t : List Byte)
    (h : preparse_next_value it = .ok it1) :
    preparse_next_value (it.app t) = .ok (it1.app t) ∧ Cur it1 := by
  unfold preparse_next_value at h ⊢
  have hr : (it.app t).remaining = it.remaining := rfl
  have hty : (it.app t).type = it.type := rfl
  rw [hr, hty]
  by_cases h1 : it.remaining ≠ UINT32_MAX
  · rw [if_pos h1] at h ⊢
    by_cases h2 : it.type ≠ CborTagType
    · rw [if_pos h2] at h ⊢
      by_cases h3 : (it.remaining + 2 ^ 32 - 1) % 2 ^ 32 = 0
      · rw [if_pos h3] at h ⊢
        simp only [Except.ok.injEq] at h
        subst h
        exact ⟨rfl, Or.inl h3⟩
      · rw [if_neg h3] at h ⊢
        exact preparse_next_value_nodecrement_app
          { it with remaining := (it.remaining + 2 ^ 32 - 1) % 2 ^ 32 } it1 t h
    · rw [if_neg h2] at h ⊢
      exact preparse_next_value_nodecrement_app _ _ t h
  · rw [if_neg h1] at h ⊢
    exact preparse_next_value_nodecrement_app _ _ t h

theorem cbor_value_advance_fixed_app (it it1 : CborValue) (t : List Byte)
    (h : cbor_value_advance_fixed it = .ok it1) :
    cbor_value_advance_fixed (it.app t) = .ok (it1.app t) ∧ Cur it1 := by
  unfold cbor_value_advance_fixed at h ⊢
  by_cases h1 : it.remaining = 0
  · simp [h1] at h
  · have h1a : ¬ (it.app t).remaining = 0 := h1
    rw [if_neg h1] at h
    rw [if_neg h1a]
    cases hx : extract_number it.ptr with
    | error e => simp [hx] at h
    | ok np =>
      obtain ⟨n, p⟩ := np
      have hxa : extract_number (it.app t).ptr = .ok (n, p ++ t) := extract_number_app _ _ t n hx
      simp only [hx] at h
      simp only [hxa]
      exact preparse_next_value_app { it with ptr := p } it1 t h

theorem advance_unless_variable_app (ty : CborType) (it it1 : CborValue) (t : List Byte)
    (hc : Cur it) (h : advance_unless_variable ty it = .ok it1) :
    advance_unless_variable ty (it.app t) = .ok (it1.app t) ∧ Cur it1 := by
  unfold advance_unless_variable at h ⊢
  split_ifs at h ⊢ with h1
  · cases ha : cbor_value_advance_fixed it with
    | error e => simp [ha] at h
    | ok it2 =>
      simp only [ha, Except.ok.injEq] at h
      subst h
      obtain ⟨k1, k2⟩ := cbor_value_advance_fixed_app it it2 t ha
      exact ⟨by rw [k1], k2⟩
  · simp only [Except.ok.injEq] at h
    subst h
    exact ⟨rfl, hc⟩

theorem string_chunks_app (major : Nat) (t : List Byte) :
    ∀ (n : Nat) (p data p1 : List Byte) (m : Nat), n ≤ m →
      string_chunks major n p = .ok (data, p1) →
      string_chunks major m (p ++ t) = .ok (data, p1 ++ t)
  | 0, p, data, p1, m, _, h => by simp [string_chunks] at h
  | n + 1, [], data, p1, m, _, h => by simp [string_chunks] at h
  | n + 1, b :: rest, data, p1, m, hm, h => by
    obtain ⟨k, rfl⟩ : ∃ k, m = k + 1 := ⟨m - 1, by omega⟩
    rw [List.cons_append]
    simp only [string_chunks] at h ⊢
    by_cases h1 : b.val = 0xff
    · simp only [h1, if_true, Except.ok.injEq, Prod.mk.injEq] at h ⊢
      exact ⟨h.1, by rw [h.2]⟩
    · simp only [h1, if_false] at h ⊢
      by_cases h2 : b.val / 32 ≠ major
      · simp [h2] at h
      · simp only [h2, if_false] at h ⊢
        cases hx : extract_number (b :: rest) with
        | error e => simp [hx] at h
        | ok np =>
          obtain ⟨len, p2⟩ := np
          have hxa := extract_number_app _ _ t len hx
          rw [List.cons_append] at hxa
          simp only [hx] at h
          simp only [hxa]
          by_cases h3 : len > p2.length
          · simp [h3] at h
          · have h3a : ¬ len > (p2 ++ t).length := by simp only [List.length_append]; omega
            simp only [h3, if_false] at h
            simp only [h3a, if_false]
            cases hr : string_chunks major n (p2.drop len) with
            | error e => simp [hr] at h
            | ok dp =>
              obtain ⟨d2, p3⟩ := dp
              simp only [hr, Except.ok.injEq, Prod.mk.injEq] at h
              have hle : len ≤ p2.length := by omega
              have ih := string_chunks_app major t n (p2.drop len) d2 p3 k (by omega) hr
              rw [List.drop_append_of_le_length hle, ih, List.take_append_of_le_length hle]
              simp only [Except.ok.injEq, Prod.mk.injEq]
              exact ⟨h.1, by rw [h.2]⟩

theorem dup_string_app (it it1 : CborValue) (data t : List Byte)
    (h : dup_string it = .ok (data, it1)) :
    dup_string (it.app t) = .ok (data, it1.app t) ∧ Cur it1 := by
  obtain ⟨p, r, ty⟩ := it
  cases p with
  | nil => simp [dup_string] at h
  | cons b rest =>
    simp only [CborValue.app]
    rw [List.cons_append]
    simp only [dup_string] at h ⊢
    by_cases h1 : b.val % 32 = 31
    · rw [if_pos h1] at h ⊢
      cases hc : string_chunks (b.val / 32) rest.length rest with
      | error e => simp [hc] at h
      | ok dp =>
        obtain ⟨d, p2⟩ := dp
        have hca := string_chunks_app (b.val / 32) t rest.length rest d p2 (rest ++ t).length
          (by simp) hc
        simp only [hc] at h
        simp only [hca]
        cases hn : preparse_next_value { ptr := p2, remaining := r, type := ty } with
        | error e => simp [hn] at h
        | ok it2 =>
          obtain ⟨k1, k2⟩ := preparse_next_value_app _ _ t hn
          simp only [CborValue.app] at k1
          simp only [hn, Except.ok.injEq, Prod.mk.injEq] at h
          simp only [k1, Except.ok.injEq, Prod.mk.injEq]
          obtain ⟨rfl, rfl⟩ := h
          exact ⟨⟨rfl, rfl⟩, k2⟩
    · rw [if_neg h1] at h ⊢
      cases hx : extract_number (b :: rest) with
      | error e => simp [hx] at h
      | ok np =>
        obtain ⟨total, p2⟩ := np
        have hxa := extract_number_app _ _ t total hx
        rw [List.cons_append] at hxa
        simp only [hx] at h
        simp only [hxa]
        by_cases h3 : total > p2.length
        · simp [h3] at h
        · have h3a : ¬ total > (p2 ++ t).length := by simp only [List.length_append]; omega
          have hle : total ≤ p2.length := by omega
          rw [if_neg h3] at h
          rw [if_neg h3a, List.drop_append_of_le_length hle, List.take_append_of_le_length hle]
          cases hn : preparse_next_value { ptr := p2.drop total, remaining := r, type := ty } with
          | error e => simp [hn] at h
          | ok it2 =>
            obtain ⟨k1, k2⟩ := preparse_next_value_app _ _ t hn
            simp only [CborValue.app] at k1
            simp only [hn, Except.ok.injEq, Prod.mk.injEq] at h
            simp only [k1, Except.ok.injEq, Prod.mk.injEq]
            obtain ⟨rfl, rfl⟩ := h
            exact ⟨⟨rfl, rfl⟩, k2⟩

theorem cbor_value_enter_container_app (it it1 : CborValue) (t : List Byte)
    (h : cbor_value_enter_container it = .ok it1) :
    cbor_value_enter_container (it.app t) = .ok (it1.app t) ∧ Cur it1 := by
  obtain ⟨p, r, ty⟩ := it
  cases p with
  | nil => simp [cbor_value_enter_container] at h
  | cons b rest =>
    simp only [CborValue.app]
    rw [List.cons_append]
    simp only [cbor_value_enter_container] at h ⊢
    by_cases h1 : b.val % 32 = 31
    · rw [if_pos h1] at h ⊢
      exact preparse_next_value_nodecrement_app
        { ptr := rest, remaining := UINT32_MAX, type := ty } it1 t h
    · rw [if_neg h1] at h ⊢
      cases hx : extract_number (b :: rest) with
      | error e => simp [hx] at h
      | ok np =>
        obtain ⟨len, p2⟩ := np
        have hxa := extract_number_app _ _ t len hx
        rw [List.cons_append] at hxa
        simp only [hx] at h
        simp only [hxa]
        by_cases h2 : len ≥ UINT32_MAX
        · simp [h2] at h
        · rw [if_neg h2] at h ⊢
          by_cases h3 : ty = CborMapType ∧ len > UINT32_MAX / 2
          · simp [h3] at h
          · rw [if_neg h3] at h ⊢
            by_cases h4 : len = 0
            · rw [if_pos h4] at h ⊢
              simp only [Except.ok.injEq] at h
              subst h
              refine ⟨rfl, Or.inl ?_⟩
              simp [h4]
            · rw [if_neg h4] at h ⊢
              exact preparse_next_value_nodecrement_app
                { ptr := p2, remaining := (if ty = CborMapType then len * 2 else len), type := ty }
                it1 t h

theorem major_type_cases (m : Nat) :
    major_type m = CborIntegerType ∨ major_type m = CborByteStringType ∨
      major_type m = CborTextStringType ∨ major_type m = CborArrayType ∨
      major_type m = CborMapType ∨ major_type m = CborTagType ∨
      major_type m = CborSimpleType := by
  unfold major_type
  split_ifs <;> simp

theorem major_type_integer (m : Nat) (h : major_type m = CborIntegerType) : m = 0 ∨ m = 1 := by
  unfold major_type at h
  split_ifs at h
  all_goals omega

theorem simple_type_double (d : Nat) (h : simple_type d = CborDoubleType) : d = 27 := by
  unfold simple_type at h
  split_ifs at h
  omega

theorem simple_type_float (d : Nat) (h : simple_type d = CborFloatType) : d = 26 := by
  unfold simple_type at h
  split_ifs at h
  omega

theorem simple_type_ne_integer (d : Nat) : simple_type d ≠ CborIntegerType := by
  unfold simple_type
  split_ifs <;> simp

/-- What a successful look at a header guarantees about the input under the cursor. -/
theorem preparse_value_inv (it it1 : CborValue) (h : preparse_value it = .ok it1) :
    ∃ b rest, it.ptr = b :: rest ∧
      (it1.type = CborIntegerType → ∃ n p, extract_number (b :: rest) = .ok (n, p)) ∧
      (it1.type = CborDoubleType → 8 ≤ rest.length) ∧
      (it1.type = CborFloatType → 4 ≤ rest.length) := by
  obtain ⟨p, r, ty⟩ := it
  cases p with
  | nil => simp [preparse_value] at h
  | cons b rest =>
    refine ⟨b, rest, rfl, ?_⟩
    simp only [preparse_value] at h
    by_cases h1 : b.val % 32 > 27
    · rw [if_pos h1] at h
      by_cases h2 : b.val % 32 ≠ 31
      · simp [h2] at h
      · rw [if_neg h2] at h
        by_cases h3 : b.val / 32 = 2 ∨ b.val / 32 = 3 ∨ b.val / 32 = 4 ∨ b.val / 32 = 5
        · rw [if_pos h3] at h
          simp only [Except.ok.injEq] at h
          subst h
          simp only
          refine ⟨fun hi => ?_, fun hd => ?_, fun hf => ?_⟩
          · rcases major_type_integer _ hi with h0 | h0 <;> omega
          · rcases h3 with h0 | h0 | h0 | h0 <;> simp [h0, major_type] at hd
          · rcases h3 with h0 | h0 | h0 | h0 <;> simp [h0, major_type] at hf
        · simp [h3] at h
    · rw [if_neg h1] at h
      by_cases h2 : (if b.val % 32 < 24 then 0 else 2 ^ (b.val % 32 - 24)) > rest.length
      · simp [h2] at h
      · rw [if_neg h2] at h
        have hx : ∃ n p, extract_number (b :: rest) = .ok (n, p) := by
          simp only [extract_number]
          by_cases h5 : b.val % 32 < 24
          · exact ⟨_, _, by rw [if_pos h5]⟩
          · rw [if_neg h5] at h2
            rw [if_neg h5, if_neg h1, if_neg h2]
            exact ⟨_, _, rfl⟩
        by_cases h4 : b.val / 32 = 7
        · rw [if_pos h4] at h
          split_ifs at h with h6
          simp only [Except.ok.injEq] at h
          subst h
          simp only
          refine ⟨fun _ => hx, fun hd => ?_, fun hf => ?_⟩
          · have := simple_type_double _ hd
            rw [this] at h2
            simpa using h2
          · have := simple_type_float _ hf
            rw [this] at h2
            simpa using h2
        · rw [if_neg h4] at h
          simp only [Except.ok.injEq] at h
          subst h
          simp only
          refine ⟨fun _ => hx, fun hd => ?_, fun hf => ?_⟩
          · rcases major_type_cases (b.val / 32) with h0 | h0 | h0 | h0 | h0 | h0 | h0 <;>
              simp [h0] at hd
          · rcases major_type_cases (b.val / 32) with h0 | h0 | h0 | h0 | h0 | h0 | h0 <;>
              simp [h0] at hf

theorem decode_scalar_app (cfg : Config) (it it1 : CborValue) (x : MpObj) (t : List Byte)
    (hc : preparse_value it = .ok it) (h : decode_scalar cfg it = .ok (x, it1)) :
    decode_scalar cfg (it.app t) = .ok (x, it1.app t) ∧ Cur it1 := by
  obtain ⟨b, rest, hp, hi, hd, hf⟩ := preparse_value_inv it it hc
  have hcur : Cur it := Or.inr hc
  have hptr : (it.app t).ptr = b :: (rest ++ t) := by simp [CborValue.app, hp]
  unfold decode_scalar at h ⊢
  simp only [cbor_value_get_type] at h ⊢
  have hty : (it.app t).type = it.type := rfl
  rw [hty]
  cases hT : it.type <;> simp only [hT] at h ⊢
  case CborIntegerType =>
    simp only [Except.ok.injEq, Prod.mk.injEq] at h ⊢
    obtain ⟨rfl, rfl⟩ := h
    refine ⟨⟨?_, rfl⟩, hcur⟩
    obtain ⟨n, p, hx⟩ := hi hT
    have hxa := extract_number_app _ _ t n hx
    rw [List.cons_append] at hxa
    simp [cbor_value_get_int64, hp, hptr, hx, hxa]
  case CborByteStringType =>
    simp only [cbor_value_dup_byte_string] at h ⊢
    cases hdup : dup_string it with
    | error e => simp [hdup] at h
    | ok di =>
      obtain ⟨d, i2⟩ := di
      obtain ⟨k1, k2⟩ := dup_string_app it i2 d t hdup
      simp only [hdup, Except.ok.injEq, Prod.mk.injEq] at h
      obtain ⟨rfl, rfl⟩ := h
      rw [k1]
      exact ⟨rfl, k2⟩
  case CborTextStringType =>
    simp only [cbor_value_dup_text_string] at h ⊢
    cases hdup : dup_string it with
    | error e => simp [hdup] at h
    | ok di =>
      obtain ⟨d, i2⟩ := di
      obtain ⟨k1, k2⟩ := dup_string_app it i2 d t hdup
      simp only [hdup] at h
      simp only [k1]
      by_cases hu : cfg.utf8_ok d = true
      · simp only [hu, if_true, Except.ok.injEq, Prod.mk.injEq] at h ⊢
        obtain ⟨rfl, rfl⟩ := h
        exact ⟨⟨rfl, rfl⟩, k2⟩
      · simp [hu] at h
  case CborNullType =>
    simp only [Except.ok.injEq, Prod.mk.injEq] at h ⊢
    obtain ⟨rfl, rfl⟩ := h
    exact ⟨⟨rfl, rfl⟩, hcur⟩
  case CborBooleanType =>
    simp only [Except.ok.injEq, Prod.mk.injEq] at h ⊢
    obtain ⟨rfl, rfl⟩ := h
    refine ⟨⟨?_, rfl⟩, hcur⟩
    simp [cbor_value_get_boolean, hp, hptr]
  case CborDoubleType =>
    simp only [Except.ok.injEq, Prod.mk.injEq] at h ⊢
    obtain ⟨rfl, rfl⟩ := h
    refine ⟨⟨?_, rfl⟩, hcur⟩
    have := hd hT
    simp [cbor_value_get_double, hp, hptr, List.take_append_of_le_length this]
  case CborFloatType =>
    simp only [Except.ok.injEq, Prod.mk.injEq] at h ⊢
    obtain ⟨rfl, rfl⟩ := h
    refine ⟨⟨?_, rfl⟩, hcur⟩
    have := hf hT
    simp [cbor_value_get_float, hp, hptr, List.take_append_of_le_length this]
  all_goals simp at h

theorem decode_item_app (cfg : Config) (t : List Byte) (f : Nat)
    (ih : ∀ (it : CborValue) (parent_obj : MpObj) (dvn : Bool) (key x : MpObj) (it1 : CborValue),
      Cur it → decode_loop cfg f it parent_obj dvn key = .ok (x, it1) →
      decode_loop cfg f (it.app t) parent_obj dvn key = .ok (x, it1.app t))
    (it it1 : CborValue) (x : MpObj) (hc : preparse_value it = .ok it)
    (h : decode_item cfg f it = .ok (x, it1)) :
    decode_item cfg f (it.app t) = .ok (x, it1.app t) ∧ Cur it1 := by
  unfold decode_item at h ⊢
  simp only [cbor_value_get_type] at h ⊢
  simp only [show (it.app t).type = it.type from rfl]
  by_cases hcont : it.type = CborArrayType ∨ it.type = CborMapType
  · rw [if_pos hcont] at h ⊢
    cases henter : cbor_value_enter_container it with
    | error e => simp [henter] at h
    | ok recursed =>
      obtain ⟨k1, k2⟩ := cbor_value_enter_container_app it recursed t henter
      simp only [henter] at h
      simp only [k1]
      cases hloop : decode_loop cfg f recursed
          (if it.type = CborArrayType then MpObj.list [] else MpObj.dict []) false .none with
      | error e => simp [hloop] at h
      | ok fr =>
        obtain ⟨filled, rec1⟩ := fr
        have hla := ih recursed _ false .none filled rec1 k2 hloop
        simp only [hloop] at h
        simp only [hla]
        cases hleave : cbor_value_leave_container it rec1 with
        | error e => simp [hleave] at h
        | ok it2 =>
          simp only [hleave, Except.ok.injEq, Prod.mk.injEq] at h
          obtain ⟨rfl, rfl⟩ := h
          obtain ⟨m1, m2⟩ := preparse_next_value_app { it with ptr := rec1.ptr } it2 t hleave
          have hl2 : cbor_value_leave_container (it.app t) (rec1.app t) = .ok (it2.app t) := m1
          rw [hl2]
          exact ⟨rfl, m2⟩
  · rw [if_neg hcont] at h ⊢
    exact decode_scalar_app cfg it it1 x t hc h

/-- If the walk succeeds on an input, it succeeds with the same result on that input
followed by any further octets, which it never looks at. -/
theorem decode_loop_app (cfg : Config) (t : List Byte) :
    ∀ (fuel : Nat) (it : CborValue) (parent_obj : MpObj) (dvn : Bool) (key x : MpObj)
      (it1 : CborValue), Cur it →
      decode_loop cfg fuel it parent_obj dvn key = .ok (x, it1) →
      decode_loop cfg fuel (it.app t) parent_obj dvn key = .ok (x, it1.app t)
  | 0, it, parent_obj, dvn, key, x, it1, _, h => by simp [decode_loop] at h
  | f + 1, it, parent_obj, dvn, key, x, it1, hc, h => by
    have ih := decode_loop_app cfg t f
    rw [decode_loop_succ] at h ⊢
    simp only [show cbor_value_at_end (it.app t) = cbor_value_at_end it from rfl,
      show cbor_value_get_type (it.app t) = cbor_value_get_type it from rfl]
    by_cases he : cbor_value_at_end it = true
    · rw [if_pos he] at h ⊢
      cases dvn with
      | true => simp at h
      | false =>
        simp only [Bool.false_eq_true, if_false, Except.ok.injEq, Prod.mk.injEq] at h ⊢
        obtain ⟨rfl, rfl⟩ := h
        exact ⟨rfl, rfl⟩
    · rw [if_neg he] at h ⊢
      have hpre : preparse_value it = .ok it := by
        rcases hc with h0 | h0
        · simp [cbor_value_at_end, h0] at he
        · exact h0
      cases hitem : decode_item cfg f it with
      | error e => simp [hitem] at h
      | ok xi =>
        obtain ⟨x1, i1⟩ := xi
        obtain ⟨k1, k2⟩ := decode_item_app cfg t f ih it i1 x1 hpre hitem
        simp only [hitem] at h
        simp only [k1]
        cases parent_obj with
        | none =>
          simp only [Except.ok.injEq, Prod.mk.injEq] at h ⊢
          obtain ⟨rfl, rfl⟩ := h
          exact ⟨rfl, rfl⟩
        | list items =>
          simp only at h ⊢
          cases hadv : advance_unless_variable (cbor_value_get_type it) i1 with
          | error e => simp [hadv] at h
          | ok i2 =>
            obtain ⟨m1, m2⟩ := advance_unless_variable_app _ i1 i2 t k2 hadv
            simp only [hadv] at h
            simp only [m1]
            exact ih _ _ _ _ _ _ m2 h
        | dict pairs =>
          simp only at h ⊢
          cases hadv : advance_unless_variable (cbor_value_get_type it) i1 with
          | error e => simp [hadv] at h
          | ok i2 =>
            obtain ⟨m1, m2⟩ := advance_unless_variable_app _ i1 i2 t k2 hadv
            simp only [hadv] at h
            simp only [m1]
            cases dvn with
            | true =>
              simp only [if_true] at h ⊢
              exact ih _ _ _ _ _ _ m2 h
            | false =>
              simp only [Bool.false_eq_true, if_false] at h ⊢
              exact ih _ _ _ _ _ _ m2 h
        | bool _ => simp at h
        | int _ => simp at h
        | float _ => simp at h
        | str _ => simp at h
        | bytes _ => simp at h
        | tuple _ => simp at h
        | other _ => simp at h

/-- C2 (as stated, refuted): the integer item `01` followed by the extra octet `02` is decoded
to the integer 1; no error is raised. -/
theorem trailing_octet_is_accepted :
    cbor_loads hostBuild 1 [0x01, 0x02] = .ok (.int 1) := by
  rfl

/-- C2 (amended): the decoder reads exactly one root item and never looks past it: if
`cbor_loads` returns a value for an input, it returns the same value for that input
followed by any extra octet (or octets). -/
theorem trailing_octets_are_ignored (cfg : Config) (fuel : Nat) (buf extra : List Byte)
    (v : MpObj) (h : cbor_loads cfg fuel buf = .ok v) :
    cbor_loads cfg fuel (buf ++ extra) = .ok v := by
  unfold cbor_loads at h ⊢
  cases hinit : cbor_parser_init buf with
  | error e => simp [hinit] at h
  | ok it =>
    have hinit2 : cbor_parser_init (buf ++ extra) = .ok (it.app extra) :=
      preparse_value_app { ptr := buf, remaining := 1, type := CborInvalidType } it extra hinit
    have hcur : Cur it := preparse_value_cur _ _ hinit
    simp only [hinit] at h
    simp only [hinit2]
    unfold cbor_it_to_mp_obj_recursive at h ⊢
    cases hloop : decode_loop cfg fuel it .none false .none with
    | error e => simp [hloop] at h
    | ok r =>
      obtain ⟨x, it1⟩ := r
      simp only [hloop, Except.ok.injEq] at h
      subst h
      rw [decode_loop_app cfg extra fuel it .none false .none x it1 hcur hloop]

theorem trailing_octets_are_ignored_witness :
    cbor_loads hostBuild 5 [0x82, 0x01, 0x61, 0x41] = .ok (.list [.int 1, .str [0x41]]) ∧
      cbor_loads hostBuild 5 ([0x82, 0x01, 0x61, 0x41] ++ [0xff]) =
        .ok (.list [.int 1, .str [0x41]]) :=
  ⟨rfl, trailing_octets_are_ignored hostBuild 5 [0x82, 0x01, 0x61, 0x41] [0xff] _ rfl⟩

theorem step_error (cfg : Config) (s s1 : WalkState) (ex : MpException) (h : Step cfg s s1)
    (herr : s1.run cfg = .error ex) : s.run cfg = .error ex := by
  cases h with
  | next f it it1 it2 parent_obj key x parent1 key1 dvn dvn1 hend hitem hadv hacc =>
    simp only [WalkState.run] at herr ⊢
    cases parent_obj <;> simp only [accumulate] at hacc
    case list items =>
      simp only [Option.some.injEq, Prod.mk.injEq] at hacc
      obtain ⟨rfl, rfl, rfl⟩ := hacc
      rw [decode_loop_list_step cfg f it it1 it2 x key items dvn hend hitem hadv]
      exact herr
    case dict pairs =>
      cases dvn
      · simp only [Bool.false_eq_true, if_false, Option.some.injEq, Prod.mk.injEq] at hacc
        obtain ⟨rfl, rfl, rfl⟩ := hacc
        rw [decode_loop_dict_key_step cfg f it it1 it2 x key pairs hend hitem hadv]
        exact herr
      · simp only [if_true, Option.some.injEq, Prod.mk.injEq] at hacc
        obtain ⟨rfl, rfl, rfl⟩ := hacc
        rw [decode_loop_dict_value_step cfg f it it1 it2 x key pairs hend hitem hadv]
        exact herr
    all_goals simp at hacc
  | enter f it recursed parent_obj key dvn hend hty henter =>
    simp only [WalkState.run] at herr ⊢
    apply decode_loop_item_error cfg f it parent_obj key dvn ex hend
    simp only [decode_item, cbor_value_get_type, hty, if_true, henter, herr]

theorem reaches_error (cfg : Config) (s s1 : WalkState) (ex : MpException)
    (h : Reaches cfg s s1) (herr : s1.run cfg = .error ex) : s.run cfg = .error ex := by
  induction h with
  | refl => exact herr
  | tail _ hstep ih => exact ih (step_error cfg _ _ ex hstep herr)

theorem scopeRun_reaches (cfg : Config) (s s1 : WalkState) (xs : List MpObj)
    (h : ScopeRun cfg s xs s1) : Reaches cfg s s1 := by
  induction h with
  | nil => exact Relation.ReflTransGen.refl
  | snoc xs f it it1 it2 parent_obj key x parent1 key1 dvn dvn1 _ hend hitem hadv hacc ih =>
    exact Relation.ReflTransGen.tail ih
      (Step.next f it it1 it2 parent_obj key x parent1 key1 dvn dvn1 hend hitem hadv hacc)

theorem cbor_loads_error_of_root (cfg : Config) (fuel : Nat) (buf : List Byte) (it0 : CborValue)
    (ex : MpException) (hinit : cbor_parser_init buf = .ok it0)
    (herr : (rootState fuel it0).run cfg = .error ex) : cbor_loads cfg fuel buf = .error ex := by
  simp only [WalkState.run, rootState] at herr
  simp only [cbor_loads, hinit, cbor_it_to_mp_obj_recursive, herr]

theorem scopeRun_parity (cfg : Config) (s s1 : WalkState) (xs : List MpObj)
    (h : ScopeRun cfg s xs s1) (ps : List (MpObj × MpObj)) (hd : s.parent_obj = .dict ps)
    (hk : s.dict_value_next = false) :
    (∃ qs, s1.parent_obj = .dict qs) ∧ s1.dict_value_next = decide (xs.length % 2 = 1) := by
  induction h with
  | nil => exact ⟨⟨ps, hd⟩, by simp [hk]⟩
  | snoc xs f it it1 it2 parent_obj key x parent1 key1 dvn dvn1 _ hend hitem hadv hacc ih =>
    obtain ⟨⟨qs, hq⟩, hpar⟩ := ih
    simp only at hq hpar
    subst hq
    simp only [accumulate] at hacc
    cases dvn
    · simp only [Bool.false_eq_true, if_false, Option.some.injEq, Prod.mk.injEq] at hacc
      obtain ⟨rfl, rfl, rfl⟩ := hacc
      refine ⟨⟨qs, rfl⟩, ?_⟩
      have : xs.length % 2 ≠ 1 := by simpa using hpar.symm
      simp only [List.length_append, List.length_singleton]
      simp
      omega
    · simp only [if_true, Option.some.injEq, Prod.mk.injEq] at hacc
      obtain ⟨rfl, rfl, rfl⟩ := hacc
      refine ⟨⟨_, rfl⟩, ?_⟩
      have : xs.length % 2 = 1 := by simpa using hpar.symm
      simp only [List.length_append, List.length_singleton]
      simp
      omega

/-- TinyCBOR's item budget is 32 bits wide: a list of `2 ^ 32 - 1` or more encodable elements
is encoded, but the decoder refuses to enter the resulting array. -/
theorem oversized_list_not_decodable (cfg : Config) (xs : List MpObj) (fuel : Nat)
    (hxs : EncodableItems xs) (hbig : UINT32_MAX ≤ xs.length) (hlt : xs.length < 2 ^ 64 - 1) :
    cbor_dumps cfg 2 (.list xs) = .ok (unbounded_pass cfg (.list xs)) ∧
      cbor_loads cfg (fuel + 1) (unbounded_pass cfg (.list xs)) =
        .error (.ValueError "parse error") := by
  have hlt2 : xs.length < 2 ^ 64 := by omega
  constructor
  · apply cbor_dumps_eq _ _ _ 2 (le_refl 2)
    simp only [Encodable, CborIndefiniteLength, SIZE_MAX]
    exact ⟨hlt, hxs⟩
  · have hx := extract_number_header xs.length 0x80 (unbounded_items cfg xs) hlt2 (by norm_num)
      (by norm_num)
    obtain ⟨b, args, hb, hb1, hb2⟩ := header_bytes_cons xs.length 0x80 hlt2 (by norm_num)
      (by norm_num)
    have hpre := preparse_value_header xs.length 0x80 (unbounded_items cfg xs) 1 CborInvalidType
      hlt2 (by norm_num) (by norm_num)
    have henter : cbor_value_enter_container
        { ptr := header_bytes xs.length 0x80 ++ unbounded_items cfg xs,
          remaining := 1, type := major_type (0x80 / 32) } = .error CborErrorDataTooLarge := by
      have h31 : ¬ (b.val % 32 = 31) := by omega
      rw [hb] at hx ⊢
      simp only [cbor_value_enter_container, List.cons_append, h31, if_false]
      simp only [List.cons_append] at hx
      rw [hx]
      simp [hbig]
    have hitem : decode_item cfg fuel
        { ptr := header_bytes xs.length 0x80 ++ unbounded_items cfg xs,
          remaining := 1, type := major_type (0x80 / 32) } =
        .error (.ValueError "parse error") := by
      simp only [decode_item, cbor_value_get_type, henter]
      simp [major_type]
    simp only [cbor_loads, cbor_parser_init, unbounded_pass, hpre, cbor_it_to_mp_obj_recursive]
    rw [decode_loop_item_error cfg fuel _ .none .none false _ (by simp) hitem]

theorem decode_scalar_ne_fuel (cfg : Config) (it : CborValue) :
    decode_scalar cfg it ≠ .error .fuel := by
  unfold decode_scalar
  cases cbor_value_get_type it <;> simp
  · cases cbor_value_dup_byte_string it <;> simp
  · cases cbor_value_dup_text_string cfg it <;> simp

theorem advance_unless_variable_ne_fuel (ty : CborType) (it : CborValue) :
    advance_unless_variable ty it ≠ .error .fuel := by
  unfold advance_unless_variable
  split_ifs
  · cases cbor_value_advance_fixed it <;> simp
  · simp

/-- More fuel does not change a result that was not a lack of fuel. -/
theorem decode_loop_mono (cfg : Config) :
    ∀ (fuel : Nat) (it : CborValue) (parent_obj : MpObj) (dvn : Bool) (key : MpObj),
      decode_loop cfg fuel it parent_obj dvn key ≠ .error .fuel →
      decode_loop cfg (fuel + 1) it parent_obj dvn key =
        decode_loop cfg fuel it parent_obj dvn key
  | 0, it, parent_obj, dvn, key, h => by simp [decode_loop] at h
  | f + 1, it, parent_obj, dvn, key, h => by
    have ih := decode_loop_mono cfg f
    rw [decode_loop_succ] at h
    rw [decode_loop_succ cfg (f + 1), decode_loop_succ cfg f]
    by_cases he : cbor_value_at_end it = true
    · simp only [he, if_true]
    · simp only [he, if_false] at h ⊢
      have hitem : decode_item cfg f it ≠ .error .fuel →
          decode_item cfg (f + 1) it = decode_item cfg f it := by
        intro hne
        unfold decode_item at hne ⊢
        by_cases hc : cbor_value_get_type it = CborArrayType ∨ cbor_value_get_type it = CborMapType
        · simp only [hc, if_true] at hne ⊢
          cases henter : cbor_value_enter_container it with
          | error e => rfl
          | ok recursed =>
            simp only [henter] at hne ⊢
            have hl : decode_loop cfg f recursed
                (if cbor_value_get_type it = CborArrayType then MpObj.list [] else MpObj.dict [])
                false .none ≠ .error .fuel := by
              intro hbad
              rw [hbad] at hne
              exact hne rfl
            rw [ih _ _ _ _ hl]
        · simp only [hc, if_false]
      have hne : decode_item cfg f it ≠ .error .fuel := by
        intro hbad
        rw [hbad] at h
        exact h rfl
      rw [hitem hne]
      cases hi : decode_item cfg f it with
      | error e => rfl
      | ok xi =>
        obtain ⟨x, it1⟩ := xi
        simp only [hi] at h ⊢
        cases parent_obj with
        | list items =>
          simp only at h ⊢
          cases hadv : advance_unless_variable (cbor_value_get_type it) it1 with
          | error e => rfl
          | ok it2 =>
            simp only [hadv] at h ⊢
            exact ih _ _ _ _ h
        | dict pairs =>
          simp only at h ⊢
          cases hadv : advance_unless_variable (cbor_value_get_type it) it1 with
          | error e => rfl
          | ok it2 =>
            simp only [hadv] at h ⊢
            cases dvn with
            | true =>
              simp only [if_true] at h ⊢
              exact ih _ _ _ _ h
            | false =>
              simp only [Bool.false_eq_true, if_false] at h ⊢
              exact ih _ _ _ _ h
        | none => rfl
        | bool _ => rfl
        | int _ => rfl
        | float _ => rfl
        | str _ => rfl
        | bytes _ => rfl
        | tuple _ => rfl
        | other _ => rfl

theorem decode_loop_mono_add (cfg : Config) (fuel k : Nat) (it : CborValue) (parent_obj : MpObj)
    (dvn : Bool) (key : MpObj)
    (h : decode_loop cfg fuel it parent_obj dvn key ≠ .error .fuel) :
    decode_loop cfg (fuel + k) it parent_obj dvn key =
      decode_loop cfg fuel it parent_obj dvn key := by
  induction k with
  | zero => rfl
  | succ k ih =>
    rw [← Nat.add_assoc, decode_loop_mono cfg (fuel + k) it parent_obj dvn key (by rw [ih]; exact h),
      ih]

theorem extract_number_length (p p1 : List Byte) (n : Nat)
    (h : extract_number p = .ok (n, p1)) : p1.length < p.length := by
  cases p with
  | nil => simp [extract_number] at h
  | cons b rest =>
    simp only [extract_number] at h
    by_cases h1 : b.val % 32 < 24
    · simp only [h1, if_true, Except.ok.injEq, Prod.mk.injEq] at h
      rw [← h.2]; simp
    · by_cases h2 : b.val % 32 > 27
      · simp [h1, h2] at h
      · by_cases h3 : 2 ^ (b.val % 32 - 24) > rest.length
        · simp [h1, h2, h3] at h
        · simp only [h1, h2, h3, if_false, Except.ok.injEq, Prod.mk.injEq] at h
          rw [← h.2]
          simp only [List.length_drop, List.length_cons]
          exact Nat.lt_succ_of_le (Nat.sub_le _ _)

theorem preparse_next_value_nodecrement_length (it it1 : CborValue)
    (h : preparse_next_value_nodecrement it = .ok it1) : it1.ptr.length ≤ it.ptr.length := by
  obtain ⟨p, r, ty⟩ := it
  cases p with
  | nil => simp [preparse_next_value_nodecrement, preparse_value] at h
  | cons b rest =>
    simp only [preparse_next_value_nodecrement] at h
    by_cases h1 : r = UINT32_MAX ∧ b.val = 0xff
    · rw [if_pos h1] at h
      simp only [Except.ok.injEq] at h
      subst h
      simp
    · rw [if_neg h1] at h
      rw [(preparse_value_fields _ _ h).1]

theorem preparse_next_value_length (it it1 : CborValue)
    (h : preparse_next_value it = .ok it1) : it1.ptr.length ≤ it.ptr.length := by
  unfold preparse_next_value at h
  by_cases h1 : it.remaining ≠ UINT32_MAX
  · rw [if_pos h1] at h
    by_cases h2 : it.type ≠ CborTagType
    · rw [if_pos h2] at h
      by_cases h3 : (it.remaining + 2 ^ 32 - 1) % 2 ^ 32 = 0
      · rw [if_pos h3] at h
        simp only [Except.ok.injEq] at h
        subst h
        exact le_refl _
      · rw [if_neg h3] at h
        exact preparse_next_value_nodecrement_length
          { it with remaining := (it.remaining + 2 ^ 32 - 1) % 2 ^ 32 } it1 h
    · rw [if_neg h2] at h
      exact preparse_next_value_nodecrement_length it it1 h
  · rw [if_neg h1] at h
    exact preparse_next_value_nodecrement_length it it1 h

theorem cbor_value_advance_fixed_length (it it1 : CborValue)
    (h : cbor_value_advance_fixed it = .ok it1) : it1.ptr.length < it.ptr.length := by
  unfold cbor_value_advance_fixed at h
  by_cases h1 : it.remaining = 0
  · simp [h1] at h
  · rw [if_neg h1] at h
    cases hx : extract_number it.ptr with
    | error e => simp [hx] at h
    | ok np =>
      obtain ⟨n, p⟩ := np
      simp only [hx] at h
      have k1 := extract_number_length _ _ _ hx
      have k2 := preparse_next_value_length { it with ptr := p } it1 h
      simp only at k2
      omega

theorem string_chunks_length (major : Nat) :
    ∀ (n : Nat) (p data p1 : List Byte), string_chunks major n p = .ok (data, p1) →
      p1.length < p.length
  | 0, p, data, p1, h => by simp [string_chunks] at h
  | n + 1, [], data, p1, h => by simp [string_chunks] at h
  | n + 1, b :: rest, data, p1, h => by
    simp only [string_chunks] at h
    by_cases h1 : b.val = 0xff
    · simp only [h1, if_true, Except.ok.injEq, Prod.mk.injEq] at h
      rw [← h.2]; simp
    · simp only [h1, if_false] at h
      by_cases h2 : b.val / 32 ≠ major
      · simp [h2] at h
      · simp only [h2, if_false] at h
        cases hx : extract_number (b :: rest) with
        | error e => simp [hx] at h
        | ok np =>
          obtain ⟨len, p2⟩ := np
          simp only [hx] at h
          by_cases h3 : len > p2.length
          · simp [h3] at h
          · simp only [h3, if_false] at h
            cases hr : string_chunks major n (p2.drop len) with
            | error e => simp [hr] at h
            | ok dp =>
              obtain ⟨d2, p3⟩ := dp
              simp only [hr, Except.ok.injEq, Prod.mk.injEq] at h
              have k1 := extract_number_length _ _ _ hx
              have k2 := string_chunks_length major n _ _ _ hr
              simp only [List.length_drop] at k2
              rw [← h.2]
              omega

theorem dup_string_length (it it1 : CborValue) (data : List Byte)
    (h : dup_string it = .ok (data, it1)) : it1.ptr.length < it.ptr.length := by
  obtain ⟨p, r, ty⟩ := it
  cases p with
  | nil => simp [dup_string] at h
  | cons b rest =>
    simp only [dup_string] at h
    by_cases h1 : b.val % 32 = 31
    · rw [if_pos h1] at h
      cases hc : string_chunks (b.val / 32) rest.length rest with
      | error e => simp [hc] at h
      | ok dp =>
        obtain ⟨d, p2⟩ := dp
        simp only [hc] at h
        cases hn : preparse_next_value { ptr := p2, remaining := r, type := ty } with
        | error e => simp [hn] at h
        | ok it2 =>
          simp only [hn, Except.ok.injEq, Prod.mk.injEq] at h
          obtain ⟨_, rfl⟩ := h
          have k1 := string_chunks_length _ _ _ _ _ hc
          have k2 := preparse_next_value_length _ _ hn
          simp only [List.length_cons] at k2 ⊢
          omega
    · rw [if_neg h1] at h
      cases hx : extract_number (b :: rest) with
      | error e => simp [hx] at h
      | ok np =>
        obtain ⟨total, p2⟩ := np
        simp only [hx] at h
        by_cases h3 : total > p2.length
        · simp [h3] at h
        · rw [if_neg h3] at h
          cases hn : preparse_next_value { ptr := p2.drop total, remaining := r, type := ty } with
          | error e => simp [hn] at h
          | ok it2 =>
            simp only [hn, Except.ok.injEq, Prod.mk.injEq] at h
            obtain ⟨_, rfl⟩ := h
            have k1 := extract_number_length _ _ _ hx
            have k2 := preparse_next_value_length _ _ hn
            simp only [List.length_drop, List.length_cons] at k1 k2 ⊢
            omega

theorem cbor_value_enter_container_length (it it1 : CborValue)
    (h : cbor_value_enter_container it = .ok it1) : it1.ptr.length < it.ptr.length := by
  obtain ⟨p, r, ty⟩ := it
  cases p with
  | nil => simp [cbor_value_enter_container] at h
  | cons b rest =>
    simp only [cbor_value_enter_container] at h
    by_cases h1 : b.val % 32 = 31
    · rw [if_pos h1] at h
      have := preparse_next_value_nodecrement_length _ _ h
      simp only [List.length_cons] at this ⊢
      omega
    · rw [if_neg h1] at h
      cases hx : extract_number (b :: rest) with
      | error e => simp [hx] at h
      | ok np =>
        obtain ⟨len, p2⟩ := np
        simp only [hx] at h
        have k1 := extract_number_length _ _ _ hx
        by_cases h2 : len ≥ UINT32_MAX
        · simp [h2] at h
        · rw [if_neg h2] at h
          by_cases h3 : ty = CborMapType ∧ len > UINT32_MAX / 2
          · simp [h3] at h
          · rw [if_neg h3] at h
            by_cases h4 : len = 0
            · rw [if_pos h4] at h
              simp only [Except.ok.injEq] at h
              subst h
              exact k1
            · rw [if_neg h4] at h
              have := preparse_next_value_nodecrement_length _ _ h
              simp only at this
              exact Nat.lt_of_le_of_lt this k1

theorem decode_scalar_length (cfg : Config) (it it1 : CborValue) (x : MpObj)
    (h : decode_scalar cfg it = .ok (x, it1)) :
    ((it.type = CborByteStringType ∨ it.type = CborTextStringType) ∧
        it1.ptr.length < it.ptr.length) ∨
      (it.type ≠ CborByteStringType ∧ it.type ≠ CborTextStringType ∧
        it.type ≠ CborArrayType ∧ it.type ≠ CborMapType ∧ it1 = it) := by
  unfold decode_scalar at h
  simp only [cbor_value_get_type] at h
  cases hT : it.type <;> simp only [hT] at h
  case CborByteStringType =>
    left
    simp only [cbor_value_dup_byte_string] at h
    cases hdup : dup_string it with
    | error e => simp [hdup] at h
    | ok di =>
      obtain ⟨d, i2⟩ := di
      simp only [hdup, Except.ok.injEq, Prod.mk.injEq] at h
      obtain ⟨_, rfl⟩ := h
      exact ⟨Or.inl rfl, dup_string_length it i2 d hdup⟩
  case CborTextStringType =>
    left
    simp only [cbor_value_dup_text_string] at h
    cases hdup : dup_string it with
    | error e => simp [hdup] at h
    | ok di =>
      obtain ⟨d, i2⟩ := di
      simp only [hdup] at h
      by_cases hu : cfg.utf8_ok d = true
      · simp only [hu, if_true, Except.ok.injEq, Prod.mk.injEq] at h
        obtain ⟨_, rfl⟩ := h
        exact ⟨Or.inr rfl, dup_string_length it i2 d hdup⟩
      · simp [hu] at h
  case CborIntegerType => right; simp at h; simp [h.2]
  case CborNullType => right; simp at h; simp [h.2]
  case CborBooleanType => right; simp at h; simp [h.2]
  case CborDoubleType => right; simp at h; simp [h.2]
  case CborFloatType => right; simp at h; simp [h.2]
  all_goals simp at h

/-- A successful walk never moves the cursor backwards. -/
theorem decode_loop_length (cfg : Config) :
    ∀ (fuel : Nat) (it : CborValue) (parent_obj : MpObj) (dvn : Bool) (key x : MpObj)
      (it1 : CborValue), decode_loop cfg fuel it parent_obj dvn key = .ok (x, it1) →
      it1.ptr.length ≤ it.ptr.length
  | 0, it, parent_obj, dvn, key, x, it1, h => by simp [decode_loop] at h
  | f + 1, it, parent_obj, dvn, key, x, it1, h => by
    have ih := decode_loop_length cfg f
    rw [decode_loop_succ] at h
    by_cases he : cbor_value_at_end it = true
    · rw [if_pos he] at h
      cases dvn with
      | true => simp at h
      | false =>
        simp only [Bool.false_eq_true, if_false, Except.ok.injEq, Prod.mk.injEq] at h
        rw [← h.2]
    · rw [if_neg he] at h
      cases hitem : decode_item cfg f it with
      | error e => simp [hitem] at h
      | ok xi =>
        obtain ⟨x1, i1⟩ := xi
        simp only [hitem] at h
        have hi1 : i1.ptr.length ≤ it.ptr.length := by
          unfold decode_item at hitem
          by_cases hc : cbor_value_get_type it = CborArrayType ∨
              cbor_value_get_type it = CborMapType
          · rw [if_pos hc] at hitem
            cases henter : cbor_value_enter_container it with
            | error e => simp [henter] at hitem
            | ok recursed =>
              simp only [henter] at hitem
              cases hloop : decode_loop cfg f recursed
                  (if cbor_value_get_type it = CborArrayType then MpObj.list []
                   else MpObj.dict []) false .none with
              | error e => simp [hloop] at hitem
              | ok fr =>
                obtain ⟨filled, rec1⟩ := fr
                simp only [hloop] at hitem
                cases hleave : cbor_value_leave_container it rec1 with
                | error e => simp [hleave] at hitem
                | ok it2 =>
                  simp only [hleave, Except.ok.injEq, Prod.mk.injEq] at hitem
                  obtain ⟨_, rfl⟩ := hitem
                  have k1 := cbor_value_enter_container_length _ _ henter
                  have k2 := ih _ _ _ _ _ _ hloop
                  have k3 := preparse_next_value_length { it with ptr := rec1.ptr } it2 hleave
                  simp only at k3
                  omega
          · rw [if_neg hc] at hitem
            rcases decode_scalar_length cfg it i1 x1 hitem with ⟨_, hlt⟩ | ⟨_, _, _, _, heq⟩
            · omega
            · rw [heq]
        have hadvlen : ∀ i2, advance_unless_variable (cbor_value_get_type it) i1 = .ok i2 →
            i2.ptr.length ≤ i1.ptr.length := by
          intro i2 hadv
          unfold advance_unless_variable at hadv
          split_ifs at hadv
          · cases ha : cbor_value_advance_fixed i1 with
            | error e => simp [ha] at hadv
            | ok i3 =>
              simp only [ha, Except.ok.injEq] at hadv
              subst hadv
              exact Nat.le_of_lt (cbor_value_advance_fixed_length _ _ ha)
          · simp only [Except.ok.injEq] at hadv
            rw [← hadv]
        cases parent_obj with
        | none =>
          simp only [Except.ok.injEq, Prod.mk.injEq] at h
          rw [← h.2]; exact hi1
        | list items =>
          simp only at h
          cases hadv : advance_unless_variable (cbor_value_get_type it) i1 with
          | error e => simp [hadv] at h
          | ok i2 =>
            simp only [hadv] at h
            have := ih _ _ _ _ _ _ h
            have := hadvlen i2 hadv
            omega
        | dict pairs =>
          simp only at h
          cases hadv : advance_unless_variable (cbor_value_get_type it) i1 with
          | error e => simp [hadv] at h
          | ok i2 =>
            simp only [hadv] at h
            have k2 := hadvlen i2 hadv
            cases dvn with
            | true =>
              simp only [if_true] at h
              have := ih _ _ _ _ _ _ h
              omega
            | false =>
              simp only [Bool.false_eq_true, if_false] at h
              have := ih _ _ _ _ _ _ h
              omega
        | bool _ => simp at h
        | int _ => simp at h
        | float _ => simp at h
        | str _ => simp at h
        | bytes _ => simp at h
        | tuple _ => simp at h
        | other _ => simp at h

/-- One pass of the loop that does not return consumes at least one octet. -/
theorem item_advance_length (cfg : Config) (f : Nat) (it i1 i2 : CborValue) (x : MpObj)
    (hitem : decode_item cfg f it = .ok (x, i1))
    (hadv : advance_unless_variable (cbor_value_get_type it) i1 = .ok i2) :
    i2.ptr.length < it.ptr.length := by
  unfold decode_item at hitem
  unfold advance_unless_variable at hadv
  simp only [cbor_value_get_type] at hitem hadv
  by_cases hc : it.type = CborArrayType ∨ it.type = CborMapType
  · rw [if_pos hc] at hitem
    have hv : ¬ (it.type ≠ CborArrayType ∧ it.type ≠ CborMapType ∧
        it.type ≠ CborTextStringType ∧ it.type ≠ CborByteStringType) := by
      rintro ⟨h1, h2, _, _⟩
      rcases hc with h | h
      · exact h1 h
      · exact h2 h
    rw [if_neg hv] at hadv
    simp only [Except.ok.injEq] at hadv
    subst hadv
    cases henter : cbor_value_enter_container it with
    | error e => simp [henter] at hitem
    | ok recursed =>
      simp only [henter] at hitem
      cases hloop : decode_loop cfg f recursed
          (if it.type = CborArrayType then MpObj.list [] else MpObj.dict []) false .none with
      | error e => simp [hloop] at hitem
      | ok fr =>
        obtain ⟨filled, rec1⟩ := fr
        simp only [hloop] at hitem
        cases hleave : cbor_value_leave_container it rec1 with
        | error e => simp [hleave] at hitem
        | ok it2 =>
          simp only [hleave, Except.ok.injEq, Prod.mk.injEq] at hitem
          obtain ⟨_, rfl⟩ := hitem
          have k1 := cbor_value_enter_container_length _ _ henter
          have k2 := decode_loop_length cfg _ _ _ _ _ _ _ hloop
          have k3 := preparse_next_value_length { it with ptr := rec1.ptr } it2 hleave
          simp only at k3
          omega
  · rw [if_neg hc] at hitem
    rcases decode_scalar_length cfg it i1 x hitem with ⟨hs, hlt⟩ | ⟨h1, h2, h3, h4, heq⟩
    · have hv : ¬ (it.type ≠ CborArrayType ∧ it.type ≠ CborMapType ∧
          it.type ≠ CborTextStringType ∧ it.type ≠ CborByteStringType) := by
        rintro ⟨_, _, h3, h4⟩
        rcases hs with h | h
        · exact h4 h
        · exact h3 h
      rw [if_neg hv] at hadv
      simp only [Except.ok.injEq] at hadv
      subst hadv
      exact hlt
    · subst heq
      rw [if_pos ⟨h3, h4, h2, h1⟩] at hadv
      cases ha : cbor_value_advance_fixed i1 with
      | error e => simp [ha] at hadv
      | ok i3 =>
        simp only [ha, Except.ok.injEq] at hadv
        subst hadv
        exact cbor_value_advance_fixed_length _ _ ha

/-- The walk is total: with more fuel than there are octets under the cursor it never runs
out of fuel. -/
theorem decode_loop_total (cfg : Config) :
    ∀ (fuel : Nat) (it : CborValue) (parent_obj : MpObj) (dvn : Bool) (key : MpObj),
      it.ptr.length < fuel → decode_loop cfg fuel it parent_obj dvn key ≠ .error .fuel
  | 0, it, parent_obj, dvn, key, h => by omega
  | f + 1, it, parent_obj, dvn, key, hlen => by
    have ih := decode_loop_total cfg f
    rw [decode_loop_succ]
    by_cases he : cbor_value_at_end it = true
    · rw [if_pos he]
      cases dvn <;> simp
    · rw [if_neg he]
      have hitem_ne : decode_item cfg f it ≠ .error .fuel := by
        unfold decode_item
        by_cases hc : cbor_value_get_type it = CborArrayType ∨
            cbor_value_get_type it = CborMapType
        · rw [if_pos hc]
          cases henter : cbor_value_enter_container it with
          | error e => simp
          | ok recursed =>
            simp only
            have k1 := cbor_value_enter_container_length _ _ henter
            have hn := ih recursed
              (if cbor_value_get_type it = CborArrayType then MpObj.list [] else MpObj.dict [])
              false .none (by omega)
            cases hloop : decode_loop cfg f recursed
                (if cbor_value_get_type it = CborArrayType then MpObj.list []
                 else MpObj.dict []) false .none with
            | error e =>
              simp only
              intro hbad
              simp only [Except.error.injEq] at hbad
              rw [hloop, hbad] at hn
              exact hn rfl
            | ok fr =>
              obtain ⟨filled, rec1⟩ := fr
              simp only
              cases cbor_value_leave_container it rec1 <;> simp
        · rw [if_neg hc]
          exact decode_scalar_ne_fuel cfg it
      cases hitem : decode_item cfg f it with
      | error e =>
        simp only
        intro hbad
        simp only [Except.error.injEq] at hbad
        rw [hitem, hbad] at hitem_ne
        exact hitem_ne rfl
      | ok xi =>
        obtain ⟨x1, i1⟩ := xi
        simp only
        cases parent_obj with
        | list items =>
          simp only
          cases hadv : advance_unless_variable (cbor_value_get_type it) i1 with
          | error e =>
            simp only
            intro hbad
            simp only [Except.error.injEq] at hbad
            exact advance_unless_variable_ne_fuel _ _ (by rw [hadv, hbad])
          | ok i2 =>
            simp only
            have := item_advance_length cfg f it i1 i2 x1 hitem hadv
            exact ih _ _ _ _ (by omega)
        | dict pairs =>
          simp only
          cases hadv : advance_unless_variable (cbor_value_get_type it) i1 with
          | error e =>
            simp only
            intro hbad
            simp only [Except.error.injEq] at hbad
            exact advance_unless_variable_ne_fuel _ _ (by rw [hadv, hbad])
          | ok i2 =>
            simp only
            have := item_advance_length cfg f it i1 i2 x1 hitem hadv
            cases dvn with
            | true => simp only [if_true]; exact ih _ _ _ _ (by omega)
            | false => simp only [Bool.false_eq_true, if_false]; exact ih _ _ _ _ (by omega)
        | none => simp
        | bool _ => simp
        | int _ => simp
        | float _ => simp
        | str _ => simp
        | bytes _ => simp
        | tuple _ => simp
        | other _ => simp

/-- The entry point `cbor_loads` is total: with more fuel than input octets the result is a
value or a MicroPython exception, never a lack of fuel. -/
theorem cbor_loads_total (cfg : Config) (fuel : Nat) (buf : List Byte)
    (h : buf.length < fuel) : cbor_loads cfg fuel buf ≠ .error .fuel := by
  unfold cbor_loads
  cases hinit : cbor_parser_init buf with
  | error e => simp
  | ok it =>
    simp only [cbor_it_to_mp_obj_recursive]
    have hp : it.ptr = buf := (preparse_value_fields _ _ hinit).1
    have hn := decode_loop_total cfg fuel it .none false .none (by rw [hp]; exact h)
    cases hloop : decode_loop cfg fuel it .none false .none with
    | error e =>
      simp only
      intro hbad
      simp only [Except.error.injEq] at hbad
      rw [hloop, hbad] at hn
      exact hn rfl
    | ok r => simp

/-- With enough fuel the result of `cbor_loads` does not depend on the fuel. -/
theorem cbor_loads_fuel_irrelevant (cfg : Config) (fuel k : Nat) (buf : List Byte)
    (h : buf.length < fuel) : cbor_loads cfg (fuel + k) buf = cbor_loads cfg fuel buf := by
  unfold cbor_loads
  cases hinit : cbor_parser_init buf with
  | error e => rfl
  | ok it =>
    simp only [cbor_it_to_mp_obj_recursive]
    have hp : it.ptr = buf := (preparse_value_fields _ _ hinit).1
    rw [decode_loop_mono_add cfg fuel k it .none false .none
      (decode_loop_total cfg fuel it .none false .none (by rw [hp]; exact h))]

theorem sampleTree_plain : Plain hostBuild sampleTree := by
  simp [sampleTree, Plain, PlainPairs, PlainItems, hostBuild, mp_obj_len_str, utf8_is_cont,
    utf8_valid, Config.floatImplDouble, UINT32_MAX]
  decide

theorem unbounded_items_replicate_length (cfg : Config) (n : Nat) (x : MpObj) :
    (unbounded_items cfg (List.replicate n x)).length = n * (unbounded_pass cfg x).length := by
  induction n with
  | zero => simp [unbounded_items]
  | succ k ih => simp [List.replicate_succ, unbounded_items, ih]; ring

/-- C1: the round trip fails on a tree that holds a `bool`.  The list `[1, True]` is a value
of the data model, and the decoder itself builds it from the octets `82 01 f5`; yet
`cbor_dumps` raises on it (the dispatch of the encoder has no branch for `bool`), so there
is nothing to decode. -/
theorem round_trip_fails_on_bool :
    cbor_loads hostBuild 4 [0x82, 0x01, 0xf5] = .ok (.list [.int 1, .bool true]) ∧
      cbor_dumps hostBuild 2 (.list [.int 1, .bool true]) =
        .error (.ValueError "Found object which cannot be encoded") := by
  exact ⟨rfl, rfl⟩

/-- The round trip on plain value trees (`None`, 64-bit integers, floats of the runtime's
width, byte strings, text strings whose `mp_obj_len` is their octet count, lists, dicts with
distinct keys, container lengths within TinyCBOR's item budget): `cbor_dumps` succeeds, and
`cbor_loads` of its output succeeds and returns the same tree. -/
theorem round_trip_plain (cfg : Config) (v : MpObj) (fuel_enc : Nat) (hv : Plain cfg v)
    (hfuel : 2 ≤ fuel_enc) :
    ∃ bs, cbor_dumps cfg fuel_enc v = .ok bs ∧
      ∀ fuel_dec, bs.length < fuel_dec → cbor_loads cfg fuel_dec bs = .ok v := by
  refine ⟨unbounded_pass cfg v, cbor_dumps_eq cfg v (plain_encodable cfg v hv) fuel_enc hfuel, ?_⟩
  intro fuel_dec hdec
  have := cbor_loads_unbounded cfg v hv [] fuel_dec hdec
  simpa using this

/-- The round trip of the tree `{"a": 1, "b": [None, 2.5, b"\x00\xff", -7]}`. -/
theorem round_trip_plain_witness :
    Plain hostBuild sampleTree ∧ 2 ≤ 2 ∧
      ∃ bs, cbor_dumps hostBuild 2 sampleTree = .ok bs ∧
        ∀ fuel_dec, bs.length < fuel_dec → cbor_loads hostBuild fuel_dec bs = .ok sampleTree :=
  ⟨sampleTree_plain, le_refl 2, round_trip_plain hostBuild sampleTree 2 sampleTree_plain (le_refl 2)⟩

/-- C4 (as stated, refuted): in a double-precision build the float that was decoded from
the single-precision item `fa 3f 80 00 00` (1.0) is written back as a double-precision
item. -/
theorem single_precision_not_kept :
    cbor_loads hostBuild 2 [0xfa, 0x3f, 0x80, 0x00, 0x00] = .ok (.float 0x3ff0000000000000) ∧
      cbor_dumps hostBuild 2 (.float 0x3ff0000000000000) =
        .ok [0xfb, 0x3f, 0xf0, 0x00, 0x00, 0x00, 0x00, 0x00, 0x00] := by
  exact ⟨rfl, rfl⟩

/-- C4 (amended): the width of a float item is chosen by the build setting
`MICROPY_FLOAT_IMPL`, not by the value: every float is written as a double-precision item
(`fb`, eight octets) in a double-precision build and as a single-precision item (`fa`, four
octets) otherwise. -/
theorem float_width_follows_build (cfg : Config) (fuel bits : Nat) :
    cbor_dumps cfg (fuel + 2) (.float bits) =
      .ok (if cfg.floatImplDouble then toByte 0xfb :: beBytes 8 bits
           else toByte 0xfa :: beBytes 4 bits) := by
  rw [cbor_dumps_eq cfg (.float bits) (by simp [Encodable]) (fuel + 2) (by omega)]
  simp [unbounded_pass]

/-- C5: for every encodable value whose encoding takes `N` octets, the top-level call,
starting from a bound of 64, returns a buffer after exactly one pass of the sizing loop when
`N ≤ 64` and after exactly two passes when `N > 64`; `CborErrorOutOfMemory` never reaches
the caller, and `cbor_dumps` succeeds. -/
theorem sizing_loop_attempts (cfg : Config) (v : MpObj) (fuel : Nat) (hv : Encodable v)
    (hfuel : 2 ≤ fuel) :
    (∃ r, mp_obj_to_cbor_text_recursive cfg fuel v = .ok r ∧
      r.attempts = (if (unbounded_pass cfg v).length ≤ 64 then 1 else 2)) ∧
    ∃ bs, cbor_dumps cfg fuel v = .ok bs := by
  refine ⟨⟨_, top_loop_spec cfg v hv fuel 64 0 hfuel, by simp⟩, _, cbor_dumps_eq cfg v hv fuel hfuel⟩

theorem sizing_loop_attempts_witness :
    Encodable (.list (List.replicate 1000 (.int 7))) ∧ 2 ≤ 2 ∧
      ∃ r, mp_obj_to_cbor_text_recursive hostBuild 2 (.list (List.replicate 1000 (.int 7))) =
        .ok r ∧ r.attempts = 2 := by
  have hv : Encodable (.list (List.replicate 1000 (.int 7))) := by
    simp only [Encodable, List.length_replicate, CborIndefiniteLength, SIZE_MAX]
    exact ⟨by norm_num, encodableItems_replicate 1000 _ (by simp [Encodable])⟩
  obtain ⟨⟨r, h1, h2⟩, _⟩ :=
    sizing_loop_attempts hostBuild (.list (List.replicate 1000 (.int 7))) 2 hv (le_refl 2)
  refine ⟨hv, le_refl 2, r, h1, ?_⟩
  have hbig : ¬ (unbounded_pass hostBuild (.list (List.replicate 1000 (.int 7)))).length ≤ 64 := by
    have := header_bytes_length_pos 1000 0x80
    simp only [unbounded_pass, List.length_append, unbounded_items_replicate_length,
      List.length_replicate]
    have hp := unbounded_pass_length_pos hostBuild (.int 7) (by simp [Plain])
    simp only [unbounded_pass] at hp
    nlinarith
  rw [h2, if_neg hbig]

/-- C6: for every encodable value the buffer and length returned by the top-level call are
exactly the octets that the same walk writes into a sink without a capacity limit; the
returned length is the occupied size, while the final bound is 64 or, after a retry, 64
plus the reported deficit, which is that same size.  A single pass of the walk into any
sink that is large enough writes the same octets without an error. -/
theorem retry_equals_unbounded_sink (cfg : Config) (v : MpObj) (fuel : Nat) (hv : Encodable v)
    (hfuel : 2 ≤ fuel) :
    (∃ r, mp_obj_to_cbor_text_recursive cfg fuel v = .ok r ∧
      r.buf = unbounded_pass cfg v ∧ r.encoded_len = (unbounded_pass cfg v).length ∧
      r.bufsize = max 64 (unbounded_pass cfg v).length) ∧
    cbor_dumps cfg fuel v = .ok (unbounded_pass cfg v) ∧
    ∀ size, (unbounded_pass cfg v).length ≤ size →
      ∃ e1, encode_pass cfg v (cbor_encoder_init size) = .ok (CborNoError, e1) ∧
        e1.written = unbounded_pass cfg v := by
  refine ⟨⟨_, top_loop_spec cfg v hv fuel 64 0 hfuel, rfl, rfl, rfl⟩,
    cbor_dumps_eq cfg v hv fuel hfuel, ?_⟩
  intro size hsize
  obtain ⟨e1, h1, h2, h3, h4, h5⟩ := first_pass_spec cfg v hv size
  have hn : e1.end_null = false := by
    by_contra hc
    have hc1 : e1.end_null = true := by simpa using hc
    simp only [CborEncoder.Inv, CborEncoder.demand, hc1, if_true] at h2 h4
    omega
  exact ⟨e1, by simpa [oom_of, hn] using h1, h5 hn⟩

theorem sampleTree_encodable : Encodable sampleTree :=
  plain_encodable hostBuild sampleTree sampleTree_plain

/-- A byte string of 100 octets: its encoding takes 102 octets, more than the first bound of
64, so the first pass overflows and the loop retries; the returned buffer holds the 102
octets of the unbounded walk and the final bound is 102, that is 64 plus the reported
deficit of 38. -/
theorem retry_equals_unbounded_sink_witness :
    Encodable (.bytes (List.replicate 100 0)) ∧ 2 ≤ 2 ∧
      (unbounded_pass hostBuild (.bytes (List.replicate 100 0))).length = 102 ∧
      (∃ r, mp_obj_to_cbor_text_recursive hostBuild 2 (.bytes (List.replicate 100 0)) = .ok r ∧
        r.buf = unbounded_pass hostBuild (.bytes (List.replicate 100 0)) ∧
        r.encoded_len = 102 ∧ r.bufsize = 64 + 38) ∧
      cbor_dumps hostBuild 2 (.bytes (List.replicate 100 0)) =
        .ok (unbounded_pass hostBuild (.bytes (List.replicate 100 0))) := by
  have hv : Encodable (.bytes (List.replicate 100 0)) := by simp [Encodable]
  have hlen : (unbounded_pass hostBuild (.bytes (List.replicate 100 0))).length = 102 := by
    simp [unbounded_pass, header_bytes, beBytes]
  obtain ⟨⟨r, h1, h2, h3, h4⟩, h5, _⟩ :=
    retry_equals_unbounded_sink hostBuild (.bytes (List.replicate 100 0)) 2 hv (le_refl 2)
  exact ⟨hv, le_refl 2, hlen, ⟨r, h1, h2, by rw [h3, hlen], by rw [h4, hlen]; rfl⟩, h5⟩

/-- C7: encoding, decoding and encoding again does not give the same octets for a text
string with a multi-byte character.  In a Unicode build the string "éa" (octets `c3 a9 61`,
two characters) is encoded with the declared length 2 (the character count that
`mp_obj_len` returns, used as the octet count), the result decodes to "é", and encoding
that again gives different octets of a different length. -/
theorem reencoding_differs_on_text :
    cbor_dumps hostBuild 2 (.str [0xc3, 0xa9, 0x61]) = .ok [0x62, 0xc3, 0xa9] ∧
      cbor_loads hostBuild 2 [0x62, 0xc3, 0xa9] = .ok (.str [0xc3, 0xa9]) ∧
      cbor_dumps hostBuild 2 (.str [0xc3, 0xa9]) = .ok [0x61, 0xc3] := by
  exact ⟨rfl, rfl, rfl⟩

/-- On plain value trees the encoding is stable: the encoding succeeds, decoding it
succeeds, and encoding the decoded tree again gives the same octets, hence the same
length. -/
theorem reencoding_stable_plain (cfg : Config) (v : MpObj) (fuel : Nat) (hv : Plain cfg v)
    (hfuel : 2 ≤ fuel) :
    ∃ bs w, cbor_dumps cfg fuel v = .ok bs ∧ cbor_loads cfg (bs.length + 1) bs = .ok w ∧
      cbor_dumps cfg fuel w = .ok bs := by
  refine ⟨unbounded_pass cfg v, v, cbor_dumps_eq cfg v (plain_encodable cfg v hv) fuel hfuel, ?_,
    cbor_dumps_eq cfg v (plain_encodable cfg v hv) fuel hfuel⟩
  have := cbor_loads_unbounded cfg v hv [] ((unbounded_pass cfg v).length + 1) (by omega)
  simpa using this

/-- The tree `{"a": 1, "b": [None, 2.5, b"\x00\xff", -7]}` is encoded, decoded and encoded
again to the same octets. -/
theorem reencoding_stable_plain_witness :
    Plain hostBuild sampleTree ∧ 2 ≤ 2 ∧
      ∃ bs w, cbor_dumps hostBuild 2 sampleTree = .ok bs ∧
        cbor_loads hostBuild (bs.length + 1) bs = .ok w ∧ cbor_dumps hostBuild 2 w = .ok bs :=
  ⟨sampleTree_plain, le_refl 2,
    reencoding_stable_plain hostBuild sampleTree 2 sampleTree_plain (le_refl 2)⟩

/-- C8: a map scope that the walk reaches (at the root or nested) and that yields an odd
number of items before its end leaves a key without a value; the whole decode then fails
with `ValueError("key with no value in map")` and no map is returned. -/
theorem dangling_key_aborts (cfg : Config) (fuel : Nat) (buf : List Byte) (it0 : CborValue)
    (s0 s1 : WalkState) (xs : List MpObj) (ps : List (MpObj × MpObj))
    (hinit : cbor_parser_init buf = .ok it0)
    (hreach : Reaches cfg (rootState fuel it0) s0)
    (hmap : s0.parent_obj = .dict ps) (hkey : s0.dict_value_next = false)
    (hrun : ScopeRun cfg s0 xs s1) (hodd : xs.length % 2 = 1)
    (hend : s1.it.remaining = 0) (hfuel : s1.fuel ≠ 0) :
    cbor_loads cfg fuel buf = .error (.ValueError "key with no value in map") := by
  obtain ⟨_, hdvn⟩ := scopeRun_parity cfg s0 s1 xs hrun ps hmap hkey
  have hdvn1 : s1.dict_value_next = true := by simpa [hodd] using hdvn
  obtain ⟨f, hf⟩ : ∃ f, s1.fuel = f + 1 := ⟨s1.fuel - 1, by omega⟩
  have herr : s1.run cfg = .error (.ValueError "key with no value in map") := by
    simp only [WalkState.run, hf, hdvn1]
    exact decode_loop_dangling cfg f s1.it s1.parent_obj s1.dict_key hend
  have h1 := reaches_error cfg s0 s1 _ (scopeRun_reaches cfg s0 s1 xs hrun) herr
  exact cbor_loads_error_of_root cfg fuel buf it0 _ hinit (reaches_error cfg _ s0 _ hreach h1)

/-- The input `bf 01 02 03 ff`: an indefinite-length map with three items. -/
theorem dangling_key_aborts_witness :
    cbor_loads hostBuild 6 [0xbf, 0x01, 0x02, 0x03, 0xff] =
      .error (.ValueError "key with no value in map") := by
  have hinit : cbor_parser_init [0xbf, 0x01, 0x02, 0x03, 0xff] =
      .ok { ptr := [0xbf, 0x01, 0x02, 0x03, 0xff], remaining := 1, type := CborMapType } := rfl
  have hreach : Reaches hostBuild
      (rootState 6 { ptr := [0xbf, 0x01, 0x02, 0x03, 0xff], remaining := 1, type := CborMapType })
      ⟨5, { ptr := [0x01, 0x02, 0x03, 0xff], remaining := UINT32_MAX, type := CborIntegerType },
        .dict [], false, .none⟩ :=
    Relation.ReflTransGen.single
      (Step.enter 5 _ _ .none .none false (by decide) (Or.inr rfl) rfl)
  have hrun : ScopeRun hostBuild
      ⟨5, { ptr := [0x01, 0x02, 0x03, 0xff], remaining := UINT32_MAX, type := CborIntegerType },
        .dict [], false, .none⟩
      ([] ++ [.int 1] ++ [.int 2] ++ [.int 3])
      ⟨2, { ptr := [], remaining := 0, type := CborInvalidType }, .dict [(.int 1, .int 2)],
        true, .int 3⟩ := by
    refine ScopeRun.snoc _ _ 2
      { ptr := [0x03, 0xff], remaining := UINT32_MAX, type := CborIntegerType } _ _
      (.dict [(.int 1, .int 2)]) .none (.int 3) _ _ false true ?_ (by decide) rfl rfl rfl
    refine ScopeRun.snoc _ _ 3
      { ptr := [0x02, 0x03, 0xff], remaining := UINT32_MAX, type := CborIntegerType } _ _
      (.dict []) (.int 1) (.int 2) _ _ true false ?_ (by decide) rfl rfl rfl
    exact ScopeRun.snoc _ _ 4
      { ptr := [0x01, 0x02, 0x03, 0xff], remaining := UINT32_MAX, type := CborIntegerType } _ _
      (.dict []) .none (.int 1) _ _ false true (ScopeRun.nil _) (by decide) rfl rfl rfl
  exact dangling_key_aborts hostBuild 6 _ _ _ _ _ [] hinit hreach rfl rfl hrun (by decide) rfl
    (by decide)

/-- A definite-length map header that declares two pairs, followed by only three items:
the input ends inside the map and the decode fails. -/
theorem truncated_map_aborts :
    cbor_loads hostBuild 6 [0xa2, 0x01, 0x02, 0x03] = .error (.ValueError "parse error") := by
  rfl

theorem illegal_message_cases (t : CborType) (msg : String)
    (h : illegal_message t = some msg) :
    (t = CborTagType ∧ msg = "unknown tag present") ∨
      (t = CborSimpleType ∧ msg = "unknown simple value present") ∨
      (t = CborUndefinedType ∧ msg = "undefined type encountered") ∨
      (t = CborInvalidType ∧ msg = "invalid type encountered") := by
  cases t <;> simp [illegal_message] at h <;> simp [h]

/-- C9: when the walk reaches, at the root or at any nesting depth, an item of type tag,
simple value (other than bool and null), undefined or invalid, the whole decode fails with
the `ValueError` of that construct; nothing is skipped and no tree is returned. -/
theorem illegal_item_aborts (cfg : Config) (fuel : Nat) (buf : List Byte) (it0 : CborValue)
    (s : WalkState) (msg : String)
    (hinit : cbor_parser_init buf = .ok it0)
    (hreach : Reaches cfg (rootState fuel it0) s)
    (hfuel : s.fuel ≠ 0) (hend : s.it.remaining ≠ 0)
    (hmsg : illegal_message s.it.type = some msg) :
    cbor_loads cfg fuel buf = .error (.ValueError msg) := by
  obtain ⟨f, hf⟩ : ∃ f, s.fuel = f + 1 := ⟨s.fuel - 1, by omega⟩
  have hitem : decode_item cfg f s.it = .error (.ValueError msg) := by
    rcases illegal_message_cases _ _ hmsg with ⟨hT, rfl⟩ | ⟨hT, rfl⟩ | ⟨hT, rfl⟩ | ⟨hT, rfl⟩ <;>
      simp [decode_item, decode_scalar, cbor_value_get_type, hT]
  have herr : s.run cfg = .error (.ValueError msg) := by
    simp only [WalkState.run, hf]
    exact decode_loop_item_error cfg f s.it s.parent_obj s.dict_key s.dict_value_next _ hend hitem
  exact cbor_loads_error_of_root cfg fuel buf it0 _ hinit (reaches_error cfg _ s _ hreach herr)

/-- The input `82 01 c1 00`: a list whose second element is a tagged item. -/
theorem illegal_item_aborts_witness :
    cbor_loads hostBuild 6 [0x82, 0x01, 0xc1, 0x00] =
      .error (.ValueError "unknown tag present") := by
  have hinit : cbor_parser_init [0x82, 0x01, 0xc1, 0x00] =
      .ok { ptr := [0x82, 0x01, 0xc1, 0x00], remaining := 1, type := CborArrayType } := rfl
  have h1 : Step hostBuild
      (rootState 6 { ptr := [0x82, 0x01, 0xc1, 0x00], remaining := 1, type := CborArrayType })
      ⟨5, { ptr := [0x01, 0xc1, 0x00], remaining := 2, type := CborIntegerType },
        .list [], false, .none⟩ :=
    Step.enter 5 _ _ .none .none false (by decide) (Or.inl rfl) rfl
  have h2 : Step hostBuild
      ⟨5, { ptr := [0x01, 0xc1, 0x00], remaining := 2, type := CborIntegerType },
        .list [], false, .none⟩
      ⟨4, { ptr := [0xc1, 0x00], remaining := 1, type := CborTagType },
        .list [.int 1], false, .none⟩ :=
    Step.next 4 _ _ _ (.list []) .none (.int 1) _ _ false false (by decide) rfl rfl rfl
  exact illegal_item_aborts hostBuild 6 _ _ _ _ hinit
    (Relation.ReflTransGen.tail (Relation.ReflTransGen.single h1) h2) (by decide) (by decide) rfl

/-- C10: when the walk reaches, at the root or at any nesting depth, a half-precision float
item, the whole decode fails with `NotImplementedError("half float type not supported")`;
no float of another width is returned for it. -/
theorem half_float_aborts (cfg : Config) (fuel : Nat) (buf : List Byte) (it0 : CborValue)
    (s : WalkState)
    (hinit : cbor_parser_init buf = .ok it0)
    (hreach : Reaches cfg (rootState fuel it0) s)
    (hfuel : s.fuel ≠ 0) (hend : s.it.remaining ≠ 0)
    (hhalf : s.it.type = CborHalfFloatType) :
    cbor_loads cfg fuel buf = .error (.NotImplementedError "half float type not supported") := by
  obtain ⟨f, hf⟩ : ∃ f, s.fuel = f + 1 := ⟨s.fuel - 1, by omega⟩
  have hitem : decode_item cfg f s.it =
      .error (.NotImplementedError "half float type not supported") := by
    simp [decode_item, decode_scalar, cbor_value_get_type, hhalf]
  have herr : s.run cfg = .error (.NotImplementedError "half float type not supported") := by
    simp only [WalkState.run, hf]
    exact decode_loop_item_error cfg f s.it s.parent_obj s.dict_key s.dict_value_next _ hend hitem
  exact cbor_loads_error_of_root cfg fuel buf it0 _ hinit (reaches_error cfg _ s _ hreach herr)

/-- The input `a1 61 78 f9 3c 00`: the map `{"x": 1.0}` with the value in half precision. -/
theorem half_float_aborts_witness :
    cbor_loads hostBuild 6 [0xa1, 0x61, 0x78, 0xf9, 0x3c, 0x00] =
      .error (.NotImplementedError "half float type not supported") := by
  have hinit : cbor_parser_init [0xa1, 0x61, 0x78, 0xf9, 0x3c, 0x00] =
      .ok { ptr := [0xa1, 0x61, 0x78, 0xf9, 0x3c, 0x00], remaining := 1,
            type := CborMapType } := rfl
  have h1 : Step hostBuild
      (rootState 6 { ptr := [0xa1, 0x61, 0x78, 0xf9, 0x3c, 0x00], remaining := 1,
                     type := CborMapType })
      ⟨5, { ptr := [0x61, 0x78, 0xf9, 0x3c, 0x00], remaining := 2, type := CborTextStringType },
        .dict [], false, .none⟩ :=
    Step.enter 5 _ _ .none .none false (by decide) (Or.inr rfl) rfl
  have h2 : Step hostBuild
      ⟨5, { ptr := [0x61, 0x78, 0xf9, 0x3c, 0x00], remaining := 2, type := CborTextStringType },
        .dict [], false, .none⟩
      ⟨4, { ptr := [0xf9, 0x3c, 0x00], remaining := 1, type := CborHalfFloatType },
        .dict [], true, .str [0x78]⟩ :=
    Step.next 4 _ _ _ (.dict []) .none (.str [0x78]) _ _ false true (by decide) rfl rfl rfl
  exact half_float_aborts hostBuild 6 _ _ _ hinit
    (Relation.ReflTransGen.tail (Relation.ReflTransGen.single h1) h2) (by decide) (by decide) rfl

mutual
/-- A pass over a sized value either is a pass over an encodable value or raises the
exception of the final `else` of the dispatch, whatever the state of the sink. -/
theorem encode_pass_sized (cfg : Config) :
    ∀ (v : MpObj), Sized v →
      Encodable v ∨ ∀ e : CborEncoder, e.Inv →
        encode_pass cfg v e = .error (.ValueError "Found object which cannot be encoded")
  | .none, _ => Or.inl (by simp [Encodable])
  | .int _, _ => Or.inl (by simp [Encodable])
  | .float _, _ => Or.inl (by simp [Encodable])
  | .str _, _ => Or.inl (by simp [Encodable])
  | .bytes _, _ => Or.inl (by simp [Encodable])
  | .bool _, _ => Or.inr (fun _ _ => by simp [encode_pass])
  | .other _, _ => Or.inr (fun _ _ => by simp [encode_pass])
  | .list items, hs => by
    simp only [Sized] at hs
    rcases encode_items_sized cfg items hs.2 with h | h
    · exact Or.inl (by simp only [Encodable]; exact ⟨hs.1, h⟩)
    · right
      intro e he
      obtain ⟨c, h1, h2, _, _⟩ :=
        create_container_spec e items.length 0x80 false (Nat.ne_of_lt hs.1) he
      simp only [encode_pass, cbor_encoder_create_array, h1, oom_of_ne, if_false, h c h2.inv]
  | .tuple items, hs => by
    simp only [Sized] at hs
    rcases encode_items_sized cfg items hs.2 with h | h
    · exact Or.inl (by simp only [Encodable]; exact ⟨hs.1, h⟩)
    · right
      intro e he
      obtain ⟨c, h1, h2, _, _⟩ :=
        create_container_spec e items.length 0x80 false (Nat.ne_of_lt hs.1) he
      simp only [encode_pass, cbor_encoder_create_array, h1, oom_of_ne, if_false, h c h2.inv]
  | .dict pairs, hs => by
    simp only [Sized] at hs
    rcases encode_pairs_sized cfg pairs hs.2 with h | h
    · exact Or.inl (by simp only [Encodable]; exact ⟨hs.1, h⟩)
    · right
      intro e he
      have hlen : pairs.length ≠ CborIndefiniteLength := by
        have := hs.1
        simp only [CborIndefiniteLength, SIZE_MAX] at this ⊢
        omega
      have hnot : ¬ (pairs.length ≠ CborIndefiniteLength ∧ pairs.length > SIZE_MAX / 2) := by
        have := hs.1
        omega
      obtain ⟨c, h1, h2, _, _⟩ := create_container_spec e pairs.length 0xa0 true hlen he
      simp only [encode_pass, cbor_encoder_create_map, hnot, if_false, h1, oom_of_ne,
        h c h2.inv]
/-- The element loop over sized elements either runs over encodable elements or raises. -/
theorem encode_items_sized (cfg : Config) :
    ∀ (items : List MpObj), SizedItems items →
      EncodableItems items ∨ ∀ c : CborEncoder, c.Inv →
        encode_items cfg items c = .error (.ValueError "Found object which cannot be encoded")
  | [], _ => Or.inl (by simp [EncodableItems])
  | x :: rest, hs => by
    simp only [SizedItems] at hs
    rcases encode_pass_sized cfg x hs.1 with hx | hx
    · rcases encode_items_sized cfg rest hs.2 with hr | hr
      · exact Or.inl (by simp only [EncodableItems]; exact ⟨hx, hr⟩)
      · right
        intro c hc
        obtain ⟨c1, h1, h2, _, _⟩ := encode_pass_spec cfg x c hx hc
        simp only [encode_items, h1, child_exit_oom_of, hr c1 h2.inv]
    · right
      intro c hc
      simp only [encode_items, hx c hc]
/-- The pair loop over sized pairs either runs over encodable pairs or raises. -/
theorem encode_pairs_sized (cfg : Config) :
    ∀ (pairs : List (MpObj × MpObj)), SizedPairs pairs →
      EncodablePairs pairs ∨ ∀ c : CborEncoder, c.Inv →
        encode_pairs cfg pairs c = .error (.ValueError "Found object which cannot be encoded")
  | [], _ => Or.inl (by simp [EncodablePairs])
  | (k, v) :: rest, hs => by
    simp only [SizedPairs] at hs
    rcases encode_pass_sized cfg k hs.1 with hk | hk
    · rcases encode_pass_sized cfg v hs.2.1 with hv | hv
      · rcases encode_pairs_sized cfg rest hs.2.2 with hr | hr
        · exact Or.inl (by simp only [EncodablePairs]; exact ⟨hk, hv, hr⟩)
        · right
          intro c hc
          obtain ⟨c1, h1, h2, _, _⟩ := encode_pass_spec cfg k c hk hc
          obtain ⟨c2, j1, j2, _, _⟩ := encode_pass_spec cfg v c1 hv h2.inv
          simp only [encode_pairs, h1, child_exit_oom_of, j1, hr c2 j2.inv]
      · right
        intro c hc
        obtain ⟨c1, h1, h2, _, _⟩ := encode_pass_spec cfg k c hk hc
        simp only [encode_pairs, h1, child_exit_oom_of, hv c1 h2.inv]
    · right
      intro c hc
      simp only [encode_pairs, hk c hc]
end

mutual
/-- A tree that holds a node of a further type is not encodable. -/
theorem containsOther_not_encodable : ∀ (v : MpObj), ContainsOther v → ¬ Encodable v
  | .none, h => by simp [ContainsOther] at h
  | .bool _, h => by simp [ContainsOther] at h
  | .int _, h => by simp [ContainsOther] at h
  | .float _, h => by simp [ContainsOther] at h
  | .str _, h => by simp [ContainsOther] at h
  | .bytes _, h => by simp [ContainsOther] at h
  | .other _, _ => by simp [Encodable]
  | .list items, h => by
    simp only [ContainsOther] at h
    simp only [Encodable]
    exact fun hv => containsOtherItems_not_encodable items h hv.2
  | .tuple items, h => by
    simp only [ContainsOther] at h
    simp only [Encodable]
    exact fun hv => containsOtherItems_not_encodable items h hv.2
  | .dict pairs, h => by
    simp only [ContainsOther] at h
    simp only [Encodable]
    exact fun hv => containsOtherPairs_not_encodable pairs h hv.2
theorem containsOtherItems_not_encodable :
    ∀ (items : List MpObj), ContainsOtherItems items → ¬ EncodableItems items
  | [], h => by simp [ContainsOtherItems] at h
  | x :: rest, h => by
    simp only [ContainsOtherItems] at h
    simp only [EncodableItems]
    rintro ⟨hx, hr⟩
    rcases h with h | h
    · exact containsOther_not_encodable x h hx
    · exact containsOtherItems_not_encodable rest h hr
theorem containsOtherPairs_not_encodable :
    ∀ (pairs : List (MpObj × MpObj)), ContainsOtherPairs pairs → ¬ EncodablePairs pairs
  | [], h => by simp [ContainsOtherPairs] at h
  | (k, v) :: rest, h => by
    simp only [ContainsOtherPairs] at h
    simp only [EncodablePairs]
    rintro ⟨hk, hv, hr⟩
    rcases h with h | h | h
    · exact containsOther_not_encodable k h hk
    · exact containsOther_not_encodable v h hv
    · exact containsOtherPairs_not_encodable rest h hr
end

/-- C11: a value tree that holds, at the root or at any depth inside lists, tuples and
dicts, a node of a type the dispatch does not know makes the encoder raise
`ValueError("Found object which cannot be encoded")`: `cbor_dumps` returns no bytes, and
wherever the tree sits as an element, a key or a value, the loop over its siblings ends
with that exception whatever the later siblings are. -/
theorem unencodable_is_hard_error (cfg : Config) (fuel : Nat) (v : MpObj)
    (hv : ContainsOther v) (hsz : Sized v) :
    cbor_dumps cfg (fuel + 1) v =
        .error (.ValueError "Found object which cannot be encoded") ∧
      (∀ (e : CborEncoder) (later : List MpObj), e.Inv →
        encode_items cfg (v :: later) e =
          .error (.ValueError "Found object which cannot be encoded")) ∧
      (∀ (e : CborEncoder) (val : MpObj) (later : List (MpObj × MpObj)), e.Inv →
        encode_pairs cfg ((v, val) :: later) e =
          .error (.ValueError "Found object which cannot be encoded")) ∧
      (∀ (e : CborEncoder) (key : MpObj) (later : List (MpObj × MpObj)), e.Inv →
        Encodable key →
        encode_pairs cfg ((key, v) :: later) e =
          .error (.ValueError "Found object which cannot be encoded")) := by
  have hraise : ∀ e : CborEncoder, e.Inv →
      encode_pass cfg v e = .error (.ValueError "Found object which cannot be encoded") := by
    rcases encode_pass_sized cfg v hsz with h | h
    · exact absurd h (containsOther_not_encodable v hv)
    · exact h
  refine ⟨?_, ?_, ?_, ?_⟩
  · simp only [cbor_dumps, mp_obj_to_cbor_text_recursive, top_loop,
      hraise _ (cbor_encoder_init_inv 64)]
  · intro e later he
    simp only [encode_items, hraise e he]
  · intro e val later he
    simp only [encode_pairs, hraise e he]
  · intro e key later he hk
    obtain ⟨e1, h1, h2, _, _⟩ := encode_pass_spec cfg key e hk he
    simp only [encode_pairs, h1, child_exit_oom_of, hraise e1 h2.inv]

theorem otherTree_sized : Sized otherTree := by
  simp [otherTree, Sized, SizedItems, SizedPairs, CborIndefiniteLength, SIZE_MAX]

/-- The tree `[1, {"a": <object>}, 2]`: the walk raises at the object; the element `2` is
never reached. -/
theorem unencodable_is_hard_error_witness :
    ContainsOther otherTree ∧ Sized otherTree ∧
      cbor_dumps hostBuild 1 otherTree =
        .error (.ValueError "Found object which cannot be encoded") :=
  ⟨by simp [otherTree, ContainsOther, ContainsOtherItems, ContainsOtherPairs], otherTree_sized,
    (unencodable_is_hard_error hostBuild 0 otherTree
      (by simp [otherTree, ContainsOther, ContainsOtherItems, ContainsOtherPairs])
      otherTree_sized).1⟩

/-- The elements' encodings, one after the other, are the body of the unbounded walk. -/
theorem unbounded_items_eq_flatten (cfg : Config) (xs : List MpObj) :
    unbounded_items cfg xs = (xs.map (unbounded_pass cfg)).flatten := by
  induction xs with
  | nil => simp [unbounded_items]
  | cons x rest ih => simp [unbounded_items, ih]

/-- The pairs' encodings, key before value, are the body of the unbounded walk. -/
theorem unbounded_pairs_eq_flatten (cfg : Config) (ps : List (MpObj × MpObj)) :
    unbounded_pairs cfg ps =
      ((ps.map (fun p => (unbounded_pass cfg p.1, unbounded_pass cfg p.2))).map
        (fun b => b.1 ++ b.2)).flatten := by
  induction ps with
  | nil => simp [unbounded_pairs]
  | cons p rest ih =>
    obtain ⟨k, v⟩ := p
    simp [unbounded_pairs, ih]

/-- Every encodable element on its own is encoded by `cbor_dumps` to its unbounded walk. -/
theorem cbor_dumps_items (cfg : Config) (fuel : Nat) (hfuel : 2 ≤ fuel) :
    ∀ (xs : List MpObj), EncodableItems xs →
      List.Forall₂ (fun x b => cbor_dumps cfg fuel x = .ok b) xs (xs.map (unbounded_pass cfg))
  | [], _ => List.Forall₂.nil
  | x :: rest, h => by
    simp only [EncodableItems] at h
    exact List.Forall₂.cons (cbor_dumps_eq cfg x h.1 fuel hfuel)
      (cbor_dumps_items cfg fuel hfuel rest h.2)

/-- Every encodable key and value on its own is encoded by `cbor_dumps` to its unbounded
walk. -/
theorem cbor_dumps_pairs (cfg : Config) (fuel : Nat) (hfuel : 2 ≤ fuel) :
    ∀ (ps : List (MpObj × MpObj)), EncodablePairs ps →
      List.Forall₂
        (fun p b => cbor_dumps cfg fuel p.1 = .ok b.1 ∧ cbor_dumps cfg fuel p.2 = .ok b.2) ps
        (ps.map (fun p => (unbounded_pass cfg p.1, unbounded_pass cfg p.2)))
  | [], _ => List.Forall₂.nil
  | (k, v) :: rest, h => by
    simp only [EncodablePairs] at h
    exact List.Forall₂.cons
      ⟨cbor_dumps_eq cfg k h.1 fuel hfuel, cbor_dumps_eq cfg v h.2.1 fuel hfuel⟩
      (cbor_dumps_pairs cfg fuel hfuel rest h.2.2)

/-- C12: the encoding of a list `[x1, ..., xn]` of encodable values is the definite-length
array header for the count `n` (major type 4), followed by the encodings of `x1`, ...,
`xn` in index order, and nothing else. -/
theorem list_encoding_shape (cfg : Config) (fuel : Nat) (xs : List MpObj)
    (hxs : EncodableItems xs) (hlen : xs.length < CborIndefiniteLength) (hfuel : 2 ≤ fuel) :
    ∃ parts : List (List Byte),
      List.Forall₂ (fun x b => cbor_dumps cfg fuel x = .ok b) xs parts ∧
        cbor_dumps cfg fuel (.list xs) = .ok (header_bytes xs.length 0x80 ++ parts.flatten) := by
  refine ⟨xs.map (unbounded_pass cfg), cbor_dumps_items cfg fuel hfuel xs hxs, ?_⟩
  have hv : Encodable (.list xs) := by
    simp only [Encodable]
    exact ⟨hlen, hxs⟩
  rw [cbor_dumps_eq cfg _ hv fuel hfuel, ← unbounded_items_eq_flatten]
  simp only [unbounded_pass]

/-- The list `[1, [2, 3], "a"]`: header `83`, then `01`, `82 02 03`, `61 61`. -/
theorem list_encoding_shape_witness :
    EncodableItems [.int 1, .list [.int 2, .int 3], .str [0x61]] ∧
      (∃ parts : List (List Byte),
        List.Forall₂ (fun x b => cbor_dumps hostBuild 2 x = .ok b)
          [.int 1, .list [.int 2, .int 3], .str [0x61]] parts ∧
        cbor_dumps hostBuild 2 (.list [.int 1, .list [.int 2, .int 3], .str [0x61]]) =
          .ok (header_bytes 3 0x80 ++ parts.flatten)) ∧
      cbor_dumps hostBuild 2 (.list [.int 1, .list [.int 2, .int 3], .str [0x61]]) =
        .ok [0x83, 0x01, 0x82, 0x02, 0x03, 0x61, 0x61] :=
  ⟨by simp [EncodableItems, Encodable, CborIndefiniteLength, SIZE_MAX],
    list_encoding_shape hostBuild 2 [.int 1, .list [.int 2, .int 3], .str [0x61]]
      (by simp [EncodableItems, Encodable, CborIndefiniteLength, SIZE_MAX])
      (by simp [CborIndefiniteLength, SIZE_MAX]) (le_refl 2),
    cbor_dumps_eq hostBuild _
      (by simp [EncodableItems, Encodable, CborIndefiniteLength, SIZE_MAX]) 2 (le_refl 2)⟩

/-- C13: the encoding of a dict that stores the pairs `(k1, v1)`, ..., `(kn, vn)` in that
order is the definite-length map header for the count `n` (major type 5), followed by the
encodings of `k1`, `v1`, ..., `kn`, `vn` in the stored order, key before value; the pairs
are not sorted.  The output is thereby a function of the tree and its stored order. -/
theorem map_encoding_shape (cfg : Config) (fuel : Nat) (ps : List (MpObj × MpObj))
    (hps : EncodablePairs ps) (hlen : ps.length ≤ SIZE_MAX / 2) (hfuel : 2 ≤ fuel) :
    ∃ parts : List (List Byte × List Byte),
      List.Forall₂
          (fun p b => cbor_dumps cfg fuel p.1 = .ok b.1 ∧ cbor_dumps cfg fuel p.2 = .ok b.2)
          ps parts ∧
        cbor_dumps cfg fuel (.dict ps) =
          .ok (header_bytes ps.length 0xa0 ++ (parts.map (fun b => b.1 ++ b.2)).flatten) := by
  refine ⟨ps.map (fun p => (unbounded_pass cfg p.1, unbounded_pass cfg p.2)),
    cbor_dumps_pairs cfg fuel hfuel ps hps, ?_⟩
  have hv : Encodable (.dict ps) := by
    simp only [Encodable]
    exact ⟨hlen, hps⟩
  rw [cbor_dumps_eq cfg _ hv fuel hfuel, ← unbounded_pairs_eq_flatten]
  simp only [unbounded_pass]

/-- The dict `{"b": 1, "a": [2]}`, stored with `"b"` first: header `a2`, then `61 62`, `01`,
`61 61`, `81 02`; the key `"b"` stays ahead of the key `"a"`. -/
theorem map_encoding_shape_witness :
    EncodablePairs [(.str [0x62], .int 1), (.str [0x61], .list [.int 2])] ∧
      (∃ parts : List (List Byte × List Byte),
        List.Forall₂
          (fun p b => cbor_dumps hostBuild 2 p.1 = .ok b.1 ∧ cbor_dumps hostBuild 2 p.2 = .ok b.2)
          [(.str [0x62], .int 1), (.str [0x61], .list [.int 2])] parts ∧
        cbor_dumps hostBuild 2 (.dict [(.str [0x62], .int 1), (.str [0x61], .list [.int 2])]) =
          .ok (header_bytes 2 0xa0 ++ (parts.map (fun b => b.1 ++ b.2)).flatten)) ∧
      cbor_dumps hostBuild 2 (.dict [(.str [0x62], .int 1), (.str [0x61], .list [.int 2])]) =
        .ok [0xa2, 0x61, 0x62, 0x01, 0x61, 0x61, 0x81, 0x02] :=
  ⟨by simp [EncodablePairs, EncodableItems, Encodable, CborIndefiniteLength, SIZE_MAX],
    map_encoding_shape hostBuild 2 [(.str [0x62], .int 1), (.str [0x61], .list [.int 2])]
      (by simp [EncodablePairs, EncodableItems, Encodable, CborIndefiniteLength, SIZE_MAX])
      (by simp [SIZE_MAX]) (le_refl 2),
    cbor_dumps_eq hostBuild _
      (by simp [EncodablePairs, EncodableItems, Encodable, CborIndefiniteLength, SIZE_MAX]) 2
      (le_refl 2)⟩

/-- A move of the walk inside one call does not change what the call returns. -/
theorem step_next_run (cfg : Config) (f : Nat) (it it1 it2 : CborValue)
    (parent_obj key x parent1 key1 : MpObj) (dvn dvn1 : Bool) (hend : it.remaining ≠ 0)
    (hitem : decode_item cfg f it = .ok (x, it1))
    (hadv : advance_unless_variable it.type it1 = .ok it2)
    (hacc : accumulate parent_obj dvn key x = some (parent1, dvn1, key1)) :
    decode_loop cfg (f + 1) it parent_obj dvn key = decode_loop cfg f it2 parent1 dvn1 key1 := by
  cases parent_obj <;> simp only [accumulate] at hacc
  case list items =>
    simp only [Option.some.injEq, Prod.mk.injEq] at hacc
    obtain ⟨rfl, rfl, rfl⟩ := hacc
    exact decode_loop_list_step cfg f it it1 it2 x key items dvn hend hitem hadv
  case dict pairs =>
    cases dvn
    · simp only [Bool.false_eq_true, if_false, Option.some.injEq, Prod.mk.injEq] at hacc
      obtain ⟨rfl, rfl, rfl⟩ := hacc
      exact decode_loop_dict_key_step cfg f it it1 it2 x key pairs hend hitem hadv
    · simp only [if_true, Option.some.injEq, Prod.mk.injEq] at hacc
      obtain ⟨rfl, rfl, rfl⟩ := hacc
      exact decode_loop_dict_value_step cfg f it it1 it2 x key pairs hend hitem hadv
  all_goals simp at hacc

/-- The call returns from the loop head `s` what it returns from the loop head `s1`. -/
theorem scopeRun_run (cfg : Config) (s s1 : WalkState) (xs : List MpObj)
    (h : ScopeRun cfg s xs s1) : s.run cfg = s1.run cfg := by
  induction h with
  | nil => rfl
  | snoc xs f it it1 it2 parent_obj key x parent1 key1 dvn dvn1 _ hend hitem hadv hacc ih =>
    rw [ih]
    exact step_next_run cfg f it it1 it2 parent_obj key x parent1 key1 dvn dvn1 hend hitem
      hadv hacc

/-- A scope that has come to its end with no key pending returns its accumulation target. -/
theorem scopeRun_result (cfg : Config) (s s1 : WalkState) (xs : List MpObj)
    (h : ScopeRun cfg s xs s1) (hend : s1.it.remaining = 0) (hfuel : s1.fuel ≠ 0)
    (hdvn : s1.dict_value_next = false) : s.run cfg = .ok (s1.parent_obj, s1.it) := by
  rw [scopeRun_run cfg s s1 xs h]
  obtain ⟨f, hf⟩ : ∃ f, s1.fuel = f + 1 := ⟨s1.fuel - 1, by omega⟩
  simp only [WalkState.run, hf, hdvn]
  exact decode_loop_at_end cfg f s1.it s1.parent_obj s1.dict_key hend

/-- Inside a list scope every decoded item is appended, in the order of the stream. -/
theorem scopeRun_list_state (cfg : Config) (s s1 : WalkState) (xs : List MpObj)
    (h : ScopeRun cfg s xs s1) (acc : List MpObj) (hl : s.parent_obj = .list acc) :
    s1.parent_obj = .list (acc ++ xs) ∧ s1.dict_value_next = s.dict_value_next := by
  induction h with
  | nil => exact ⟨by simpa using hl, rfl⟩
  | snoc xs f it it1 it2 parent_obj key x parent1 key1 dvn dvn1 _ hend hitem hadv hacc ih =>
    obtain ⟨hp, hd⟩ := ih
    simp only at hp hd
    subst hp
    simp only [accumulate, mp_obj_list_append, Option.some.injEq, Prod.mk.injEq] at hacc
    obtain ⟨rfl, rfl, rfl⟩ := hacc
    exact ⟨by simp, hd⟩

/-- Inside a map scope the stored pairs, the flag and the pending key follow the state
machine of lines 178-186. -/
theorem scopeRun_dict_state (cfg : Config) (s s1 : WalkState) (xs : List MpObj)
    (h : ScopeRun cfg s xs s1) (acc : List (MpObj × MpObj)) (hd : s.parent_obj = .dict acc) :
    (s1.parent_obj, s1.dict_value_next, s1.dict_key) =
      (.dict (xs.foldl map_machine (acc, s.dict_value_next, s.dict_key)).1,
        (xs.foldl map_machine (acc, s.dict_value_next, s.dict_key)).2.1,
        (xs.foldl map_machine (acc, s.dict_value_next, s.dict_key)).2.2) := by
  induction h with
  | nil => simp [hd]
  | snoc xs f it it1 it2 parent_obj key x parent1 key1 dvn dvn1 _ hend hitem hadv hacc ih =>
    simp only [Prod.mk.injEq] at ih
    obtain ⟨hp, hv, hk⟩ := ih
    subst hp
    simp only [accumulate] at hacc
    rw [List.foldl_append]
    simp only [List.foldl_cons, List.foldl_nil, map_machine, ← hv, ← hk]
    cases dvn
    · simp only [Bool.false_eq_true, if_false, Option.some.injEq, Prod.mk.injEq] at hacc
      obtain ⟨rfl, rfl, rfl⟩ := hacc
      simp
    · simp only [if_true, Option.some.injEq, Prod.mk.injEq] at hacc
      obtain ⟨rfl, rfl, rfl⟩ := hacc
      simp

/-- Over key, value, key, value, ... the state machine stores the pairs in stream order and
ends with no key pending. -/
theorem map_machine_flat (ps : List (MpObj × MpObj)) :
    ∀ acc : List (MpObj × MpObj),
      (flat ps).foldl map_machine (acc, false, MpObj.none) =
        (ps.foldl (fun d p => mp_obj_dict_store d p.1 p.2) acc, false, MpObj.none) := by
  induction ps with
  | nil => intro acc; rfl
  | cons p rest ih =>
    intro acc
    obtain ⟨k, v⟩ := p
    simp only [flat, List.foldl_cons, map_machine, Bool.false_eq_true, if_false, if_true]
    exact ih _

mutual
theorem MpObj.beq_refl : ∀ (a : MpObj), MpObj.beq a a = true
  | .none => by simp [MpObj.beq]
  | .bool _ => by simp [MpObj.beq]
  | .int _ => by simp [MpObj.beq]
  | .float _ => by simp [MpObj.beq]
  | .str _ => by simp [MpObj.beq]
  | .bytes _ => by simp [MpObj.beq]
  | .other _ => by simp [MpObj.beq]
  | .list xs => by simp only [MpObj.beq]; exact MpObj.beqList_refl xs
  | .tuple xs => by simp only [MpObj.beq]; exact MpObj.beqList_refl xs
  | .dict ps => by simp only [MpObj.beq]; exact MpObj.beqPairs_refl ps
theorem MpObj.beqList_refl : ∀ (xs : List MpObj), MpObj.beqList xs xs = true
  | [] => by simp [MpObj.beqList]
  | x :: xs => by
    simp only [MpObj.beqList, Bool.and_eq_true]
    exact ⟨MpObj.beq_refl x, MpObj.beqList_refl xs⟩
theorem MpObj.beqPairs_refl : ∀ (ps : List (MpObj × MpObj)), MpObj.beqPairs ps ps = true
  | [] => by simp [MpObj.beqPairs]
  | (k, v) :: ps => by
    simp only [MpObj.beqPairs, Bool.and_eq_true]
    exact ⟨⟨MpObj.beq_refl k, MpObj.beq_refl v⟩, MpObj.beqPairs_refl ps⟩
end

theorem MpObj.beq_iff (a b : MpObj) : MpObj.beq a b = true ↔ a = b :=
  ⟨MpObj.beq_sound a b, fun h => h ▸ MpObj.beq_refl a⟩

/-- After a store the key is bound to the stored value and every other key is bound as
before. -/
theorem find_mp_obj_dict_store (d : List (MpObj × MpObj)) (k v q : MpObj) :
    ((mp_obj_dict_store d k v).find? (fun p => MpObj.beq p.1 q)).map Prod.snd =
      if MpObj.beq k q then some v else (d.find? (fun p => MpObj.beq p.1 q)).map Prod.snd := by
  induction d with
  | nil =>
    simp only [mp_obj_dict_store, List.find?_cons, List.find?_nil]
    cases MpObj.beq k q <;> simp
  | cons p rest ih =>
    obtain ⟨k0, v0⟩ := p
    simp only [mp_obj_dict_store]
    by_cases h0 : MpObj.beq k0 k = true
    · have hk : k0 = k := MpObj.beq_sound k0 k h0
      subst hk
      simp only [h0, if_true, List.find?_cons]
      cases MpObj.beq k0 q <;> simp
    · have h0f : MpObj.beq k0 k = false := by simpa using h0
      simp only [h0f, Bool.false_eq_true, if_false, List.find?_cons]
      by_cases h1 : MpObj.beq k0 q = true
      · have hq : k0 = q := MpObj.beq_sound k0 q h1
        subst hq
        have h2 : MpObj.beq k k0 = false := by
          cases hb : MpObj.beq k k0
          · rfl
          · exact absurd ((MpObj.beq_iff k0 k).2 (MpObj.beq_sound k k0 hb).symm) h0
        simp [h1, h2]
      · have h1f : MpObj.beq k0 q = false := by simpa using h1
        simp only [h1f, ih]

/-- After the pairs `ps` have been stored in order, a key is bound to the value of the last
pair of `ps` that has this key, and as before if there is none. -/
theorem find_store_all (ps : List (MpObj × MpObj)) (q : MpObj) :
    ∀ acc : List (MpObj × MpObj),
      ((ps.foldl (fun d p => mp_obj_dict_store d p.1 p.2) acc).find?
          (fun p => MpObj.beq p.1 q)).map Prod.snd =
        ((ps.reverse.find? (fun p => MpObj.beq p.1 q)).map Prod.snd).orElse
          (fun _ => (acc.find? (fun p => MpObj.beq p.1 q)).map Prod.snd) := by
  induction ps with
  | nil => intro acc; simp
  | cons p rest ih =>
    intro acc
    obtain ⟨k, v⟩ := p
    simp only [List.foldl_cons, List.reverse_cons, List.find?_append]
    rw [ih, find_mp_obj_dict_store]
    cases h1 : List.find? (fun p => MpObj.beq p.1 q) rest.reverse with
    | some r => simp
    | none =>
      simp only [List.find?_cons, List.find?_nil]
      cases MpObj.beq k q <;> simp

/-- The root cursor has one item in its scope. -/
theorem cbor_parser_init_remaining (buf : List Byte) (it : CborValue)
    (h : cbor_parser_init buf = .ok it) : it.remaining = 1 :=
  (preparse_value_fields _ it h).2

/-- What the dispatch yields for a container whose scope comes to its end with no key
pending: the filled container, with the cursor after it. -/
theorem decode_item_container (cfg : Config) (f : Nat) (it recursed it1 : CborValue)
    (s1 : WalkState) (xs : List MpObj)
    (hty : it.type = CborArrayType ∨ it.type = CborMapType)
    (henter : cbor_value_enter_container it = .ok recursed)
    (hrun : ScopeRun cfg
      ⟨f, recursed, if it.type = CborArrayType then MpObj.list [] else MpObj.dict [], false,
        .none⟩ xs s1)
    (hend : s1.it.remaining = 0) (hfuel : s1.fuel ≠ 0) (hdvn : s1.dict_value_next = false)
    (hleave : cbor_value_leave_container it s1.it = .ok it1) :
    decode_item cfg f it = .ok (s1.parent_obj, it1) := by
  have h := scopeRun_result cfg _ s1 xs hrun hend hfuel hdvn
  simp only [WalkState.run] at h
  simp only [decode_item, cbor_value_get_type, hty, if_true, henter, h, hleave]

/-- C14: a map whose scope yields the items `k1, v1, ..., kn, vn` decodes to the dict
obtained by storing `k1 -> v1`, ..., `kn -> vn` in stream order into an empty dict, at the
root (`cbor_loads` returns it) and nested (the dispatch yields it as `next_element`).  No
exception is raised for a key that occurs more than once: such a key ends up bound to the
value of its last occurrence. -/
theorem map_decoding_last_write_wins (cfg : Config) (f : Nat) (it recursed it1 : CborValue)
    (s1 : WalkState) (ps : List (MpObj × MpObj))
    (hty : it.type = CborMapType)
    (henter : cbor_value_enter_container it = .ok recursed)
    (hrun : ScopeRun cfg ⟨f, recursed, .dict [], false, .none⟩ (flat ps) s1)
    (hend : s1.it.remaining = 0) (hfuel : s1.fuel ≠ 0)
    (hleave : cbor_value_leave_container it s1.it = .ok it1) :
    decode_item cfg f it =
        .ok (.dict (ps.foldl (fun d p => mp_obj_dict_store d p.1 p.2) []), it1) ∧
      (∀ buf : List Byte, cbor_parser_init buf = .ok it →
        cbor_loads cfg (f + 1) buf =
          .ok (.dict (ps.foldl (fun d p => mp_obj_dict_store d p.1 p.2) []))) ∧
      ∀ q : MpObj,
        ((ps.foldl (fun d p => mp_obj_dict_store d p.1 p.2) []).find?
            (fun p => MpObj.beq p.1 q)).map Prod.snd =
          (ps.reverse.find? (fun p => MpObj.beq p.1 q)).map Prod.snd := by
  have hst := scopeRun_dict_state cfg _ s1 (flat ps) hrun [] rfl
  simp only [map_machine_flat, Prod.mk.injEq] at hst
  obtain ⟨hp, hd, _⟩ := hst
  have hne : it.type ≠ CborArrayType := by rw [hty]; decide
  have hrun1 : ScopeRun cfg
      ⟨f, recursed, if it.type = CborArrayType then MpObj.list [] else MpObj.dict [], false,
        .none⟩ (flat ps) s1 := by
    rw [if_neg hne]
    exact hrun
  have hitem := decode_item_container cfg f it recursed it1 s1 (flat ps) (Or.inr hty) henter
    hrun1 hend hfuel hd hleave
  rw [hp] at hitem
  refine ⟨hitem, ?_, ?_⟩
  · intro buf hinit
    have hrem : it.remaining ≠ 0 := by
      rw [cbor_parser_init_remaining buf it hinit]
      decide
    simp only [cbor_loads, hinit, cbor_it_to_mp_obj_recursive]
    rw [decode_loop_root_step cfg f it it1 _ .none false hrem hitem]
  · intro q
    rw [find_store_all]
    simp

/-- The input `a2 01 02 01 03`, the map `{1: 2, 1: 3}` with the key `1` twice: the decode
succeeds and binds `1` to `3`. -/
theorem map_decoding_last_write_wins_witness :
    cbor_loads hostBuild 6 [0xa2, 0x01, 0x02, 0x01, 0x03] = .ok (.dict [(.int 1, .int 3)]) := by
  have hrun : ScopeRun hostBuild
      ⟨5, { ptr := [0x01, 0x02, 0x01, 0x03], remaining := 4, type := CborIntegerType },
        .dict [], false, .none⟩
      ([] ++ [.int 1] ++ [.int 2] ++ [.int 1] ++ [.int 3])
      ⟨1, { ptr := [], remaining := 0, type := CborInvalidType }, .dict [(.int 1, .int 3)],
        false, .none⟩ := by
    refine ScopeRun.snoc _ _ 1
      { ptr := [0x03], remaining := 1, type := CborIntegerType } _ _
      (.dict [(.int 1, .int 2)]) (.int 1) (.int 3) _ _ true false ?_ (by decide) rfl rfl rfl
    refine ScopeRun.snoc _ _ 2
      { ptr := [0x01, 0x03], remaining := 2, type := CborIntegerType } _ _
      (.dict [(.int 1, .int 2)]) .none (.int 1) _ _ false true ?_ (by decide) rfl rfl rfl
    refine ScopeRun.snoc _ _ 3
      { ptr := [0x02, 0x01, 0x03], remaining := 3, type := CborIntegerType } _ _
      (.dict []) (.int 1) (.int 2) _ _ true false ?_ (by decide) rfl rfl rfl
    exact ScopeRun.snoc _ _ 4
      { ptr := [0x01, 0x02, 0x01, 0x03], remaining := 4, type := CborIntegerType } _ _
      (.dict []) .none (.int 1) _ _ false true (ScopeRun.nil _) (by decide) rfl rfl rfl
  exact (map_decoding_last_write_wins hostBuild 5
    { ptr := [0xa2, 0x01, 0x02, 0x01, 0x03], remaining := 1, type := CborMapType }
    { ptr := [0x01, 0x02, 0x01, 0x03], remaining := 4, type := CborIntegerType }
    { ptr := [], remaining := 0, type := CborInvalidType }
    ⟨1, { ptr := [], remaining := 0, type := CborInvalidType }, .dict [(.int 1, .int 3)],
      false, .none⟩
    [(.int 1, .int 2), (.int 1, .int 3)] rfl rfl hrun rfl (by decide) rfl).2.1 _ rfl

/-- C16: an array whose scope yields the items `x1, ..., xn`, each decoded by the dispatch,
decodes to the list `[x1, ..., xn]`: the same count, the same order, every element complete
when it is appended; at the root (`cbor_loads` returns the list) and nested (the dispatch
yields it as `next_element`). -/
theorem array_decoding_preserves_order (cfg : Config) (f : Nat) (it recursed it1 : CborValue)
    (s1 : WalkState) (xs : List MpObj)
    (hty : it.type = CborArrayType)
    (henter : cbor_value_enter_container it = .ok recursed)
    (hrun : ScopeRun cfg ⟨f, recursed, .list [], false, .none⟩ xs s1)
    (hend : s1.it.remaining = 0) (hfuel : s1.fuel ≠ 0)
    (hleave : cbor_value_leave_container it s1.it = .ok it1) :
    decode_item cfg f it = .ok (.list xs, it1) ∧
      (∀ buf : List Byte, cbor_parser_init buf = .ok it →
        cbor_loads cfg (f + 1) buf = .ok (.list xs)) := by
  obtain ⟨hp, hd⟩ := scopeRun_list_state cfg _ s1 xs hrun [] rfl
  simp only [List.nil_append] at hp hd
  have hrun1 : ScopeRun cfg
      ⟨f, recursed, if it.type = CborArrayType then MpObj.list [] else MpObj.dict [], false,
        .none⟩ xs s1 := by
    rw [if_pos hty]
    exact hrun
  have hitem := decode_item_container cfg f it recursed it1 s1 xs (Or.inl hty) henter
    hrun1 hend hfuel hd hleave
  rw [hp] at hitem
  refine ⟨hitem, ?_⟩
  intro buf hinit
  have hrem : it.remaining ≠ 0 := by
    rw [cbor_parser_init_remaining buf it hinit]
    decide
  simp only [cbor_loads, hinit, cbor_it_to_mp_obj_recursive]
  rw [decode_loop_root_step cfg f it it1 _ .none false hrem hitem]

/-- The input `83 03 81 02 01`, the array `[3, [2], 1]`: three items, the second a nested
array. -/
theorem array_decoding_preserves_order_witness :
    cbor_loads hostBuild 6 [0x83, 0x03, 0x81, 0x02, 0x01] =
      .ok (.list [.int 3, .list [.int 2], .int 1]) := by
  have hrun : ScopeRun hostBuild
      ⟨5, { ptr := [0x03, 0x81, 0x02, 0x01], remaining := 3, type := CborIntegerType },
        .list [], false, .none⟩
      ([] ++ [.int 3] ++ [.list [.int 2]] ++ [.int 1])
      ⟨2, { ptr := [], remaining := 0, type := CborInvalidType },
        .list [.int 3, .list [.int 2], .int 1], false, .none⟩ := by
    refine ScopeRun.snoc _ _ 2
      { ptr := [0x01], remaining := 1, type := CborIntegerType } _ _
      (.list [.int 3, .list [.int 2]]) .none (.int 1) _ _ false false ?_ (by decide) rfl rfl rfl
    refine ScopeRun.snoc _ _ 3
      { ptr := [0x81, 0x02, 0x01], remaining := 2, type := CborArrayType } _ _
      (.list [.int 3]) .none (.list [.int 2]) _ _ false false ?_ (by decide) rfl rfl rfl
    exact ScopeRun.snoc _ _ 4
      { ptr := [0x03, 0x81, 0x02, 0x01], remaining := 3, type := CborIntegerType } _ _
      (.list []) .none (.int 3) _ _ false false (ScopeRun.nil _) (by decide) rfl rfl rfl
  exact (array_decoding_preserves_order hostBuild 5
    { ptr := [0x83, 0x03, 0x81, 0x02, 0x01], remaining := 1, type := CborArrayType }
    { ptr := [0x03, 0x81, 0x02, 0x01], remaining := 3, type := CborIntegerType }
    { ptr := [], remaining := 0, type := CborInvalidType }
    ⟨2, { ptr := [], remaining := 0, type := CborInvalidType },
      .list [.int 3, .list [.int 2], .int 1], false, .none⟩
    [.int 3, .list [.int 2], .int 1] rfl rfl hrun rfl (by decide) rfl).2 _ rfl

/-- The values that `cbor.h` gives to the enumerators are pairwise distinct. -/
theorem cbor_h_code_injective : Function.Injective cbor_h_code := by
  intro a b h
  cases a <;> cases b <;> first | rfl | (exact absurd h (by decide))

/-- C15: the chain of `cbor_error_string` has no comparison with `CborErrorTooFewItems`.
For that enumerator, which the documentation of the enum lists with a description, the
function falls through to the final `else` and returns the generic `"unknown error"`,
whereas its sibling `CborErrorTooManyItems` has a message of its own and `CborNoError`
yields the empty string. -/
theorem too_few_items_has_no_message (code : CborError → Int)
    (hcode : Function.Injective code) :
    cbor_error_string code (code CborErrorTooFewItems) = "unknown error" ∧
      cbor_error_string code (code CborErrorTooManyItems) =
        "too many items added to encoder" ∧
      cbor_error_string code (code CborNoError) = "" := by
  refine ⟨?_, ?_, ?_⟩
  · rw [cbor_error_string]
    simp only [hcode.eq_iff, reduceCtorEq, if_false, or_self]
    rw [cbor_error_string]
    simp only [hcode.eq_iff, reduceCtorEq, if_false, if_true]
  · rw [cbor_error_string]
    simp only [hcode.eq_iff, reduceCtorEq, if_false, or_self, if_true]
  · rw [cbor_error_string]
    simp only [if_true]

/-- With the values of `cbor.h`: the code 769 of `CborErrorTooFewItems` gives
`"unknown error"`. -/
theorem too_few_items_has_no_message_witness :
    Function.Injective cbor_h_code ∧
      cbor_error_string cbor_h_code 769 = "unknown error" :=
  ⟨cbor_h_code_injective, (too_few_items_has_no_message cbor_h_code cbor_h_code_injective).1⟩

/-- C17: the length that line 267 passes to `cbor_encode_text_string` comes from
`mp_obj_len`, which counts characters.  For the string `"é"` (octets `c3 a9`, one
character) the text-string item declares the length 1 and carries only the octet `c3`;
the decoder refuses the result.  For an ASCII string the two lengths agree. -/
theorem text_length_counts_characters :
    mp_obj_len_str hostBuild [0xc3, 0xa9] = 1 ∧
      cbor_dumps hostBuild 2 (.str [0xc3, 0xa9]) = .ok [0x61, 0xc3] ∧
      cbor_loads hostBuild 3 [0x61, 0xc3] = .error (.ValueError "parse string failed") ∧
      cbor_dumps hostBuild 2 (.str [0x65]) = .ok [0x61, 0x65] :=
  ⟨rfl, rfl, rfl, rfl⟩

/-- In a build with Unicode strings the text-string item of every `str` declares the number
of characters and carries that many octets from the start of the UTF-8 data. -/
theorem text_item_of_unicode_build (cfg : Config) (fuel : Nat) (data : List Byte)
    (h : cfg.strUnicode = true) :
    cbor_dumps cfg (fuel + 2) (.str data) =
      .ok (header_bytes (data.filter (fun b => !utf8_is_cont b)).length 0x60 ++
        data.take (data.filter (fun b => !utf8_is_cont b)).length) := by
  rw [cbor_dumps_eq cfg (.str data) (by simp [Encodable]) (fuel + 2) (by omega)]
  simp [unbounded_pass, mp_obj_len_str, h]

/-- The sizing loop never takes its last branch on an encodable value. -/
theorem top_loop_never_fails (cfg : Config) (v : MpObj) (hv : Encodable v) :
    ∀ (fuel bufsize attempts : Nat),
      top_loop cfg v fuel bufsize attempts ≠ .error (.ValueError "CBOR encoding failed") := by
  intro fuel bufsize attempts
  match fuel with
  | 0 => simp [top_loop]
  | 1 =>
    by_cases hfit : (unbounded_pass cfg v).length ≤ bufsize
    · rw [top_loop_fits cfg v hv 0 bufsize attempts hfit]
      simp
    · rw [top_loop_grows cfg v hv 0 bufsize attempts (by omega)]
      simp [top_loop]
  | f + 2 =>
    rw [top_loop_spec cfg v hv (f + 2) bufsize attempts (by omega)]
    simp

/-- C18: on a tree of encodable values every call of the walk, into any sink, counts as
exactly one item of the enclosing container and ends with `CborNoError` or
`CborErrorOutOfMemory`; the sink of an array is opened with a budget of `list_len` items
and is closed when exactly that budget is used up (`remaining = 1`), the sink of a map
likewise with `2 * dict_len` items; so `cbor_encoder_close_container` reports neither
too many nor too few items, and `ValueError("CBOR encoding failed")` is raised neither by
a nested call nor by the top-level call. -/
theorem container_arity_matches (cfg : Config) (v : MpObj) (e : CborEncoder)
    (hv : Encodable v) (he : e.Inv) :
    (∃ err e1, encode_pass cfg v e = .ok (err, e1) ∧ e1.remaining = e.remaining - 1 ∧
        (err = CborNoError ∨ err = CborErrorOutOfMemory) ∧ child_exit err = .ok ()) ∧
      (∀ items : List MpObj, v = .list items ∨ v = .tuple items →
        ∃ list_enc1,
          ((cbor_encoder_create_array e items.length).2.2).remaining = items.length + 1 ∧
          encode_items cfg items (cbor_encoder_create_array e items.length).2.2 =
            .ok list_enc1 ∧
          list_enc1.remaining = 1 ∧
          ((cbor_encoder_close_container (cbor_encoder_create_array e items.length).2.1
              list_enc1).1 = CborNoError ∨
            (cbor_encoder_close_container (cbor_encoder_create_array e items.length).2.1
              list_enc1).1 = CborErrorOutOfMemory)) ∧
      (∀ pairs : List (MpObj × MpObj), v = .dict pairs →
        ∃ dict_enc1,
          ((cbor_encoder_create_map e pairs.length).2.2).remaining = 2 * pairs.length + 1 ∧
          encode_pairs cfg pairs (cbor_encoder_create_map e pairs.length).2.2 =
            .ok dict_enc1 ∧
          dict_enc1.remaining = 1 ∧
          ((cbor_encoder_close_container (cbor_encoder_create_map e pairs.length).2.1
              dict_enc1).1 = CborNoError ∨
            (cbor_encoder_close_container (cbor_encoder_create_map e pairs.length).2.1
              dict_enc1).1 = CborErrorOutOfMemory)) ∧
      ∀ fuel : Nat,
        mp_obj_to_cbor_text_recursive cfg fuel v ≠
          .error (.ValueError "CBOR encoding failed") := by
  have hoom : ∀ x : CborEncoder, oom_of x = CborNoError ∨ oom_of x = CborErrorOutOfMemory := by
    intro x
    unfold oom_of
    split
    · exact Or.inr rfl
    · exact Or.inl rfl
  have harr : ∀ items : List MpObj, items.length < CborIndefiniteLength →
      EncodableItems items →
      ∃ list_enc1,
        ((cbor_encoder_create_array e items.length).2.2).remaining = items.length + 1 ∧
        encode_items cfg items (cbor_encoder_create_array e items.length).2.2 =
          .ok list_enc1 ∧
        list_enc1.remaining = 1 ∧
        ((cbor_encoder_close_container (cbor_encoder_create_array e items.length).2.1
            list_enc1).1 = CborNoError ∨
          (cbor_encoder_close_container (cbor_encoder_create_array e items.length).2.1
            list_enc1).1 = CborErrorOutOfMemory) := by
    intro items hlen hitems
    obtain ⟨c, h1, h2, h3, h4⟩ :=
      create_container_spec e items.length 0x80 false (Nat.ne_of_lt hlen) he
    obtain ⟨c1, k1, k2, k3, k4⟩ := encode_items_spec cfg items c hitems h2.inv
    have hr : c1.remaining = 1 := by rw [k3, h3]; simp
    obtain ⟨e1, m1, _⟩ :=
      close_container_spec (saturated_decrement e) c1 hr (by rw [k4, h4])
        (by rw [k2.size_eq, h2.size_eq]; rfl)
    simp only [cbor_encoder_create_array, h1]
    exact ⟨c1, by simpa using h3, k1, hr, by rw [m1]; exact hoom e1⟩
  refine ⟨?_, ?_, ?_, ?_⟩
  · obtain ⟨e1, h1, _, h3, _⟩ := encode_pass_spec cfg v e hv he
    exact ⟨oom_of e1, e1, h1, h3, hoom e1, child_exit_oom_of e1⟩
  · intro items hitems
    rcases hitems with rfl | rfl
    · simp only [Encodable] at hv
      exact harr items hv.1 hv.2
    · simp only [Encodable] at hv
      exact harr items hv.1 hv.2
  · intro pairs hpairs
    subst hpairs
    simp only [Encodable] at hv
    have hlen : pairs.length ≠ CborIndefiniteLength := by
      have := hv.1
      simp only [CborIndefiniteLength, SIZE_MAX] at this ⊢
      omega
    have hnot : ¬ (pairs.length ≠ CborIndefiniteLength ∧ pairs.length > SIZE_MAX / 2) := by
      have := hv.1
      omega
    obtain ⟨c, h1, h2, h3, h4⟩ := create_container_spec e pairs.length 0xa0 true hlen he
    obtain ⟨c1, k1, k2, k3, k4⟩ := encode_pairs_spec cfg pairs c hv.2 h2.inv
    have hr : c1.remaining = 1 := by rw [k3, h3]; simp; omega
    obtain ⟨e1, m1, _⟩ :=
      close_container_spec (saturated_decrement e) c1 hr (by rw [k4, h4])
        (by rw [k2.size_eq, h2.size_eq]; rfl)
    simp only [cbor_encoder_create_map, hnot, if_false, h1]
    refine ⟨c1, ?_, k1, hr, by rw [m1]; exact hoom e1⟩
    rw [h3]
    simp
    omega
  · intro fuel
    exact top_loop_never_fails cfg v hv fuel 64 0

/-- The tree `{"a": 1, "b": [None, 2.5, b"\x00\xff", -7]}` in a sink of capacity 4, too
small for the tree: the pass ends with `CborErrorOutOfMemory`, not with an arity error. -/
theorem container_arity_matches_witness :
    Encodable sampleTree ∧ (cbor_encoder_init 4).Inv ∧
      (∃ err e1, encode_pass hostBuild sampleTree (cbor_encoder_init 4) = .ok (err, e1) ∧
        e1.remaining = (cbor_encoder_init 4).remaining - 1 ∧
        (err = CborNoError ∨ err = CborErrorOutOfMemory) ∧ child_exit err = .ok ()) :=
  ⟨sampleTree_encodable, cbor_encoder_init_inv 4,
    (container_arity_matches hostBuild sampleTree (cbor_encoder_init 4) sampleTree_encodable
      (cbor_encoder_init_inv 4)).1⟩

/-- The dispatch has one branch for `list` and `tuple`: a pass over a tuple is the pass
over the list of the same elements. -/
theorem encode_pass_tuple (cfg : Config) (xs : List MpObj) (e : CborEncoder) :
    encode_pass cfg (.tuple xs) e = encode_pass cfg (.list xs) e := by
  simp only [encode_pass]

theorem top_loop_tuple (cfg : Config) (xs : List MpObj) :
    ∀ (fuel bufsize attempts : Nat),
      top_loop cfg (.tuple xs) fuel bufsize attempts =
        top_loop cfg (.list xs) fuel bufsize attempts := by
  intro fuel
  induction fuel with
  | zero => intro bufsize attempts; simp [top_loop]
  | succ f ih =>
    intro bufsize attempts
    simp only [top_loop, encode_pass_tuple, ih]

/-- Whatever the elements are, `cbor_dumps` of a tuple is `cbor_dumps` of the list of the
same elements: the same octets, or the same exception. -/
theorem cbor_dumps_tuple (cfg : Config) (fuel : Nat) (xs : List MpObj) :
    cbor_dumps cfg fuel (.tuple xs) = cbor_dumps cfg fuel (.list xs) := by
  simp only [cbor_dumps, mp_obj_to_cbor_text_recursive, top_loop_tuple]

/-- A call whose accumulation target is a list returns a list. -/
theorem decode_loop_list_kind (cfg : Config) :
    ∀ (fuel : Nat) (it : CborValue) (acc : List MpObj) (dvn : Bool) (key : MpObj)
      (r : MpObj × CborValue),
      decode_loop cfg fuel it (.list acc) dvn key = .ok r → ∃ ys, r.1 = .list ys := by
  intro fuel
  induction fuel with
  | zero => intro it acc dvn key r h; simp [decode_loop] at h
  | succ f ih =>
    intro it acc dvn key r h
    rw [decode_loop_succ] at h
    by_cases hend : cbor_value_at_end it = true
    · simp only [hend, if_true] at h
      cases dvn
      · simp only [Bool.false_eq_true, if_false, Except.ok.injEq] at h
        exact ⟨acc, by rw [← h]⟩
      · simp at h
    · simp only [hend, if_false] at h
      cases hitem : decode_item cfg f it with
      | error ex => simp [hitem] at h
      | ok p =>
        obtain ⟨x, it1⟩ := p
        simp only [hitem] at h
        cases hadv : advance_unless_variable (cbor_value_get_type it) it1 with
        | error ex => simp [hadv] at h
        | ok it2 =>
          simp only [hadv] at h
          exact ih _ _ _ _ _ h

/-- A root item of array type decodes, if at all, to a list. -/
theorem root_array_is_list (cfg : Config) (fuel : Nat) (it : CborValue) (r : MpObj × CborValue)
    (hty : it.type = CborArrayType) (hrem : it.remaining ≠ 0)
    (h : decode_loop cfg fuel it .none false .none = .ok r) : ∃ ys, r.1 = .list ys := by
  cases fuel with
  | zero => simp [decode_loop] at h
  | succ f =>
    rw [decode_loop_succ] at h
    simp only [cbor_value_at_end, beq_iff_eq, hrem, if_false] at h
    simp only [decode_item, cbor_value_get_type, hty, true_or, if_true] at h
    cases henter : cbor_value_enter_container it with
    | error ex => simp [henter] at h
    | ok recursed =>
      simp only [henter] at h
      cases hloop : decode_loop cfg f recursed (.list []) false .none with
      | error ex => simp [hloop] at h
      | ok q =>
        obtain ⟨filled, recursed1⟩ := q
        simp only [hloop] at h
        cases hleave : cbor_value_leave_container it recursed1 with
        | error ex => simp [hleave] at h
        | ok it1 =>
          simp only [hleave, Except.ok.injEq] at h
          obtain ⟨ys, hys⟩ := decode_loop_list_kind cfg f recursed [] false .none _ hloop
          exact ⟨ys, by rw [← h]; exact hys⟩

/-- C19: a tuple of encodable values is encoded to the very octets of the list of the same
values (lines 273-285 are one branch for both types).  Whatever the decoder makes of these
octets is a list, never a tuple; and when the values are plain it is the list of the same
values. -/
theorem tuple_encodes_as_list (cfg : Config) (fuel : Nat) (xs : List MpObj)
    (hxs : EncodableItems xs) (hlen : xs.length < CborIndefiniteLength) (hfuel : 2 ≤ fuel) :
    ∃ bs : List Byte,
      cbor_dumps cfg fuel (.tuple xs) = .ok bs ∧ cbor_dumps cfg fuel (.list xs) = .ok bs ∧
      (∀ (fuel_dec : Nat) (v : MpObj), cbor_loads cfg fuel_dec bs = .ok v →
        ∃ ys, v = .list ys) ∧
      (PlainItems cfg xs → xs.length < UINT32_MAX → ∀ fuel_dec : Nat,
        bs.length < fuel_dec → cbor_loads cfg fuel_dec bs = .ok (.list xs)) := by
  have hl : Encodable (.list xs) := by
    simp only [Encodable]
    exact ⟨hlen, hxs⟩
  have hbs : unbounded_pass cfg (.list xs) =
      header_bytes xs.length 0x80 ++ unbounded_items cfg xs := by
    simp only [unbounded_pass]
  refine ⟨unbounded_pass cfg (.list xs), ?_, cbor_dumps_eq cfg _ hl fuel hfuel, ?_, ?_⟩
  · rw [cbor_dumps_tuple]
    exact cbor_dumps_eq cfg _ hl fuel hfuel
  · intro fuel_dec v h
    have hlt : xs.length < 2 ^ 64 := by
      simp only [CborIndefiniteLength, SIZE_MAX] at hlen
      omega
    have hinit := preparse_value_header xs.length 0x80 (unbounded_items cfg xs) 1
      CborInvalidType hlt (by decide) (by decide)
    simp only [cbor_loads, cbor_parser_init, hbs, hinit, cbor_it_to_mp_obj_recursive] at h
    cases hloop : decode_loop cfg fuel_dec
        { ptr := header_bytes xs.length 0x80 ++ unbounded_items cfg xs, remaining := 1,
          type := major_type (0x80 / 32) } MpObj.none false MpObj.none with
    | error ex => simp [hloop] at h
    | ok r =>
      simp only [hloop, Except.ok.injEq] at h
      obtain ⟨ys, hys⟩ := root_array_is_list cfg fuel_dec _ r rfl (by simp) hloop
      exact ⟨ys, by rw [← h]; exact hys⟩
  · intro hp hshort fuel_dec hf
    have hplain : Plain cfg (.list xs) := by
      simp only [Plain]
      exact ⟨hshort, hp⟩
    have := cbor_loads_unbounded cfg (.list xs) hplain [] fuel_dec hf
    simpa using this

/-- The tuple `(1, [2])`: the octets `82 01 81 02` of the list `[1, [2]]`, which decode to
that list. -/
theorem tuple_encodes_as_list_witness :
    EncodableItems [.int 1, .list [.int 2]] ∧
      (∃ bs : List Byte,
        cbor_dumps hostBuild 2 (.tuple [.int 1, .list [.int 2]]) = .ok bs ∧
        cbor_dumps hostBuild 2 (.list [.int 1, .list [.int 2]]) = .ok bs ∧
        (∀ (fuel_dec : Nat) (v : MpObj), cbor_loads hostBuild fuel_dec bs = .ok v →
          ∃ ys, v = .list ys) ∧
        (PlainItems hostBuild [.int 1, .list [.int 2]] →
          [MpObj.int 1, .list [.int 2]].length < UINT32_MAX → ∀ fuel_dec : Nat,
          bs.length < fuel_dec →
          cbor_loads hostBuild fuel_dec bs = .ok (.list [.int 1, .list [.int 2]]))) ∧
      cbor_dumps hostBuild 2 (.tuple [.int 1, .list [.int 2]]) =
        .ok [0x82, 0x01, 0x81, 0x02] ∧
      cbor_loads hostBuild 5 [0x82, 0x01, 0x81, 0x02] = .ok (.list [.int 1, .list [.int 2]]) :=
  ⟨by simp [EncodableItems, Encodable, CborIndefiniteLength, SIZE_MAX],
    tuple_encodes_as_list hostBuild 2 [.int 1, .list [.int 2]]
      (by simp [EncodableItems, Encodable, CborIndefiniteLength, SIZE_MAX])
      (by simp [CborIndefiniteLength, SIZE_MAX]) (le_refl 2),
    rfl, rfl⟩

theorem foldl_be_lt (bs : List Byte) :
    ∀ acc : Nat, bs.foldl (fun a (b : Byte) => a * 256 + b.val) acc < (acc + 1) * 256 ^ bs.length := by
  induction bs with
  | nil => intro acc; simp
  | cons b rest ih =>
    intro acc
    simp only [List.foldl_cons, List.length_cons]
    have h1 := ih (acc * 256 + b.val)
    have hb : b.val < 256 := b.isLt
    have h2 : (acc * 256 + b.val + 1) * 256 ^ rest.length ≤
        (acc + 1) * 256 * 256 ^ rest.length :=
      Nat.mul_le_mul_right _ (by omega)
    have h3 : (acc + 1) * 256 * 256 ^ rest.length = (acc + 1) * 256 ^ (rest.length + 1) := by
      rw [Nat.pow_succ]
      ring
    omega

theorem beValue_lt (bs : List Byte) : beValue bs < 256 ^ bs.length := by
  have := foldl_be_lt bs 0
  simpa [beValue] using this

/-- The argument of a header is below `2 ^ 64`. -/
theorem extract_number_lt (ptr p : List Byte) (v : Nat)
    (h : extract_number ptr = .ok (v, p)) : v < 2 ^ 64 := by
  cases ptr with
  | nil => simp [extract_number] at h
  | cons b rest =>
    simp only [extract_number] at h
    split_ifs at h with h1 h2 h3
    · simp only [Except.ok.injEq, Prod.mk.injEq] at h
      omega
    · simp only [Except.ok.injEq, Prod.mk.injEq] at h
      obtain ⟨hv, _⟩ := h
      have hlen : (rest.take (2 ^ (b.val % 32 - 24))).length ≤ 8 := by
        have hk : 2 ^ (b.val % 32 - 24) ≤ 8 := by
          have : b.val % 32 - 24 ≤ 3 := by omega
          calc 2 ^ (b.val % 32 - 24) ≤ 2 ^ 3 := Nat.pow_le_pow_right (by norm_num) this
            _ = 8 := by norm_num
        exact le_trans (List.length_take_le _ _) hk
      have hlt := beValue_lt (rest.take (2 ^ (b.val % 32 - 24)))
      have hpow : 256 ^ (rest.take (2 ^ (b.val % 32 - 24))).length ≤ 256 ^ 8 :=
        Nat.pow_le_pow_right (by norm_num) hlen
      rw [← hv]
      have h8 : (256 : Nat) ^ 8 = 2 ^ 64 := by norm_num
      omega

/-- A cursor that shows an integer stands on a header of major type 0 or 1. -/
theorem preparse_value_integer (it it1 : CborValue) (h : preparse_value it = .ok it1)
    (hty : it1.type = CborIntegerType) :
    (it.ptr.headD 0).val / 32 = 0 ∨ (it.ptr.headD 0).val / 32 = 1 := by
  obtain ⟨p, r, ty⟩ := it
  cases p with
  | nil => simp [preparse_value] at h
  | cons b rest =>
    simp only [preparse_value] at h
    simp only [List.headD_cons]
    split_ifs at h with h1 h2 h3 h4 h5 h6
    all_goals simp only [Except.ok.injEq] at h
    all_goals subst h
    all_goals simp only at hty
    all_goals first
      | exact major_type_integer _ hty
      | exact absurd hty (simple_type_ne_integer _)

/-- Reading the argument as `int64_t` and negating in `int64_t` gives the item's value
reduced modulo `2 ^ 64` into the signed range. -/
theorem cbor_value_get_int64_wraps (it : CborValue) (v : Nat) (p : List Byte)
    (hx : extract_number it.ptr = .ok (v, p)) :
    cbor_value_get_int64 it =
      wrap64 (if (it.ptr.headD 0).val / 32 = 1 then -1 - (v : Int) else (v : Int)) := by
  simp only [cbor_value_get_int64, hx]
  split_ifs
  · norm_num [wrap64]
    omega
  · rfl

/-- C20: the dispatch reads an integer item with `cbor_value_get_int64` and checks no range.
For every cursor that shows an integer item, with the value `n` that the format assigns to
the item, the decode of the item succeeds and yields the `int` that is `n` reduced modulo
`2 ^ 64` into the signed 64-bit range: `n` itself when `-2 ^ 63 ≤ n < 2 ^ 63`, `n - 2 ^ 64`
for an unsigned item from `2 ^ 63` on, `n + 2 ^ 64` for a negative item below `-2 ^ 63`.  At
the root `cbor_loads` returns that `int`. -/
theorem integer_decoding_wraps (cfg : Config) (f : Nat) (it : CborValue)
    (hcur : preparse_value it = .ok it) (hty : it.type = CborIntegerType) :
    ∃ n : Int, item_int_value it.ptr = some n ∧ -2 ^ 64 ≤ n ∧ n < 2 ^ 64 ∧
      decode_item cfg f it = .ok (.int (wrap64 n), it) ∧
      (∀ buf : List Byte, cbor_parser_init buf = .ok it →
        cbor_loads cfg (f + 1) buf = .ok (.int (wrap64 n))) ∧
      (-2 ^ 63 ≤ n → n < 2 ^ 63 → wrap64 n = n) ∧
      (2 ^ 63 ≤ n → wrap64 n = n - 2 ^ 64) ∧
      (n < -2 ^ 63 → wrap64 n = n + 2 ^ 64) := by
  obtain ⟨b, rest, hp, hi, _, _⟩ := preparse_value_inv it it hcur
  obtain ⟨v, p, hx⟩ := hi hty
  rw [← hp] at hx
  have hv : v < 2 ^ 64 := extract_number_lt it.ptr p v hx
  have hitem : decode_item cfg f it =
      .ok (.int (wrap64 (if (it.ptr.headD 0).val / 32 = 1 then -1 - (v : Int) else (v : Int))),
        it) := by
    simp only [decode_item, cbor_value_get_type, hty, decode_scalar, reduceCtorEq, or_self,
      if_false, cbor_value_get_int64_wraps it v p hx]
  have hvi : (v : Int) < 2 ^ 64 := by exact_mod_cast hv
  have hv0 : (0 : Int) ≤ (v : Int) := Int.ofNat_nonneg v
  refine ⟨if (it.ptr.headD 0).val / 32 = 1 then -1 - (v : Int) else (v : Int), ?_, ?_, ?_,
    hitem, ?_, ?_, ?_, ?_⟩
  · simp only [item_int_value, hx]
  · split_ifs
    · norm_num at hvi ⊢
      omega
    · norm_num at hvi ⊢
      omega
  · split_ifs
    · norm_num at hvi ⊢
      omega
    · exact hvi
  · intro buf hinit
    have hrem : it.remaining ≠ 0 := by
      rw [cbor_parser_init_remaining buf it hinit]
      decide
    simp only [cbor_loads, hinit, cbor_it_to_mp_obj_recursive]
    rw [decode_loop_root_step cfg f it it _ .none false hrem hitem]
  · intro h1 h2
    exact wrap64_id _ h1 h2
  · intro h1
    split_ifs at h1 ⊢
    · norm_num [wrap64] at hvi h1 ⊢
      omega
    · norm_num [wrap64] at hvi h1 ⊢
      omega
  · intro h1
    split_ifs at h1 ⊢
    · norm_num [wrap64] at hvi h1 ⊢
      omega
    · norm_num [wrap64] at hvi h1 ⊢
      omega

/-- The item `3b ff ff ff ff ff ff ff ff`, the negative integer `-2 ^ 64`: the decode
succeeds and returns `0`.  The item `1b ff ff ff ff ff ff ff ff`, the unsigned integer
`2 ^ 64 - 1`, decodes to `-1`. -/
theorem integer_decoding_wraps_witness :
    (∃ n : Int,
      item_int_value [0x3b, 0xff, 0xff, 0xff, 0xff, 0xff, 0xff, 0xff, 0xff] = some n ∧
      -2 ^ 64 ≤ n ∧ n < 2 ^ 64 ∧
      decode_item hostBuild 0
          { ptr := [0x3b, 0xff, 0xff, 0xff, 0xff, 0xff, 0xff, 0xff, 0xff], remaining := 1,
            type := CborIntegerType } =
        .ok (.int (wrap64 n),
          { ptr := [0x3b, 0xff, 0xff, 0xff, 0xff, 0xff, 0xff, 0xff, 0xff], remaining := 1,
            type := CborIntegerType }) ∧
      (∀ buf : List Byte,
        cbor_parser_init buf =
          .ok { ptr := [0x3b, 0xff, 0xff, 0xff, 0xff, 0xff, 0xff, 0xff, 0xff], remaining := 1,
                type := CborIntegerType } →
        cbor_loads hostBuild (0 + 1) buf = .ok (.int (wrap64 n))) ∧
      (-2 ^ 63 ≤ n → n < 2 ^ 63 → wrap64 n = n) ∧
      (2 ^ 63 ≤ n → wrap64 n = n - 2 ^ 64) ∧
      (n < -2 ^ 63 → wrap64 n = n + 2 ^ 64)) ∧
      item_int_value [0x3b, 0xff, 0xff, 0xff, 0xff, 0xff, 0xff, 0xff, 0xff] = some (-2 ^ 64) ∧
      cbor_loads hostBuild 1 [0x3b, 0xff, 0xff, 0xff, 0xff, 0xff, 0xff, 0xff, 0xff] =
        .ok (.int 0) ∧
      cbor_loads hostBuild 1 [0x1b, 0xff, 0xff, 0xff, 0xff, 0xff, 0xff, 0xff, 0xff] =
        .ok (.int (-1)) :=
  ⟨integer_decoding_wraps hostBuild 0
      { ptr := [0x3b, 0xff, 0xff, 0xff, 0xff, 0xff, 0xff, 0xff, 0xff], remaining := 1,
        type := CborIntegerType } rfl rfl,
    rfl, rfl, rfl⟩

/-- The self-call of the final `else` returns from an explicit branch: its argument is the
code of `CborUnknownError`, which the second comparison of the chain matches (or the first,
should the two enumerators share a value). -/
theorem cbor_error_string_self_call (code : CborError → Int) (depth : Nat) :
    cbor_error_string_bounded code (depth + 1) (code CborUnknownError) =
      some (cbor_error_string code (code CborUnknownError)) := by
  rw [cbor_error_string_bounded, cbor_error_string]
  by_cases h0 : code CborUnknownError = code CborNoError
  · simp only [h0, if_true]
  · simp only [h0, if_false, if_true]

/-- A branch that returns at once on both sides of a comparison. -/
theorem ite_some_congr (c : Prop) [Decidable c] (a y : String) (x : Option String)
    (h : x = some y) : (if c then some a else x) = some (if c then a else y) := by
  split_ifs
  · rfl
  · exact h

/-- Two levels of calls are enough for every code. -/
theorem cbor_error_string_depth (code : CborError → Int) (depth : Nat) (error : Int) :
    cbor_error_string_bounded code (depth + 2) error = some (cbor_error_string code error) := by
  rw [cbor_error_string_bounded, cbor_error_string]
  repeat apply ite_some_congr
  exact cbor_error_string_self_call code depth

/-- A code that no comparison of the chain matches gets the generic message. -/
theorem cbor_error_string_unhandled (code : CborError → Int) (error : Int)
    (hcode : code CborUnknownError ≠ code CborNoError)
    (h : ∀ e ∈ handled_errors, error ≠ code e) :
    cbor_error_string code error = "unknown error" := by
  simp only [handled_errors, List.mem_cons, List.mem_singleton, forall_eq_or_imp, forall_eq,
    List.not_mem_nil, false_implies, implies_true, and_true] at h
  rw [cbor_error_string]
  simp only [h, if_false, or_self]
  rw [cbor_error_string]
  simp only [hcode, if_false, if_true]

/-- C21: `cbor_error_string` is total with a single fallback.  For every integer code,
also one that is the value of no enumerator or of an enumerator missing from the chain,
the call returns a string with at most one nested self-call (a call depth of two is
enough, and the self-call on `CborUnknownError` returns at once); and for every code that
no comparison of the chain matches the result is exactly `"unknown error"`, reached through
that one self-call (a call depth of one is not enough). -/
theorem error_string_total_with_fallback (code : CborError → Int) (error : Int)
    (hcode : code CborUnknownError ≠ code CborNoError) :
    cbor_error_string_bounded code 2 error = some (cbor_error_string code error) ∧
      cbor_error_string_bounded code 1 (code CborUnknownError) = some "unknown error" ∧
      ((∀ e ∈ handled_errors, error ≠ code e) →
        cbor_error_string code error = "unknown error" ∧
          cbor_error_string_bounded code 1 error = none) := by
  refine ⟨cbor_error_string_depth code 0 error, ?_, ?_⟩
  · rw [cbor_error_string_bounded]
    simp only [hcode, if_false, if_true]
  · intro h
    refine ⟨cbor_error_string_unhandled code error hcode h, ?_⟩
    simp only [handled_errors, List.mem_cons, List.mem_singleton, forall_eq_or_imp, forall_eq,
      List.not_mem_nil, false_implies, implies_true, and_true] at h
    rw [cbor_error_string_bounded]
    simp only [h, if_false, or_self]
    rfl

/-- With the values of `cbor.h`: the code 12345, the value of no enumerator, and the code
518 of `CborErrorExcludedValue`, an enumerator missing from the chain, both give
`"unknown error"` through one self-call. -/
theorem error_string_total_with_fallback_witness :
    cbor_h_code CborUnknownError ≠ cbor_h_code CborNoError ∧
      cbor_error_string_bounded cbor_h_code 2 12345 = some "unknown error" ∧
      cbor_error_string cbor_h_code 12345 = "unknown error" ∧
      cbor_error_string cbor_h_code 518 = "unknown error" :=
  ⟨by decide,
    ((error_string_total_with_fallback cbor_h_code 12345 (by decide)).1).trans
      (congrArg some
        ((error_string_total_with_fallback cbor_h_code 12345 (by decide)).2.2
          (by simp [handled_errors, cbor_h_code])).1),
    ((error_string_total_with_fallback cbor_h_code 12345 (by decide)).2.2
      (by simp [handled_errors, cbor_h_code])).1,
    ((error_string_total_with_fallback cbor_h_code 518 (by decide)).2.2
      (by simp [handled_errors, cbor_h_code])).1⟩

end UCbor
